import Mathlib

/-!
# Memory pool allocator (`memory_pool_allocator.hpp`)

A shallow embedding of `pool_alloc_base` / `pool_alloc<T>`.

* Addresses are natural numbers, `0` is `nullptr`.
* `std::size_t` is 64 bits wide: every `size_t` computation is reduced
  modulo `SIZE_RANGE = 2 ^ 64`.  `int` is 32 bits wide.
* `Pool.mem a` is the `free_list_link` word stored at address `a`.  The
  allocator only ever reads and writes link words at the first byte of a
  block.
* The underlying heap (`::operator new`, `std::malloc`) is a script: the list
  of the answers it gives to the successive requests of one call
  (`some a`: the address of the new region, `none`: out of memory).  Every
  call reports the log of the requests it made.
* The calls of `std::free` are recorded in `Pool.freed`, the pointers handed
  to it, the most recent first.
-/

namespace pool_alloc_base

/-- The largest pooled request, `enum { MAX_BYTES = 65536 }`. -/
def MAX_BYTES : Nat := 65536

/-- The block granularity, `enum { ALIGN = 64 }`. -/
def ALIGN : Nat := 64

/-- The number of free lists, `MAX_BYTES / ALIGN`. -/
def FREE_LIST_SIZE : Nat := MAX_BYTES / ALIGN

/-- The number of values of a 64-bit `std::size_t`. -/
def SIZE_RANGE : Nat := 18446744073709551616

/-- The static state of `pool_alloc_base`, together with the part of the
world it acts on: the link words stored in memory and the record of the
calls of `std::free`. -/
structure Pool where
  /-- The array `free_list[FREE_LIST_SIZE]` of list heads. -/
  free_list : Nat → Nat
  /-- The word `free_list_link` stored at each address. -/
  mem : Nat → Nat
  start_mem_pool : Nat
  end_mem_pool : Nat
  heap_size : Nat
  /-- The pointers handed to `std::free` so far, the most recent first. -/
  freed : List Nat

/-- The static initialisers: null arena, `heap_size = 0`, every list head
null.  The contents `m` of memory are arbitrary; nothing has been freed. -/
def init (m : Nat → Nat) : Pool :=
  { free_list := fun _ => 0, mem := m, start_mem_pool := 0, end_mem_pool := 0, heap_size := 0,
    freed := [] }

/-- One request to the heap: the number of bytes asked and the answer. -/
abbrev HeapEvent := Nat × Option Nat

/-- The result of a call that may throw. -/
inductive Outcome (α : Type) where
  /-- Normal return with a value, the new state and the heap requests made. -/
  | ret (val : α) (s : Pool) (log : List HeapEvent)
  /-- A `std::bad_alloc` leaves the call, with the state it leaves behind. -/
  | bad_alloc (s : Pool) (log : List HeapEvent)
  /-- Undefined behaviour: `free_list` indexed outside the array, or a write
  through a null pointer, or a loop running into signed overflow. -/
  | fault
  /-- The heap script ended before the call did. -/
  | no_reply

/-- Record one more heap request in front of the log of an outcome. -/
def Outcome.logged {α : Type} (e : HeapEvent) : Outcome α → Outcome α
  | .ret v s log => .ret v s (e :: log)
  | .bad_alloc s log => .bad_alloc s (e :: log)
  | .fault => .fault
  | .no_reply => .no_reply

/-- Conversion of an `int` to `size_t`. -/
def to_size_t (x : Int) : Nat := (x % (SIZE_RANGE : Int)).toNat

/-- Conversion `(int)` of a `size_t` (two's complement, 32 bits). -/
def to_int (x : Nat) : Int :=
  if x % 4294967296 < 2147483648 then ((x % 4294967296 : Nat) : Int)
  else ((x % 4294967296 : Nat) : Int) - 4294967296

/-- The source's `round_up`:
`((bytes) + (size_t)ALIGN - 1) & ~((size_t)ALIGN - 1)`. -/
def round_up (bytes : Nat) : Nat :=
  ((bytes + ALIGN - 1) % SIZE_RANGE) &&& (SIZE_RANGE - 1 - (ALIGN - 1))

/-- The index computed by `get_free_list`:
`(bytes + (size_t)ALIGN - 1) / (size_t)ALIGN - 1`, in `size_t`; the
subtraction `q - 1` modulo `SIZE_RANGE` is `(SIZE_RANGE - 1 + q) % SIZE_RANGE`. -/
def get_free_list (bytes : Nat) : Nat :=
  (SIZE_RANGE - 1 + (bytes + ALIGN - 1) % SIZE_RANGE / ALIGN) % SIZE_RANGE

/-- The value `end_mem_pool - start_mem_pool` converted to `size_t`. -/
def bytes_left (s : Pool) : Nat :=
  (((s.end_mem_pool : Int) - (s.start_mem_pool : Int)) % (SIZE_RANGE : Int)).toNat

/-- Lines 116-122 of `allocate_chunk`: the remainder of the arena is pushed
on the free list of its size.  `none` is an index outside the array. -/
def salvage (s : Pool) : Option Pool :=
  if 0 < bytes_left s ∧ s.start_mem_pool ≠ 0 then
    let i := get_free_list (bytes_left s)
    if i < FREE_LIST_SIZE then
      some { s with
        mem := Function.update s.mem s.start_mem_pool (s.free_list i),
        free_list := Function.update s.free_list i s.start_mem_pool }
    else none
  else some s

/-- The result of the scan of the `catch` branch. -/
inductive Scavenged where
  /-- A bucket gave its head, which is the new arena. -/
  | donor (s : Pool)
  /-- The loop ended without a donor. -/
  | exhausted
  /-- An index outside the array. -/
  | fault

/-- Lines 131-142 of `allocate_chunk`:
`for (size_t i = size; i <= MAX_BYTES; i += ALIGN)`.  The first argument
bounds the number of iterations. -/
def scavenge_loop : Nat → Pool → Nat → Scavenged
  | 0, _, _ => .exhausted
  | fuel + 1, s, i =>
    if i ≤ MAX_BYTES then
      let k := get_free_list i
      if k < FREE_LIST_SIZE then
        let p := s.free_list k
        if p ≠ 0 then
          .donor { s with
            free_list := Function.update s.free_list k (s.mem p),
            start_mem_pool := p,
            end_mem_pool := p + i }
        else scavenge_loop fuel s (i + ALIGN)
      else .fault
    else .exhausted

/-- The scan from `size`; it makes at most `FREE_LIST_SIZE + 1` iterations. -/
def scavenge (s : Pool) (size : Nat) : Scavenged :=
  scavenge_loop (FREE_LIST_SIZE + 1) s size

/-- The source's `allocate_chunk(size, cnt_objs)`; the value returned is the
chunk address with the updated `cnt_objs`.  The heap is asked (`::operator
new(bytes_to_get)`) after the salvage; `heap_size >> 4` is `heap_size / 16`. -/
def allocate_chunk (size : Nat) : List (Option Nat) → Pool → Int → Outcome (Nat × Int)
  | heap, s, cnt_objs =>
    let total_bytes := (size * to_size_t cnt_objs) % SIZE_RANGE
    if bytes_left s ≥ total_bytes then
      .ret (s.start_mem_pool, cnt_objs)
        { s with start_mem_pool := s.start_mem_pool + total_bytes } []
    else if bytes_left s ≥ size then
      let cnt_objs := to_int (bytes_left s / size)
      let total_bytes := (size * to_size_t cnt_objs) % SIZE_RANGE
      .ret (s.start_mem_pool, cnt_objs)
        { s with start_mem_pool := s.start_mem_pool + total_bytes } []
    else
      match salvage s, heap with
      | none, _ => .fault
      | some _, [] => .no_reply
      | some s1, some a :: rest =>
        let bytes_to_get := (2 * total_bytes + round_up (s1.heap_size / 16)) % SIZE_RANGE
        (allocate_chunk size rest
          { s1 with
            start_mem_pool := a,
            heap_size := (s1.heap_size + bytes_to_get) % SIZE_RANGE,
            end_mem_pool := a + bytes_to_get } cnt_objs).logged (bytes_to_get, some a)
      | some s1, none :: rest =>
        let bytes_to_get := (2 * total_bytes + round_up (s1.heap_size / 16)) % SIZE_RANGE
        match scavenge s1 size with
        | .donor s2 => (allocate_chunk size rest s2 cnt_objs).logged (bytes_to_get, none)
        | .exhausted =>
          .bad_alloc { s1 with start_mem_pool := 0, end_mem_pool := 0 } [(bytes_to_get, none)]
        | .fault => .fault

/-- The loop of `refill`, lines 72-83: `for (int i = 1;; i++)`.  The first
argument bounds the number of iterations; `none` is a loop that did not
reach its `break`. -/
def refill_loop : Nat → (Nat → Nat) → Nat → Int → Int → Nat → Option (Nat → Nat)
  | 0, _, _, _, _, _ => none
  | fuel + 1, mem, n, cnt_objs, i, next_obj =>
    let current_obj := next_obj
    let next_obj := next_obj + n
    if cnt_objs - 1 = i then some (Function.update mem current_obj 0)
    else refill_loop fuel (Function.update mem current_obj next_obj) n cnt_objs (i + 1) next_obj

/-- The source's `refill(n)`. -/
def refill (heap : List (Option Nat)) (s : Pool) (n : Nat) : Outcome Nat :=
  match allocate_chunk n heap s 20 with
  | .ret (chunk, cnt_objs) s1 log =>
    if cnt_objs = 1 then .ret chunk s1 log
    else
      let k := get_free_list n
      if k < FREE_LIST_SIZE then
        match refill_loop cnt_objs.toNat s1.mem n cnt_objs 1 (chunk + n) with
        | some m =>
          .ret chunk { s1 with free_list := Function.update s1.free_list k (chunk + n), mem := m } log
        | none => .fault
      else .fault
  | .bad_alloc s1 log => .bad_alloc s1 log
  | .fault => .fault
  | .no_reply => .no_reply

end pool_alloc_base

namespace pool_alloc

open pool_alloc_base

/-- The source's `alloc(n)`: `std::malloc`, a null result throws. -/
def alloc (heap : List (Option Nat)) (s : Pool) (n : Nat) : Outcome Nat :=
  match heap with
  | [] => .no_reply
  | some a :: _ => if a = 0 then .bad_alloc s [(n, some a)] else .ret a s [(n, some a)]
  | none :: _ => .bad_alloc s [(n, none)]

/-- The source's `dealloc(p, n)`: `std::free(p)`.  The call is recorded in
`freed`; the members of the pool are left as they are. -/
def dealloc (s : Pool) (p _n : Nat) : Option Pool := some { s with freed := p :: s.freed }

/-- The source's `_allocate(n)`. -/
def _allocate (heap : List (Option Nat)) (s : Pool) (n : Nat) : Outcome Nat :=
  if n > MAX_BYTES then alloc heap s n
  else
    let k := get_free_list n
    if k < FREE_LIST_SIZE then
      let res := s.free_list k
      if res = 0 then refill heap s (round_up n)
      else .ret res { s with free_list := Function.update s.free_list k (s.mem res) } []
    else .fault

/-- The source's `_deallocate(p, n)`; `none` is undefined behaviour (an index
outside the array, or the link written through a null `p`).  The store
`q->free_list_link = ...` is the write of the link word of `p`: this is what
the code does when `p` is the address of a block, whose first eight bytes
belong to no other block; a store through any other pointer (unmapped, or
inside the link word of another block) is not described by this model. -/
def _deallocate (s : Pool) (p n : Nat) : Option Pool :=
  if n > MAX_BYTES then dealloc s p n
  else
    let k := get_free_list n
    if k < FREE_LIST_SIZE then
      if p = 0 then none
      else some { s with
        mem := Function.update s.mem p (s.free_list k),
        free_list := Function.update s.free_list k p }
    else none

/-- The byte count `allocate(_Count)` passes to `_allocate`, for
`sizeof(value_type) = sz`. -/
def allocate_bytes (sz _Count : Nat) : Nat := (_Count * sz) % SIZE_RANGE

/-- The byte count `deallocate(_Ptr, _Count)` passes to `_deallocate`. -/
def deallocate_bytes (_sz _Count : Nat) : Nat := _Count

/-- The source's `allocate(_Count)` for `sizeof(value_type) = sz`. -/
def allocate (sz : Nat) (heap : List (Option Nat)) (s : Pool) (_Count : Nat) : Outcome Nat :=
  if _Count > (SIZE_RANGE - 1) / sz then .bad_alloc s []
  else
    match _allocate heap s (allocate_bytes sz _Count) with
    | .ret p s1 log => if p ≠ 0 then .ret p s1 log else .bad_alloc s1 log
    | o => o

/-- The source's `deallocate(_Ptr, _Count)` for `sizeof(value_type) = sz`. -/
def deallocate (sz : Nat) (s : Pool) (_Ptr _Count : Nat) : Option Pool :=
  _deallocate s _Ptr (deallocate_bytes sz _Count)

end pool_alloc

/-! ## Specification vocabulary -/

namespace pool_alloc_base

/-- The value an outcome returns, if it returns. -/
def Outcome.val? {α : Type} : Outcome α → Option α
  | .ret v _ _ => some v
  | _ => none

/-- The state an outcome leaves, when the call returns or throws. -/
def Outcome.state? {α : Type} : Outcome α → Option Pool
  | .ret _ s _ => some s
  | .bad_alloc s _ => some s
  | _ => none

/-- The heap requests an outcome reports. -/
def Outcome.log? {α : Type} : Outcome α → Option (List HeapEvent)
  | .ret _ _ log => some log
  | .bad_alloc _ log => some log
  | _ => none

end pool_alloc_base

namespace pool_alloc

open pool_alloc_base

/-- A block of memory: its first address and its size in bytes. -/
abbrev Block := Nat × Nat

/-- The byte at address `x` belongs to the block. -/
def Block.has (b : Block) (x : Nat) : Prop := b.1 ≤ x ∧ x < b.1 + b.2

/-- One block ends before the other starts. -/
def Disj (a b : Block) : Prop := a.1 + a.2 ≤ b.1 ∨ b.1 + b.2 ≤ a.1

/-- The arena span `[start_mem_pool, end_mem_pool)`. -/
def arena (s : Pool) : Block := (s.start_mem_pool, s.end_mem_pool - s.start_mem_pool)

/-- The bytes of an outstanding allocation `(p, n)`: `[p, p + round_up n)`. -/
def live_block (a : Nat × Nat) : Block := (a.1, round_up a.2)

/-- The bytes of a block at address `a` of bucket `i`: `(i + 1) * ALIGN` of them. -/
def bucket_block (i a : Nat) : Block := (a, (i + 1) * ALIGN)

/-- The predicate `IsChain mem h l`: following the links from the head `h`
visits the addresses `l` in order and then reaches null. -/
def IsChain (mem : Nat → Nat) : Nat → List Nat → Prop
  | h, [] => h = 0
  | h, a :: l => h = a ∧ a ≠ 0 ∧ IsChain mem (mem a) l

/-- The regions the pool holds after the heap requests of a log. -/
def regions_after : List Block → List HeapEvent → List Block
  | regs, [] => regs
  | regs, (_, none) :: log => regions_after regs log
  | regs, (sz, some a) :: log => regions_after ((a, sz) :: regs) log

/-- The heap behaves: a region it grants is not null and shares no byte
with a region it granted before (the pool never gives a region back). -/
def HeapOK : List Block → List HeapEvent → Prop
  | _, [] => True
  | regs, (_, none) :: log => HeapOK regs log
  | regs, (sz, some a) :: log =>
    a ≠ 0 ∧ (∀ r ∈ regs, Disj (a, sz) r) ∧ HeapOK ((a, sz) :: regs) log

/-- The states the allocator reaches from its initial state, with the
outstanding pooled allocations `(p, n)` and the regions obtained from the
heap.  A deallocation returns an outstanding block with the size of its
allocation (the outstanding allocations are `(p, n)` and `rest`); between
calls the client may write into the blocks it holds. -/
inductive Reach : Pool → List (Nat × Nat) → List Block → Prop
  | init (m : Nat → Nat) : Reach (init m) [] []
  | allocate {s s1 : Pool} {live : List (Nat × Nat)} {regs : List Block}
      {heap : List (Option Nat)} {n p : Nat} {log : List HeapEvent} :
      Reach s live regs → 1 ≤ n → n ≤ MAX_BYTES → HeapOK regs log →
      _allocate heap s n = .ret p s1 log →
      Reach s1 ((p, n) :: live) (regions_after regs log)
  | allocate_failed {s s1 : Pool} {live : List (Nat × Nat)} {regs : List Block}
      {heap : List (Option Nat)} {n : Nat} {log : List HeapEvent} :
      Reach s live regs → 1 ≤ n → n ≤ MAX_BYTES → HeapOK regs log →
      _allocate heap s n = .bad_alloc s1 log →
      Reach s1 live (regions_after regs log)
  | deallocate {s s1 : Pool} {live rest : List (Nat × Nat)} {regs : List Block} {p n : Nat} :
      Reach s live regs → live.Perm ((p, n) :: rest) → _deallocate s p n = some s1 →
      Reach s1 rest regs
  | oversized {s s1 : Pool} {live : List (Nat × Nat)} {regs : List Block}
      {heap : List (Option Nat)} {n : Nat} {o : Outcome Nat} :
      Reach s live regs → MAX_BYTES < n → _allocate heap s n = o → o.state? = some s1 →
      Reach s1 live regs
  | oversized_free {s s1 : Pool} {live : List (Nat × Nat)} {regs : List Block} {p n : Nat} :
      Reach s live regs → MAX_BYTES < n → _deallocate s p n = some s1 →
      Reach s1 live regs
  | client_write {s : Pool} {live : List (Nat × Nat)} {regs : List Block} (m : Nat → Nat) :
      Reach s live regs →
      (∀ x, (∀ b ∈ live, ¬ (live_block b).has x) → m x = s.mem x) →
      Reach { s with mem := m } live regs

/-- The state after bucket `j` gave its head to the arena. -/
def donate (s : Pool) (j : Nat) : Pool :=
  { s with
    free_list := Function.update s.free_list j (s.mem (s.free_list j)),
    start_mem_pool := s.free_list j,
    end_mem_pool := s.free_list j + (j + 1) * ALIGN }

/-- The state after the salvage of lines 116-122, when its index is inside
the array. -/
def salvaged (s : Pool) : Pool :=
  if 0 < bytes_left s ∧ s.start_mem_pool ≠ 0 then
    { s with
      mem := Function.update s.mem s.start_mem_pool (s.free_list (get_free_list (bytes_left s))),
      free_list := Function.update s.free_list (get_free_list (bytes_left s)) s.start_mem_pool }
  else s

/-- The value of `bytes_to_get` for `allocate_chunk(size, 20)`, without
reduction modulo `SIZE_RANGE`. -/
def request_size (s : Pool) (size : Nat) : Nat :=
  2 * (size * 20) + round_up (s.heap_size / 16)

/-- The addresses of `m` consecutive blocks of `n` bytes from `a`. -/
def chunk_blocks (a n : Nat) : Nat → List Nat
  | 0 => []
  | m + 1 => a :: chunk_blocks (a + n) n m

/-- The blocks on the free lists `fl`, bucket by bucket. -/
def free_blocks (fl : Nat → List Nat) : List Block :=
  (List.range FREE_LIST_SIZE).flatMap (fun i => (fl i).map (bucket_block i))

/-- A block is empty, or lies in a region obtained from the heap, at an
offset that is a multiple of `ALIGN`. -/
def Within (regs : List Block) (b : Block) : Prop :=
  b.2 = 0 ∨ ∃ r ∈ regs, r.1 ≤ b.1 ∧ b.1 + b.2 ≤ r.1 + r.2 ∧ ALIGN ∣ (b.1 - r.1)

/-- The block `y` is a part of the block `x`, at an offset that is a multiple
of `ALIGN`. -/
def Sub (y x : Block) : Prop :=
  x.1 ≤ y.1 ∧ y.1 + y.2 ≤ x.1 + x.2 ∧ ALIGN ∣ (y.1 - x.1)

/-- The blocks of a list are pairwise disjoint parts of the heap regions. -/
def Good (regs : List Block) (l : List Block) : Prop :=
  l.Pairwise Disj ∧ ∀ b ∈ l, Within regs b

/-- The invariant on everything but the arena: the lists `fl` are the free
lists, and the blocks `extra`, the outstanding blocks and the free blocks are
pairwise disjoint parts of the heap regions. -/
structure InvCore (s : Pool) (extra : List Block) (live : List (Nat × Nat))
    (regs : List Block) (fl : Nat → List Nat) : Prop where
  chains : ∀ i, i < FREE_LIST_SIZE → IsChain s.mem (s.free_list i) (fl i)
  hs : s.heap_size < SIZE_RANGE
  good : Good regs (extra ++ (live.map live_block ++ free_blocks fl))
  regs_ok : ∀ r ∈ regs, r.1 ≠ 0
  live_ok : ∀ b ∈ live, 1 ≤ b.2 ∧ b.2 ≤ MAX_BYTES

/-- The invariant of the reachable states. -/
def Inv (s : Pool) (live : List (Nat × Nat)) (regs : List Block) : Prop :=
  ∃ fl, InvCore s [arena s] live regs fl ∧ s.start_mem_pool ≤ s.end_mem_pool ∧
    ALIGN ∣ (s.end_mem_pool - s.start_mem_pool) ∧
    s.end_mem_pool - s.start_mem_pool < SIZE_RANGE

/-- The state `j` pops after a refill that left the 19 blocks
`c + size, ..., c + 19 * size` on bucket `k`: only the head of bucket `k`
differs from the state `s` the refill left. -/
def after_pops (s : Pool) (k c size j : Nat) : Pool :=
  { s with free_list := Function.update s.free_list k (if j < 19 then c + (j + 1) * size else 0) }

/-- What `allocate_chunk((k + 1) * ALIGN, 20)` guarantees from a state of the
invariant whose bucket `k` is empty: the chunk it returns is a new disjoint
block of `cnt_objs` blocks, bucket `k` is still empty, and it never runs
into undefined behaviour. -/
def ChunkPost (k : Nat) (heap : List (Option Nat)) (live : List (Nat × Nat))
    (regs : List Block) : Outcome (Nat × Int) → Prop
  | .ret (c, cnt) s1 log =>
    ∃ m, cnt = ((m : Nat) : Int) ∧ 1 ≤ m ∧ m ≤ 20 ∧ (HeapOK regs log → ∃ fl1,
      InvCore s1 [arena s1, (c, m * ((k + 1) * ALIGN))] live (regions_after regs log) fl1 ∧
      fl1 k = [] ∧ s1.start_mem_pool ≤ s1.end_mem_pool ∧
      ALIGN ∣ (s1.end_mem_pool - s1.start_mem_pool) ∧
      s1.end_mem_pool - s1.start_mem_pool < SIZE_RANGE)
  | .bad_alloc s1 log => HeapOK regs log → Inv s1 live (regions_after regs log)
  | .fault => False
  | .no_reply => heap = []

/-- What `_allocate(n)` guarantees from a state of the invariant. -/
def AllocPost (n : Nat) (heap : List (Option Nat)) (live : List (Nat × Nat))
    (regs : List Block) : Outcome Nat → Prop
  | .ret p s1 log => HeapOK regs log → Inv s1 ((p, n) :: live) (regions_after regs log)
  | .bad_alloc s1 log => HeapOK regs log → Inv s1 live (regions_after regs log)
  | .fault => False
  | .no_reply => heap = []

/-- The effect of a pooled request for blocks of `size` bytes on `heap_size`
and on the log: no grant and `heap_size` as before, or one grant of
`request_size` bytes with `heap_size` larger by it (as a `size_t`) and the
arena ending where the granted region ends. -/
def HeapEffect (s : Pool) (size : Nat) (s1 : Pool) (log : List HeapEvent) : Prop :=
  (s1.heap_size = s.heap_size ∧ (log = [] ∨ log = [(request_size s size, none)])) ∨
  (∃ a, log = [(request_size s size, some a)] ∧
    s1.heap_size = (s.heap_size + request_size s size) % SIZE_RANGE ∧
    s1.end_mem_pool = a + request_size s size)

/-- The effect of `allocate_chunk(size, 20)` on `heap_size`. -/
def ChunkEffect (s : Pool) (size : Nat) : Outcome (Nat × Int) → Prop
  | .ret (_, cnt) s1 log => 1 ≤ cnt ∧ HeapEffect s size s1 log
  | .bad_alloc s1 log => HeapEffect s size s1 log
  | .fault => False
  | .no_reply => True

/-- The effect of `_allocate(n)` on `heap_size`, for a pooled size `n`. -/
def AllocEffect (s : Pool) (n : Nat) : Outcome Nat → Prop
  | .ret _ s1 log => HeapEffect s (round_up n) s1 log
  | .bad_alloc s1 log => HeapEffect s (round_up n) s1 log
  | .fault => False
  | .no_reply => True

/-- The number of bytes of the regions obtained from the heap. -/
def regions_total (regs : List Block) : Nat := (regs.map Prod.snd).sum

/-- Every region lies inside the 64-bit address space. -/
def Addressable (regs : List Block) : Prop := ∀ r ∈ regs, r.1 + r.2 ≤ SIZE_RANGE

/-- The states the allocator reaches from its initial state through calls of
`_allocate` and `_deallocate` with sizes in `[1, MAX_BYTES]`, whatever the
heap answers and whatever pointer is given back with whatever size.
Between calls the link words may change in any way: this covers the writes
of the client and the effect, on the link words of other blocks, of a store
through a pointer that is not the address of a block. -/
inductive Reachable : Pool → Prop
  | init (m : Nat → Nat) : Reachable (init m)
  | allocate {s s1 : Pool} {heap : List (Option Nat)} {n p : Nat} {log : List HeapEvent} :
      Reachable s → 1 ≤ n → n ≤ MAX_BYTES → _allocate heap s n = .ret p s1 log → Reachable s1
  | allocate_failed {s s1 : Pool} {heap : List (Option Nat)} {n : Nat} {log : List HeapEvent} :
      Reachable s → 1 ≤ n → n ≤ MAX_BYTES → _allocate heap s n = .bad_alloc s1 log →
      Reachable s1
  | deallocate {s s1 : Pool} {p n : Nat} :
      Reachable s → 1 ≤ n → n ≤ MAX_BYTES → _deallocate s p n = some s1 → Reachable s1
  | client_write {s : Pool} (m : Nat → Nat) : Reachable s → Reachable { s with mem := m }

/-- The shape of the arena between two calls: a span that is a multiple of
`ALIGN` and fits in a `size_t`, not at null unless it is empty; `heap_size`
is a `size_t` value. -/
def SpanOK (s : Pool) : Prop :=
  s.start_mem_pool ≤ s.end_mem_pool ∧ ALIGN ∣ (s.end_mem_pool - s.start_mem_pool) ∧
  s.end_mem_pool - s.start_mem_pool < SIZE_RANGE ∧ s.heap_size < SIZE_RANGE ∧
  (0 < s.end_mem_pool - s.start_mem_pool → s.start_mem_pool ≠ 0)

end pool_alloc

/-! ## Arithmetic of the bucketing functions -/

namespace pool_alloc_base

/-- Clearing the low six bits of a 64-bit value. -/
theorem land_mask (x : Nat) (h : x < 18446744073709551616) :
    x &&& 18446744073709551552 = x / 64 * 64 := by
  apply Nat.eq_of_testBit_eq
  intro i
  have h1 : (18446744073709551552 : Nat) = 2 ^ 6 * (2 ^ 58 - 1) := by norm_num
  have h2 : x / 64 * 64 = 2 ^ 6 * (x >>> 6) := by
    rw [Nat.shiftRight_eq_div_pow]; norm_num [Nat.mul_comm]
  rw [Nat.testBit_and, h1, h2, Nat.testBit_mul_pow_two, Nat.testBit_mul_pow_two,
    Nat.testBit_two_pow_sub_one, Nat.testBit_shiftRight]
  by_cases h6 : 6 ≤ i
  · by_cases h64 : i < 64
    · have : i - 6 < 58 := by omega
      have e : 6 + (i - 6) = i := by omega
      simp [h6, this, e]
    · have hx : x.testBit i = false := by
        apply Nat.testBit_lt_two_pow
        calc x < 2 ^ 64 := by simpa using h
          _ ≤ 2 ^ i := Nat.pow_le_pow_right (by norm_num) (by omega)
      have e : 6 + (i - 6) = i := by omega
      simp [hx, e]
  · simp [h6]

theorem round_up_eq (n : Nat) (h : n + 63 < 18446744073709551616) :
    round_up n = (n + 63) / 64 * 64 := by
  unfold round_up
  simp only [ALIGN, SIZE_RANGE]
  have e : n + 64 - 1 = n + 63 := by omega
  rw [e, Nat.mod_eq_of_lt h]
  exact land_mask _ h

theorem get_free_list_eq (n : Nat) (h1 : 1 ≤ n) (h : n + 63 < 18446744073709551616) :
    get_free_list n = (n + 63) / 64 - 1 := by
  unfold get_free_list
  simp only [ALIGN, SIZE_RANGE]
  omega

theorem get_free_list_lt (n : Nat) (h1 : 1 ≤ n) (h2 : n ≤ MAX_BYTES) :
    get_free_list n < FREE_LIST_SIZE := by
  simp only [MAX_BYTES] at h2
  rw [get_free_list_eq n h1 (by omega)]
  simp only [FREE_LIST_SIZE, MAX_BYTES, ALIGN]
  omega

theorem get_free_list_zero : get_free_list 0 = SIZE_RANGE - 1 := by
  decide

end pool_alloc_base
/-! ## Round trip, the typed wrapper, the zero-size request -/

namespace pool_alloc

open pool_alloc_base

/-- C1 (round-trip reuse).  For every state, every request size `n` with
`1 ≤ n ≤ MAX_BYTES` and every block address `p` (a non-null pointer),
`_deallocate(p, n)` followed by `_allocate(n)` returns exactly `p`, whatever
the heap would answer and with no heap request made (the log is empty, also
for the empty script), and the free-list array, `start_mem_pool`,
`end_mem_pool` and `heap_size` are what they were before the `_deallocate`. -/
theorem roundtrip_reuse (s : Pool) (heap : List (Option Nat)) (p n : Nat)
    (hp : p ≠ 0) (h1 : 1 ≤ n) (h2 : n ≤ MAX_BYTES) :
    ∃ s1 s2, _deallocate s p n = some s1 ∧ _allocate heap s1 n = .ret p s2 [] ∧
      s2.free_list = s.free_list ∧ s2.start_mem_pool = s.start_mem_pool ∧
      s2.end_mem_pool = s.end_mem_pool ∧ s2.heap_size = s.heap_size := by
  have hk := get_free_list_lt n h1 h2
  have hn : ¬ n > MAX_BYTES := by omega
  refine ⟨{ s with
      mem := Function.update s.mem p (s.free_list (get_free_list n)),
      free_list := Function.update s.free_list (get_free_list n) p },
    { s with mem := Function.update s.mem p (s.free_list (get_free_list n)) },
    ?_, ?_, rfl, rfl, rfl, rfl⟩
  · simp only [_deallocate, hn, hk, hp, if_true, if_false]
  · simp [_allocate, hn, hk, hp]
    rw [Function.update_same, Function.update_same]

/-- The round trip at `n = 100`, whose bucket is the one of 128-byte blocks
(index 1), from the initial state. -/
theorem roundtrip_reuse_witness :
    get_free_list 100 = 1 ∧ round_up 100 = 128 ∧
    ∃ s1 s2, _deallocate (init fun _ => 0) 4096 100 = some s1 ∧
      _allocate [] s1 100 = .ret 4096 s2 [] ∧
      s2.free_list = (init fun _ => 0).free_list ∧
      s2.start_mem_pool = (init fun _ => 0).start_mem_pool ∧
      s2.end_mem_pool = (init fun _ => 0).end_mem_pool ∧
      s2.heap_size = (init fun _ => 0).heap_size :=
  ⟨by decide, by decide,
    roundtrip_reuse (init fun _ => 0) [] 4096 100 (by decide) (by decide) (by decide)⟩

/-- C3 (typed-wrapper size consistency) fails in the code.  For an element
size of 8 bytes and a count of 16, `allocate` passes `16 * 8 = 128` bytes to
`_allocate` whereas `deallocate` passes the bare count `16` to `_deallocate`:
the block allocated from bucket 1 (`chunk = 4096`, the rest of the chunk
starting at `4224` stays on bucket 1) is pushed on bucket 0. -/
theorem typed_wrapper_size_mismatch :
    allocate_bytes 8 16 = 128 ∧ deallocate_bytes 8 16 = 16 ∧
    get_free_list (allocate_bytes 8 16) = 1 ∧ get_free_list (deallocate_bytes 8 16) = 0 ∧
    (allocate 8 [some 4096] (init fun _ => 0) 16).val? = some 4096 ∧
    ((allocate 8 [some 4096] (init fun _ => 0) 16).state?.bind
      (fun s => deallocate 8 s 4096 16)).map (fun s => (s.free_list 0, s.free_list 1))
      = some (4096, 4224) := by
  decide

/-- C6 (zero-size request) fails in the code.  For `n = 0` the index
computed by `get_free_list` is `0 - 1` in `size_t`, that is
`SIZE_RANGE - 1`, which is outside `[0, FREE_LIST_SIZE)`; `_allocate(0)`,
and `allocate(0)` for every element size, read `free_list` at that index. -/
theorem zero_size_request_faults (sz : Nat) (heap : List (Option Nat)) (s : Pool) :
    get_free_list 0 = SIZE_RANGE - 1 ∧ ¬ get_free_list 0 < FREE_LIST_SIZE ∧
    _allocate heap s 0 = Outcome.fault ∧ allocate sz heap s 0 = Outcome.fault := by
  have h0 : get_free_list 0 = SIZE_RANGE - 1 := get_free_list_zero
  have h1 : ¬ get_free_list 0 < FREE_LIST_SIZE := by decide
  have h2 : _allocate heap s 0 = Outcome.fault := by
    simp [_allocate, h1, MAX_BYTES]
  refine ⟨h0, h1, h2, ?_⟩
  simp [allocate, allocate_bytes, h2]

end pool_alloc

/-! ## What `allocate_chunk` computes -/

namespace pool_alloc

open pool_alloc_base

theorem bytes_left_eq (s : Pool) (h : s.start_mem_pool ≤ s.end_mem_pool)
    (h2 : s.end_mem_pool - s.start_mem_pool < SIZE_RANGE) :
    bytes_left s = s.end_mem_pool - s.start_mem_pool := by
  unfold bytes_left
  simp only [SIZE_RANGE] at *
  omega

theorem to_size_t_natCast (c : Nat) (h : c < SIZE_RANGE) : to_size_t (c : Int) = c := by
  unfold to_size_t
  simp only [SIZE_RANGE] at *
  omega

theorem to_int_small (c : Nat) (h : c < 2147483648) : to_int c = (c : Int) := by
  unfold to_int
  have : c % 4294967296 = c := Nat.mod_eq_of_lt (by omega)
  rw [this]
  simp [h]

theorem allocate_chunk_carve (size : Nat) (heap : List (Option Nat)) (s : Pool)
    (hs1 : 1 ≤ size) (hs2 : size ≤ MAX_BYTES)
    (h : s.start_mem_pool ≤ s.end_mem_pool)
    (h2 : s.end_mem_pool - s.start_mem_pool < SIZE_RANGE)
    (h3 : size ≤ s.end_mem_pool - s.start_mem_pool) :
    allocate_chunk size heap s 20 =
      .ret (s.start_mem_pool, ((min 20 ((s.end_mem_pool - s.start_mem_pool) / size) : Nat) : Int))
        { s with start_mem_pool :=
            s.start_mem_pool + min 20 ((s.end_mem_pool - s.start_mem_pool) / size) * size } [] := by
  have hbl := bytes_left_eq s h h2
  have h20 : to_size_t 20 = 20 := by decide
  simp only [MAX_BYTES] at hs2
  have hmod : size * 20 % SIZE_RANGE = size * 20 := Nat.mod_eq_of_lt (by simp only [SIZE_RANGE]; omega)
  unfold allocate_chunk
  simp only [hbl, h20, hmod]
  by_cases hf : s.end_mem_pool - s.start_mem_pool ≥ size * 20
  · have hq : 20 ≤ (s.end_mem_pool - s.start_mem_pool) / size := by
      rw [Nat.le_div_iff_mul_le (by omega)]; omega
    rw [if_pos hf, Nat.min_eq_left hq]
    simp [Nat.mul_comm]
  · have hq : (s.end_mem_pool - s.start_mem_pool) / size < 20 := by
      rw [Nat.div_lt_iff_lt_mul (by omega)]; omega
    have hq' : (s.end_mem_pool - s.start_mem_pool) / size ≤ 20 := by omega
    rw [if_neg hf, if_pos h3, Nat.min_eq_right hq',
      to_int_small _ (by omega), to_size_t_natCast _ (by simp only [SIZE_RANGE]; omega)]
    have hle : size * ((s.end_mem_pool - s.start_mem_pool) / size) ≤ size * 20 :=
      Nat.mul_le_mul_left _ hq'
    rw [Nat.mod_eq_of_lt (by simp only [SIZE_RANGE]; omega), Nat.mul_comm]

theorem get_free_list_bucket (k : Nat) (hk : k < FREE_LIST_SIZE) :
    get_free_list ((k + 1) * ALIGN) = k := by
  simp only [FREE_LIST_SIZE, MAX_BYTES, ALIGN] at *
  rw [get_free_list_eq _ (by omega) (by omega)]
  omega

theorem round_up_bucket (k : Nat) (hk : k < FREE_LIST_SIZE) :
    round_up ((k + 1) * ALIGN) = (k + 1) * ALIGN := by
  simp only [FREE_LIST_SIZE, MAX_BYTES, ALIGN] at *
  rw [round_up_eq _ (by omega)]
  omega

theorem round_up_get_free_list (n : Nat) (h1 : 1 ≤ n) (h2 : n ≤ MAX_BYTES) :
    round_up n = (get_free_list n + 1) * ALIGN := by
  simp only [MAX_BYTES, ALIGN] at *
  rw [round_up_eq _ (by omega), get_free_list_eq _ h1 (by omega)]
  omega

theorem scavenge_loop_spec (s : Pool) : ∀ (fuel k : Nat), k ≤ FREE_LIST_SIZE →
    FREE_LIST_SIZE - k < fuel →
    (∃ j, k ≤ j ∧ j < FREE_LIST_SIZE ∧ s.free_list j ≠ 0 ∧
        (∀ j', k ≤ j' → j' < j → s.free_list j' = 0) ∧
        scavenge_loop fuel s ((k + 1) * ALIGN) = .donor (donate s j)) ∨
    ((∀ j, k ≤ j → j < FREE_LIST_SIZE → s.free_list j = 0) ∧
        scavenge_loop fuel s ((k + 1) * ALIGN) = .exhausted) := by
  intro fuel
  induction fuel with
  | zero => intro k _ h; omega
  | succ fuel ih =>
    intro k hk hf
    by_cases hlt : k < FREE_LIST_SIZE
    · have hi : (k + 1) * ALIGN ≤ MAX_BYTES := by
        simp only [FREE_LIST_SIZE, MAX_BYTES, ALIGN] at *; omega
      have hg := get_free_list_bucket k hlt
      by_cases hp : s.free_list k = 0
      · have hstep : scavenge_loop (fuel + 1) s ((k + 1) * ALIGN)
            = scavenge_loop fuel s ((k + 1 + 1) * ALIGN) := by
          have e : (k + 1) * ALIGN + ALIGN = (k + 1 + 1) * ALIGN := by ring
          simp only [scavenge_loop, hi, hg, hlt, hp, if_true, ne_eq, not_true_eq_false, if_false, e]
        rw [hstep]
        rcases ih (k + 1) (by omega) (by omega) with ⟨j, h1, h2, h3, h4, h5⟩ | ⟨h1, h2⟩
        · left
          refine ⟨j, by omega, h2, h3, ?_, h5⟩
          intro j' hj1 hj2
          by_cases e : j' = k
          · rw [e]; exact hp
          · exact h4 j' (by omega) hj2
        · right
          refine ⟨?_, h2⟩
          intro j hj1 hj2
          by_cases e : j = k
          · rw [e]; exact hp
          · exact h1 j (by omega) hj2
      · left
        refine ⟨k, le_refl _, hlt, hp, ?_, ?_⟩
        · intro j' h1 h2; omega
        · simp only [scavenge_loop, hi, hg, hlt, hp, if_true, ne_eq, not_false_eq_true, donate]
    · right
      have hk' : k = FREE_LIST_SIZE := by omega
      refine ⟨fun j h1 h2 => by omega, ?_⟩
      have hi : ¬ (k + 1) * ALIGN ≤ MAX_BYTES := by
        simp only [FREE_LIST_SIZE, MAX_BYTES, ALIGN] at *; omega
      simp only [scavenge_loop, hi, if_false]

theorem salvage_eq (s : Pool) (size : Nat) (h1 : bytes_left s < size) (h2 : size ≤ MAX_BYTES) :
    salvage s = some (salvaged s) := by
  unfold salvage salvaged
  by_cases hc : 0 < bytes_left s ∧ s.start_mem_pool ≠ 0
  · have hk : get_free_list (bytes_left s) < FREE_LIST_SIZE :=
      get_free_list_lt _ hc.1 (by omega)
    simp only [hc, hk, and_self, if_true, ne_eq, not_false_eq_true]
  · simp only [hc, if_false]

theorem salvaged_heap_size (s : Pool) : (salvaged s).heap_size = s.heap_size := by
  unfold salvaged; split <;> rfl

theorem salvaged_start (s : Pool) : (salvaged s).start_mem_pool = s.start_mem_pool := by
  unfold salvaged; split <;> rfl

theorem salvaged_end (s : Pool) : (salvaged s).end_mem_pool = s.end_mem_pool := by
  unfold salvaged; split <;> rfl

theorem round_up_le (x : Nat) (h : x + 63 < SIZE_RANGE) : x ≤ round_up x ∧ round_up x ≤ x + 63
    ∧ ALIGN ∣ round_up x := by
  simp only [SIZE_RANGE] at h
  rw [round_up_eq x h]
  refine ⟨by omega, by omega, ?_⟩
  simp only [ALIGN]
  exact Dvd.intro_left _ rfl

theorem request_size_bounds (s : Pool) (size : Nat) (hs : size ≤ MAX_BYTES)
    (hhs : s.heap_size < SIZE_RANGE) :
    request_size s size < SIZE_RANGE ∧ 40 * size ≤ request_size s size := by
  unfold request_size
  simp only [MAX_BYTES, SIZE_RANGE] at *
  have := round_up_le (s.heap_size / 16) (by simp only [SIZE_RANGE]; omega)
  omega

theorem allocate_chunk_grant (size a : Nat) (rest : List (Option Nat)) (s : Pool)
    (hs1 : 1 ≤ size) (hs2 : size ≤ MAX_BYTES) (hbl : bytes_left s < size)
    (hhs : s.heap_size < SIZE_RANGE) :
    allocate_chunk size (some a :: rest) s 20 =
      .ret (a, 20)
        { salvaged s with
          start_mem_pool := a + 20 * size,
          heap_size := (s.heap_size + request_size s size) % SIZE_RANGE,
          end_mem_pool := a + request_size s size }
        [(request_size s size, some a)] := by
  have hb := request_size_bounds s size hs2 hhs
  have h20 : to_size_t 20 = 20 := by decide
  have hmod : size * 20 % SIZE_RANGE = size * 20 :=
    Nat.mod_eq_of_lt (by simp only [SIZE_RANGE, MAX_BYTES] at *; omega)
  have hbl2 : ¬ bytes_left s ≥ size * 20 := by omega
  have hbl3 : ¬ bytes_left s ≥ size := by omega
  have hreq : (2 * (size * 20) + round_up (s.heap_size / 16)) % SIZE_RANGE
      = request_size s size := Nat.mod_eq_of_lt hb.1
  unfold allocate_chunk
  simp only [h20, hmod, hbl2, hbl3, if_false, salvage_eq s size hbl hs2, salvaged_heap_size, hreq]
  rw [allocate_chunk_carve size rest _ hs1 hs2 (by simp) (by simpa using hb.1)
    (by simp; omega)]
  have hq : 20 ≤ (request_size s size) / size := by
    rw [Nat.le_div_iff_mul_le (by omega)]; omega
  simp [Outcome.logged, Nat.min_eq_left hq]

/-- The bound `FREE_LIST_SIZE + 1` on the iterations of the scan is never
reached before the loop ends: more fuel gives the same result, from every
start `i`. -/
theorem scavenge_loop_fuel (s : Pool) : ∀ (fuel extra i : Nat),
    (MAX_BYTES + ALIGN - i) / ALIGN ≤ fuel →
    scavenge_loop (fuel + extra) s i = scavenge_loop fuel s i := by
  intro fuel
  induction fuel with
  | zero =>
    intro extra i hf
    have hi : ¬ i ≤ MAX_BYTES := by
      simp only [MAX_BYTES, ALIGN] at *
      omega
    cases extra with
    | zero => rfl
    | succ e => simp only [Nat.zero_add, scavenge_loop, hi, if_false]
  | succ fuel ih =>
    intro extra i hf
    have e : fuel + 1 + extra = (fuel + extra) + 1 := by omega
    rw [e]
    simp only [scavenge_loop]
    by_cases hi : i ≤ MAX_BYTES
    · have hnext : (MAX_BYTES + ALIGN - (i + ALIGN)) / ALIGN ≤ fuel := by
        simp only [MAX_BYTES, ALIGN] at *
        omega
      rw [ih extra (i + ALIGN) hnext]
    · simp only [hi, if_false]

theorem scavenge_exhausted (s : Pool) (k : Nat) (hk : k < FREE_LIST_SIZE)
    (hz : ∀ j, k ≤ j → j < FREE_LIST_SIZE → s.free_list j = 0) :
    scavenge s ((k + 1) * ALIGN) = .exhausted := by
  unfold scavenge
  rcases scavenge_loop_spec s (FREE_LIST_SIZE + 1) k (by omega) (by omega) with
    ⟨j, h1, h2, h3, _, _⟩ | ⟨_, h⟩
  · exact absurd (hz j h1 h2) h3
  · exact h

theorem scavenge_donor (s : Pool) (k j : Nat) (hkj : k ≤ j) (hj : j < FREE_LIST_SIZE)
    (hp : s.free_list j ≠ 0) (hz : ∀ j', k ≤ j' → j' < j → s.free_list j' = 0) :
    scavenge s ((k + 1) * ALIGN) = .donor (donate s j) := by
  unfold scavenge
  rcases scavenge_loop_spec s (FREE_LIST_SIZE + 1) k (by omega) (by omega) with
    ⟨j0, h1, h2, h3, h4, h5⟩ | ⟨h, _⟩
  · have e : j0 = j := by
      rcases Nat.lt_trichotomy j0 j with h | h | h
      · exact absurd (hz j0 h1 h) h3
      · exact h
      · exact absurd (h4 j hkj h) hp
    rw [← e]; exact h5
  · exact absurd (h j hkj hj) hp

theorem allocate_chunk_exhausted (k : Nat) (rest : List (Option Nat)) (s : Pool)
    (hk : k < FREE_LIST_SIZE) (hbl : bytes_left s < (k + 1) * ALIGN)
    (hhs : s.heap_size < SIZE_RANGE)
    (hz : ∀ j, k ≤ j → j < FREE_LIST_SIZE → (salvaged s).free_list j = 0) :
    allocate_chunk ((k + 1) * ALIGN) (none :: rest) s 20 =
      .bad_alloc { salvaged s with start_mem_pool := 0, end_mem_pool := 0 }
        [(request_size s ((k + 1) * ALIGN), none)] := by
  have hs2 : (k + 1) * ALIGN ≤ MAX_BYTES := by
    simp only [FREE_LIST_SIZE, MAX_BYTES, ALIGN] at *; omega
  have hb := request_size_bounds s _ hs2 hhs
  have h20 : to_size_t 20 = 20 := by decide
  have hmod : (k + 1) * ALIGN * 20 % SIZE_RANGE = (k + 1) * ALIGN * 20 :=
    Nat.mod_eq_of_lt (by simp only [SIZE_RANGE, MAX_BYTES] at *; omega)
  have hbl2 : ¬ bytes_left s ≥ (k + 1) * ALIGN * 20 := by omega
  have hbl3 : ¬ bytes_left s ≥ (k + 1) * ALIGN := by omega
  have hreq : (2 * ((k + 1) * ALIGN * 20) + round_up (s.heap_size / 16)) % SIZE_RANGE
      = request_size s ((k + 1) * ALIGN) := Nat.mod_eq_of_lt hb.1
  unfold allocate_chunk
  simp only [h20, hmod, hbl2, hbl3, if_false, salvage_eq s _ hbl hs2, salvaged_heap_size, hreq,
    scavenge_exhausted _ k hk hz]

theorem allocate_chunk_donor (k j : Nat) (rest : List (Option Nat)) (s : Pool)
    (hkj : k ≤ j) (hj : j < FREE_LIST_SIZE) (hbl : bytes_left s < (k + 1) * ALIGN)
    (hhs : s.heap_size < SIZE_RANGE)
    (hp : (salvaged s).free_list j ≠ 0)
    (hz : ∀ j', k ≤ j' → j' < j → (salvaged s).free_list j' = 0) :
    allocate_chunk ((k + 1) * ALIGN) (none :: rest) s 20 =
      .ret ((salvaged s).free_list j, ((min 20 ((j + 1) * ALIGN / ((k + 1) * ALIGN)) : Nat) : Int))
        { donate (salvaged s) j with
          start_mem_pool := (salvaged s).free_list j +
            min 20 ((j + 1) * ALIGN / ((k + 1) * ALIGN)) * ((k + 1) * ALIGN) }
        [(request_size s ((k + 1) * ALIGN), none)] := by
  have hk : k < FREE_LIST_SIZE := by omega
  have hs2 : (k + 1) * ALIGN ≤ MAX_BYTES := by
    simp only [FREE_LIST_SIZE, MAX_BYTES, ALIGN] at *; omega
  have hb := request_size_bounds s _ hs2 hhs
  have h20 : to_size_t 20 = 20 := by decide
  have hmod : (k + 1) * ALIGN * 20 % SIZE_RANGE = (k + 1) * ALIGN * 20 :=
    Nat.mod_eq_of_lt (by simp only [SIZE_RANGE, MAX_BYTES] at *; omega)
  have hbl2 : ¬ bytes_left s ≥ (k + 1) * ALIGN * 20 := by omega
  have hbl3 : ¬ bytes_left s ≥ (k + 1) * ALIGN := by omega
  have hreq : (2 * ((k + 1) * ALIGN * 20) + round_up (s.heap_size / 16)) % SIZE_RANGE
      = request_size s ((k + 1) * ALIGN) := Nat.mod_eq_of_lt hb.1
  have hsz : (j + 1) * ALIGN < SIZE_RANGE ∧ (k + 1) * ALIGN ≤ (j + 1) * ALIGN ∧
      1 ≤ (k + 1) * ALIGN := by
    simp only [FREE_LIST_SIZE, MAX_BYTES, ALIGN, SIZE_RANGE] at *; omega
  unfold allocate_chunk
  simp only [h20, hmod, hbl2, hbl3, if_false, salvage_eq s _ hbl hs2, salvaged_heap_size, hreq,
    scavenge_donor _ k j hkj hj hp hz]
  rw [allocate_chunk_carve _ rest _ hsz.2.2 hs2 (by simp [donate]) (by simpa [donate] using hsz.1)
    (by simpa [donate] using hsz.2.1)]
  simp [Outcome.logged, donate]

theorem refill_loop_spec (n : Nat) (c : Int) (hn : 1 ≤ n) :
    ∀ (m fuel : Nat) (mem : Nat → Nat) (t : Int) (next : Nat),
    1 ≤ m → m ≤ fuel → t + m = c →
    ∃ mem', refill_loop fuel mem n c t next = some mem' ∧
      (∀ j, j < m → mem' (next + j * n) = if j + 1 = m then 0 else next + (j + 1) * n) ∧
      (∀ x, (x < next ∨ next + m * n ≤ x) → mem' x = mem x) := by
  intro m
  induction m with
  | zero => intro fuel mem t next h; omega
  | succ m ih =>
    intro fuel mem t next _ hf ht
    obtain ⟨fuel, rfl⟩ : ∃ f, fuel = f + 1 := ⟨fuel - 1, by omega⟩
    have hmn : next + 1 * n ≤ next + (m + 1) * n :=
      Nat.add_le_add_left (Nat.mul_le_mul_right n (by omega)) _
    by_cases hm : m = 0
    · subst hm
      have e : c - 1 = t := by omega
      refine ⟨Function.update mem next 0, ?_, ?_, ?_⟩
      · simp only [refill_loop, e, if_true]
      · intro j hj
        have : j = 0 := by omega
        subst this
        have e0 : next + 0 * n = next := by omega
        rw [e0, Function.update_same]
        simp
      · intro x hx
        have : x ≠ next := by omega
        simp [Function.update_noteq this]
    · have e : ¬ c - 1 = t := by omega
      obtain ⟨mem', h1, h2, h3⟩ := ih fuel (Function.update mem next (next + n)) (t + 1)
        (next + n) (by omega) (by omega) (by push_cast at ht ⊢; omega)
      refine ⟨mem', ?_, ?_, ?_⟩
      · simp only [refill_loop, e, if_false]; exact h1
      · intro j hj
        rcases Nat.eq_zero_or_pos j with h0 | h0
        · subst h0
          have hx := h3 next (Or.inl (by omega))
          simp only [Nat.zero_mul, Nat.add_zero, Nat.zero_add, Nat.one_mul]
          rw [hx, Function.update_same]
          have : ¬ (1 = m + 1) := by omega
          simp [this]
        · obtain ⟨j, rfl⟩ : ∃ i, j = i + 1 := ⟨j - 1, by omega⟩
          have hx := h2 j (by omega)
          have e1 : next + n + j * n = next + (j + 1) * n := by ring
          have e2 : next + n + (j + 1) * n = next + (j + 1 + 1) * n := by ring
          rw [e1, e2] at hx
          rw [hx]
          by_cases hj' : j + 1 = m
          · simp [hj']
          · simp [hj']
      · intro x hx
        have e3 : next + n + m * n = next + (m + 1) * n := by ring
        have hx1 : x < next + n ∨ next + n + m * n ≤ x := by omega
        rw [h3 x hx1]
        have : x ≠ next := by omega
        simp [Function.update_noteq this]

theorem mem_chunk_blocks (n : Nat) : ∀ (m a x : Nat),
    x ∈ chunk_blocks a n m ↔ ∃ j, j < m ∧ x = a + j * n := by
  intro m
  induction m with
  | zero => intro a x; simp [chunk_blocks]
  | succ m ih =>
    intro a x
    simp only [chunk_blocks, List.mem_cons, ih]
    constructor
    · rintro (h | ⟨j, hj, h⟩)
      · exact ⟨0, by omega, by simp [h]⟩
      · exact ⟨j + 1, by omega, by rw [h]; ring⟩
    · rintro ⟨j, hj, h⟩
      rcases Nat.eq_zero_or_pos j with h0 | h0
      · left; subst h0; simpa using h
      · right
        exact ⟨j - 1, by omega, by
          obtain ⟨i, rfl⟩ : ∃ i, j = i + 1 := ⟨j - 1, by omega⟩
          rw [h]; simp; ring⟩

theorem chain_of_links (mem : Nat → Nat) (n : Nat) : ∀ (m a : Nat), a ≠ 0 →
    (∀ j, j < m → mem (a + j * n) = if j + 1 = m then 0 else a + (j + 1) * n) →
    IsChain mem (if m = 0 then 0 else a) (chunk_blocks a n m) := by
  intro m
  induction m with
  | zero => intro a _ _; simp [chunk_blocks, IsChain]
  | succ m ih =>
    intro a ha h
    simp only [chunk_blocks, IsChain, Nat.succ_ne_zero, if_false, true_and]
    refine ⟨ha, ?_⟩
    have h0 := h 0 (by omega)
    simp only [Nat.zero_mul, Nat.add_zero, Nat.zero_add, Nat.one_mul] at h0
    have := ih (a + n) (by omega) (fun j hj => by
      have hj' := h (j + 1) (by omega)
      have e1 : a + n + j * n = a + (j + 1) * n := by ring
      have e2 : a + n + (j + 1) * n = a + (j + 1 + 1) * n := by ring
      rw [e1, e2, hj']
      by_cases hc : j + 1 = m
      · simp [hc]
      · simp [hc])
    rw [h0]
    by_cases hm : m = 0
    · simp [hm] at this ⊢; exact this
    · have e : ¬ (1 = m + 1) := by omega
      simp only [hm, if_false] at this
      simp only [e, if_false]
      exact this

theorem refill_one (heap : List (Option Nat)) (s s1 : Pool) (n c : Nat) (cnt : Int)
    (log : List HeapEvent)
    (h : allocate_chunk n heap s 20 = .ret (c, cnt) s1 log) (hcnt : cnt = 1) :
    refill heap s n = .ret c s1 log := by
  subst hcnt
  simp only [refill, h, if_true]

theorem refill_many (heap : List (Option Nat)) (s s1 : Pool) (n c : Nat) (cnt : Int)
    (log : List HeapEvent)
    (h : allocate_chunk n heap s 20 = .ret (c, cnt) s1 log)
    (m : Nat) (hcnt : cnt = ((m + 2 : Nat) : Int))
    (hn : 1 ≤ n) (hk : get_free_list n < FREE_LIST_SIZE) :
    ∃ mem', refill heap s n = .ret c
        { s1 with free_list := Function.update s1.free_list (get_free_list n) (c + n),
                  mem := mem' } log ∧
      (∀ j, j < m + 1 → mem' (c + n + j * n) = if j + 1 = m + 1 then 0 else c + n + (j + 1) * n) ∧
      (∀ x, (x < c + n ∨ c + n + (m + 1) * n ≤ x) → mem' x = s1.mem x) := by
  subst hcnt
  obtain ⟨mem', h1, h2, h3⟩ := refill_loop_spec n ((m + 2 : Nat) : Int) hn (m + 1) (m + 2)
    s1.mem 1 (c + n) (by omega) (by omega) (by push_cast; ring)
  refine ⟨mem', ?_, h2, h3⟩
  have hne : ¬ (((m + 2 : Nat) : Int) = 1) := by omega
  have htn : (((m + 2 : Nat) : Int)).toNat = m + 2 := Int.toNat_ofNat _
  simp only [refill, h, hne, if_false, hk, if_true, htn, h1]

/-- When `allocate_chunk` supplies `m ≥ 1` blocks at `c`, `refill` returns
`c`; it changes only the head of its bucket and link words inside the chunk
after its first block. -/
theorem refill_ret (heap : List (Option Nat)) (s s1 : Pool) (n c : Nat) (cnt : Int)
    (log : List HeapEvent)
    (h : allocate_chunk n heap s 20 = .ret (c, cnt) s1 log)
    (m : Nat) (hcnt : cnt = (m : Int))
    (hm : 1 ≤ m) (hn : 1 ≤ n) (hk : get_free_list n < FREE_LIST_SIZE) :
    ∃ s2, refill heap s n = .ret c s2 log ∧
      s2.start_mem_pool = s1.start_mem_pool ∧ s2.end_mem_pool = s1.end_mem_pool ∧
      s2.heap_size = s1.heap_size ∧
      (∀ j, j ≠ get_free_list n → s2.free_list j = s1.free_list j) ∧
      (∀ x, (x < c + n ∨ c + m * n ≤ x) → s2.mem x = s1.mem x) := by
  by_cases h1 : m = 1
  · have hc1 : cnt = 1 := by rw [hcnt, h1]; rfl
    have hr := refill_one heap s s1 n c cnt log h hc1
    refine ⟨s1, hr, rfl, rfl, rfl, ?_, ?_⟩
    · intro j _; rfl
    · intro x _; rfl
  · have e : m - 2 + 2 = m := by omega
    have hc2 : cnt = ((m - 2 + 2 : Nat) : Int) := by rw [e]; exact hcnt
    obtain ⟨mem', hr, _, hframe⟩ := refill_many heap s s1 n c cnt log h (m - 2) hc2 hn hk
    refine ⟨_, hr, rfl, rfl, rfl, ?_, ?_⟩
    · intro j hj
      dsimp only
      rw [Function.update_noteq hj]
    · intro x hx
      apply hframe
      have e2 : c + n + (m - 2 + 1) * n = c + (m - 2 + 2) * n := by ring
      rw [e2, e]
      omega

end pool_alloc

/-! ## Lists of disjoint blocks -/

namespace pool_alloc

open pool_alloc_base

theorem Disj.symm {a b : Block} (h : Disj a b) : Disj b a := Or.symm h

theorem Disj.of_sub {x y z : Block} (h : Disj x z) (hs : Sub y x) : Disj y z := by
  unfold Disj Sub at *
  omega

theorem Within.of_part {regs : List Block} {x y : Block} (h : Within regs x) (hs : Sub y x) :
    Within regs y := by
  unfold Within Sub at *
  rcases h with h | ⟨r, hr, h1, h2, h3⟩
  · left; omega
  · right
    refine ⟨r, hr, by omega, by omega, ?_⟩
    have e : y.1 - r.1 = (y.1 - x.1) + (x.1 - r.1) := by omega
    rw [e]
    exact dvd_add hs.2.2 h3

theorem Within.mono {regs : List Block} {b r : Block} (h : Within regs b) :
    Within (r :: regs) b := by
  rcases h with h | ⟨r', hr, h⟩
  · exact Or.inl h
  · exact Or.inr ⟨r', List.mem_cons_of_mem _ hr, h⟩

theorem Good.perm {regs : List Block} {l l' : List Block} (hp : l.Perm l') (h : Good regs l) :
    Good regs l' :=
  ⟨(List.Perm.pairwise_iff (fun h => Disj.symm h) hp).1 h.1,
    fun b hb => h.2 b (hp.mem_iff.2 hb)⟩

theorem Good.tail {regs : List Block} {x : Block} {l : List Block} (h : Good regs (x :: l)) :
    Good regs l :=
  ⟨(List.pairwise_cons.1 h.1).2, fun b hb => h.2 b (List.mem_cons_of_mem _ hb)⟩

theorem Good.split {regs : List Block} {x : Block} {ys l : List Block}
    (h : Good regs (x :: l)) (hy : ys.Pairwise Disj) (hs : ∀ y ∈ ys, Sub y x) :
    Good regs (ys ++ l) := by
  have hc := List.pairwise_cons.1 h.1
  refine ⟨List.pairwise_append.2 ⟨hy, hc.2, ?_⟩, ?_⟩
  · intro y hy' z hz
    exact (hc.1 z hz).of_sub (hs y hy')
  · intro b hb
    rcases List.mem_append.1 hb with hb | hb
    · exact (h.2 x (List.mem_cons_self _ _)).of_part (hs b hb)
    · exact h.2 b (List.mem_cons_of_mem _ hb)

theorem Good.add_region {regs : List Block} {l : List Block} {a sz : Nat}
    (h : Good regs l) (hpos : ∀ b ∈ l, 0 < b.2) (hd : ∀ r ∈ regs, Disj (a, sz) r) :
    Good ((a, sz) :: regs) ((a, sz) :: l) := by
  refine ⟨List.pairwise_cons.2 ⟨?_, h.1⟩, ?_⟩
  · intro b hb
    rcases h.2 b hb with h0 | ⟨r, hr, h1, h2, _⟩
    · have := hpos b hb; omega
    · have := hd r hr
      unfold Disj at *
      simp only at this ⊢
      omega
  · intro b hb
    rcases List.mem_cons.1 hb with hb | hb
    · subst hb
      by_cases hz : sz = 0
      · exact Or.inl hz
      · exact Or.inr ⟨(a, sz), List.mem_cons_self _ _, le_refl _, le_refl _, by simp⟩
    · exact (h.2 b hb).mono

theorem Good.empty_block {regs : List Block} {l : List Block} (h : Good regs l) :
    Good regs ((0, 0) :: l) := by
  refine ⟨List.pairwise_cons.2 ⟨fun b _ => Or.inl (by simp), h.1⟩, ?_⟩
  intro b hb
  rcases List.mem_cons.1 hb with hb | hb
  · subst hb; exact Or.inl rfl
  · exact h.2 b hb

theorem mem_free_blocks (fl : Nat → List Nat) (b : Block) :
    b ∈ free_blocks fl ↔ ∃ i, i < FREE_LIST_SIZE ∧ ∃ a ∈ fl i, bucket_block i a = b := by
  simp [free_blocks, List.mem_flatMap]

theorem flatMap_update_perm (fl : Nat → List Nat) (i : Nat) :
    ∀ (l : List Nat), l.Nodup →
    (l.flatMap (fun j => (fl j).map (bucket_block j))).Perm
      ((if i ∈ l then (fl i).map (bucket_block i) else []) ++
        l.flatMap (fun j => (Function.update fl i [] j).map (bucket_block j))) := by
  intro l
  induction l with
  | nil => intro _; simp
  | cons x l ih =>
    intro hnd
    have hx := (List.nodup_cons.1 hnd)
    have ih' := ih hx.2
    simp only [List.flatMap_cons]
    by_cases e : x = i
    · subst e
      have hni : ¬ x ∈ l := hx.1
      simp only [hni, if_false, List.nil_append] at ih'
      simp only [List.mem_cons, true_or, if_true, Function.update_same, List.map_nil,
        List.nil_append]
      exact List.Perm.append_left _ ih'
    · have e' : ¬ i = x := fun h => e h.symm
      simp only [List.mem_cons, e', false_or, Function.update_noteq e]
      by_cases hi : i ∈ l
      · simp only [hi, if_true] at ih' ⊢
        refine (List.Perm.append_left _ ih').trans ?_
        rw [← List.append_assoc, ← List.append_assoc]
        exact List.Perm.append_right _ List.perm_append_comm
      · simp only [hi, if_false, List.nil_append] at ih' ⊢
        exact List.Perm.append_left _ ih'

theorem free_blocks_perm (fl : Nat → List Nat) (i : Nat) (hi : i < FREE_LIST_SIZE) :
    (free_blocks fl).Perm
      ((fl i).map (bucket_block i) ++ free_blocks (Function.update fl i [])) := by
  have h := flatMap_update_perm fl i (List.range FREE_LIST_SIZE) (List.nodup_range _)
  simp only [List.mem_range, hi, if_true] at h
  exact h

theorem free_blocks_update_perm (fl : Nat → List Nat) (i : Nat) (hi : i < FREE_LIST_SIZE)
    (l : List Nat) :
    (free_blocks (Function.update fl i l)).Perm
      (l.map (bucket_block i) ++ free_blocks (Function.update fl i [])) := by
  have h := free_blocks_perm (Function.update fl i l) i hi
  simpa using h

theorem free_blocks_add_perm (fl : Nat → List Nat) (i : Nat) (hi : i < FREE_LIST_SIZE)
    (l : List Nat) :
    (free_blocks (Function.update fl i (l ++ fl i))).Perm
      (l.map (bucket_block i) ++ free_blocks fl) := by
  refine (free_blocks_update_perm fl i hi (l ++ fl i)).trans ?_
  rw [List.map_append, List.append_assoc]
  exact List.Perm.append_left _ (free_blocks_perm fl i hi).symm

theorem free_blocks_pop_perm (fl : Nat → List Nat) (i : Nat) (hi : i < FREE_LIST_SIZE)
    (a : Nat) (l : List Nat) (h : fl i = a :: l) :
    (free_blocks fl).Perm (bucket_block i a :: free_blocks (Function.update fl i l)) := by
  have h1 : (free_blocks (Function.update (Function.update fl i l) i
      ([a] ++ (Function.update fl i l) i))).Perm
      ([a].map (bucket_block i) ++ free_blocks (Function.update fl i l)) :=
    free_blocks_add_perm (Function.update fl i l) i hi [a]
  rw [Function.update_same, Function.update_idem] at h1
  have e : Function.update fl i ([a] ++ l) = fl := by
    rw [List.singleton_append, ← h, Function.update_eq_self]
  rw [e] at h1
  simpa using h1

theorem IsChain.congr_mem {m m' : Nat → Nat} : ∀ {l : List Nat} {h : Nat},
    (∀ a ∈ l, m' a = m a) → IsChain m h l → IsChain m' h l := by
  intro l
  induction l with
  | nil => intro h _ hc; exact hc
  | cons a l ih =>
    intro h hm hc
    obtain ⟨h1, h2, h3⟩ := hc
    refine ⟨h1, h2, ?_⟩
    rw [hm a (List.mem_cons_self _ _)]
    exact ih (fun b hb => hm b (List.mem_cons_of_mem _ hb)) h3

theorem IsChain.unique {m : Nat → Nat} : ∀ {l l' : List Nat} {h : Nat},
    IsChain m h l → IsChain m h l' → l = l' := by
  intro l
  induction l with
  | nil =>
    intro l' h h1 h2
    cases l' with
    | nil => rfl
    | cons b l' =>
      have e1 : h = 0 := h1
      obtain ⟨e2, e3, _⟩ := h2
      omega
  | cons a l ih =>
    intro l' h h1 h2
    obtain ⟨e1, e2, e3⟩ := h1
    cases l' with
    | nil =>
      have : h = 0 := h2
      omega
    | cons b l' =>
      obtain ⟨f1, f2, f3⟩ := h2
      have e : a = b := by omega
      subst e
      rw [ih e3 f3]

theorem IsChain.of_ne_zero {m : Nat → Nat} {l : List Nat} {h : Nat} (hc : IsChain m h l)
    (hne : h ≠ 0) : ∃ l', l = h :: l' ∧ IsChain m (m h) l' := by
  cases l with
  | nil => exact absurd hc hne
  | cons a l =>
    obtain ⟨e1, _, e3⟩ := hc
    subst e1
    exact ⟨l, rfl, e3⟩

theorem IsChain.of_zero {m : Nat → Nat} {l : List Nat} (hc : IsChain m 0 l) : l = [] := by
  cases l with
  | nil => rfl
  | cons a l =>
    obtain ⟨e1, e2, _⟩ := hc
    omega

theorem free_block_pos {fl : Nat → List Nat} {b : Block} (h : b ∈ free_blocks fl) : 0 < b.2 := by
  obtain ⟨i, _, a, _, rfl⟩ := (mem_free_blocks fl b).1 h
  simp [bucket_block, ALIGN]

theorem round_up_pos (n : Nat) (h1 : 1 ≤ n) (h2 : n ≤ MAX_BYTES) : 0 < round_up n := by
  rw [round_up_get_free_list n h1 h2]
  simp [ALIGN]

theorem live_block_pos {live : List (Nat × Nat)} (hl : ∀ b ∈ live, 1 ≤ b.2 ∧ b.2 ≤ MAX_BYTES)
    {b : Block} (h : b ∈ live.map live_block) : 0 < b.2 := by
  obtain ⟨x, hx, rfl⟩ := List.mem_map.1 h
  exact round_up_pos _ (hl x hx).1 (hl x hx).2

/-- A free block starts at no byte of another block of the invariant. -/
theorem InvCore.node_ne {s : Pool} {extra : List Block} {live : List (Nat × Nat)}
    {regs : List Block} {fl : Nat → List Nat} (h : InvCore s extra live regs fl)
    {i a x : Nat} {b : Block} (hi : i < FREE_LIST_SIZE) (ha : a ∈ fl i)
    (hb : b ∈ extra ++ live.map live_block) (hx : b.has x) : a ≠ x := by
  have hp := h.good.1
  rw [← List.append_assoc] at hp
  have hd := (List.pairwise_append.1 hp).2.2 b hb (bucket_block i a)
    ((mem_free_blocks fl _).2 ⟨i, hi, a, ha, rfl⟩)
  unfold Disj Block.has bucket_block at *
  simp only [ALIGN] at hd
  omega

end pool_alloc

/-! ## The invariant of the reachable states -/

namespace pool_alloc

open pool_alloc_base

theorem isChain_cons (m : Nat → Nat) (h a : Nat) (l : List Nat) :
    IsChain m h (a :: l) ↔ h = a ∧ a ≠ 0 ∧ IsChain m (m a) l := Iff.rfl

theorem isChain_nil (m : Nat → Nat) (h : Nat) : IsChain m h [] ↔ h = 0 := Iff.rfl

theorem live_block_eq (p n : Nat) (h1 : 1 ≤ n) (h2 : n ≤ MAX_BYTES) :
    live_block (p, n) = bucket_block (get_free_list n) p := by
  simp only [live_block, bucket_block, round_up_get_free_list n h1 h2]

theorem deallocate_eq (s : Pool) (p n : Nat) (hp : p ≠ 0) (h1 : 1 ≤ n) (h2 : n ≤ MAX_BYTES) :
    _deallocate s p n = some { s with
      mem := Function.update s.mem p (s.free_list (get_free_list n)),
      free_list := Function.update s.free_list (get_free_list n) p } := by
  have hk := get_free_list_lt n h1 h2
  have hn : ¬ n > MAX_BYTES := by omega
  simp only [_deallocate, hn, hk, hp, if_true, if_false]

theorem deallocate_ne_zero (s s1 : Pool) (p n : Nat) (h2 : n ≤ MAX_BYTES)
    (h : _deallocate s p n = some s1) : p ≠ 0 := by
  intro hp
  have hn : ¬ n > MAX_BYTES := by omega
  simp only [_deallocate, hn, hp, if_true, if_false] at h
  split at h <;> simp at h

theorem inv_deallocate {s s1 : Pool} {live : List (Nat × Nat)} {regs : List Block} {p n : Nat}
    {rest : List (Nat × Nat)}
    (hinv : Inv s live regs) (hl : live.Perm ((p, n) :: rest))
    (hd : _deallocate s p n = some s1) :
    Inv s1 rest regs := by
  have hm : (p, n) ∈ live := hl.mem_iff.2 (List.mem_cons_self _ _)
  obtain ⟨fl, core, ha1, ha2, ha3⟩ := hinv
  obtain ⟨h1, h2⟩ := core.live_ok _ hm
  simp only at h1 h2
  have hp := deallocate_ne_zero s s1 p n h2 hd
  rw [deallocate_eq s p n hp h1 h2] at hd
  injection hd with hd
  subst hd
  have hk := get_free_list_lt n h1 h2
  have hlb : live_block (p, n) ∈ [arena s] ++ live.map live_block :=
    List.mem_append_right _ (List.mem_map_of_mem _ hm)
  have hhas : (live_block (p, n)).has p := by
    have := round_up_pos n h1 h2
    simp only [Block.has, live_block]
    omega
  have hbe := live_block_eq p n h1 h2
  generalize get_free_list n = k at *
  have hmem : ∀ i, i < FREE_LIST_SIZE → ∀ a ∈ fl i,
      Function.update s.mem p (s.free_list k) a = s.mem a := by
    intro i hi a ha
    exact Function.update_noteq (core.node_ne hi ha hlb hhas) _ _
  refine ⟨Function.update fl k (p :: fl k), ⟨?_, core.hs, ?_, core.regs_ok, ?_⟩, ha1, ha2, ha3⟩
  · intro i hi
    dsimp only
    by_cases e : i = k
    · rw [e, Function.update_same, Function.update_same, isChain_cons, Function.update_same]
      exact ⟨rfl, hp, IsChain.congr_mem (hmem _ hk) (core.chains _ hk)⟩
    · rw [Function.update_noteq e, Function.update_noteq e]
      exact IsChain.congr_mem (hmem _ hi) (core.chains _ hi)
  · refine Good.perm ?_ core.good
    show ([arena s] ++ (live.map live_block ++ free_blocks fl)).Perm _
    refine List.Perm.append_left _ ?_
    have hl : (live.map live_block).Perm (live_block (p, n) :: rest.map live_block) := by
      simpa using hl.map live_block
    have hf := free_blocks_add_perm fl k hk [p]
    simp only [List.singleton_append, List.map_cons, List.map_nil] at hf
    rw [← hbe] at hf
    refine (List.Perm.append_right _ hl).trans ?_
    refine List.Perm.trans ?_ (List.Perm.append_left _ hf.symm)
    simp only [List.cons_append]
    exact List.perm_middle.symm
  · intro b hb
    exact core.live_ok b (hl.mem_iff.2 (List.mem_cons_of_mem _ hb))

theorem allocate_pop_eq (heap : List (Option Nat)) (s : Pool) (n : Nat) (h1 : 1 ≤ n)
    (h2 : n ≤ MAX_BYTES) (h : s.free_list (get_free_list n) ≠ 0) :
    _allocate heap s n = .ret (s.free_list (get_free_list n))
      { s with
        free_list :=
          Function.update s.free_list (get_free_list n) (s.mem (s.free_list (get_free_list n))) }
      [] := by
  have hk := get_free_list_lt n h1 h2
  have hn : ¬ n > MAX_BYTES := by omega
  simp only [_allocate, hn, hk, h, if_true, if_false]

theorem allocate_refill_eq (heap : List (Option Nat)) (s : Pool) (n : Nat) (h1 : 1 ≤ n)
    (h2 : n ≤ MAX_BYTES) (h : s.free_list (get_free_list n) = 0) :
    _allocate heap s n = refill heap s (round_up n) := by
  have hk := get_free_list_lt n h1 h2
  have hn : ¬ n > MAX_BYTES := by omega
  simp only [_allocate, hn, hk, h, if_true, if_false]

theorem inv_pop {s : Pool} {live : List (Nat × Nat)} {regs : List Block} {n : Nat}
    (hinv : Inv s live regs) (h1 : 1 ≤ n) (h2 : n ≤ MAX_BYTES)
    (h : s.free_list (get_free_list n) ≠ 0) :
    Inv { s with
        free_list :=
          Function.update s.free_list (get_free_list n) (s.mem (s.free_list (get_free_list n))) }
      ((s.free_list (get_free_list n), n) :: live) regs := by
  obtain ⟨fl, core, ha1, ha2, ha3⟩ := hinv
  have hk := get_free_list_lt n h1 h2
  have hbe := live_block_eq (s.free_list (get_free_list n)) n h1 h2
  generalize get_free_list n = k at *
  obtain ⟨l, hl, hc⟩ := (core.chains k hk).of_ne_zero h
  refine ⟨Function.update fl k l, ⟨?_, core.hs, ?_, core.regs_ok, ?_⟩, ha1, ha2, ha3⟩
  · intro i hi
    dsimp only
    by_cases e : i = k
    · rw [e, Function.update_same, Function.update_same]
      exact hc
    · rw [Function.update_noteq e, Function.update_noteq e]
      exact core.chains i hi
  · refine Good.perm ?_ core.good
    show ([arena s] ++ (live.map live_block ++ free_blocks fl)).Perm _
    refine List.Perm.append_left _ ?_
    have hf := free_blocks_pop_perm fl k hk _ l hl
    rw [← hbe] at hf
    refine (List.Perm.append_left _ hf).trans ?_
    simp only [List.map_cons, List.cons_append]
    exact List.perm_middle
  · intro b hb
    rcases List.mem_cons.1 hb with hb | hb
    · subst hb; exact ⟨h1, h2⟩
    · exact core.live_ok b hb

/-- The invariant does not read the arena cursor. -/
theorem InvCore.congr_state {s s' : Pool} {extra : List Block} {live : List (Nat × Nat)}
    {regs : List Block} {fl : Nat → List Nat} (h : InvCore s extra live regs fl)
    (hm : s'.mem = s.mem) (hf : s'.free_list = s.free_list) (hh : s'.heap_size < SIZE_RANGE) :
    InvCore s' extra live regs fl :=
  ⟨fun i hi => by rw [hm, hf]; exact h.chains i hi, hh, h.good, h.regs_ok, h.live_ok⟩

/-- Replacing the list of extra blocks. -/
theorem InvCore.with_good {s : Pool} {extra extra' : List Block} {live : List (Nat × Nat)}
    {regs : List Block} {fl : Nat → List Nat} (h : InvCore s extra live regs fl)
    (hg : Good regs (extra' ++ (live.map live_block ++ free_blocks fl))) :
    InvCore s extra' live regs fl :=
  ⟨h.chains, h.hs, hg, h.regs_ok, h.live_ok⟩

/-- Carving `t` bytes off the front of the arena. -/
theorem InvCore.carve {s : Pool} {live : List (Nat × Nat)} {regs : List Block}
    {fl : Nat → List Nat} (h : InvCore s [arena s] live regs fl) (t : Nat)
    (ht : t ≤ s.end_mem_pool - s.start_mem_pool) (hd : ALIGN ∣ t) :
    InvCore { s with start_mem_pool := s.start_mem_pool + t }
      [arena { s with start_mem_pool := s.start_mem_pool + t }, (s.start_mem_pool, t)]
      live regs fl := by
  refine (@InvCore.congr_state s { s with start_mem_pool := s.start_mem_pool + t } _ _ _ _ h rfl rfl h.hs).with_good ?_
  refine Good.split (x := arena s) h.good ?_ ?_
  · simp only [List.pairwise_cons, List.mem_singleton, forall_eq, List.not_mem_nil,
      false_implies, implies_true, List.Pairwise.nil, and_true]
    right
    simp [arena]
  · intro y hy
    simp only [List.mem_cons, List.mem_singleton, List.not_mem_nil, or_false] at hy
    rcases hy with rfl | rfl
    · simp only [Sub, arena]
      refine ⟨by omega, by omega, ?_⟩
      simpa using hd
    · simp only [Sub, arena]
      refine ⟨by omega, by omega, by simp⟩

/-- A free block lies outside every other block of the invariant. -/
theorem InvCore.node_out {s : Pool} {extra : List Block} {live : List (Nat × Nat)}
    {regs : List Block} {fl : Nat → List Nat} (h : InvCore s extra live regs fl)
    {i a : Nat} {b : Block} (hi : i < FREE_LIST_SIZE) (ha : a ∈ fl i)
    (hb : b ∈ extra ++ live.map live_block) : b.1 + b.2 ≤ a ∨ a < b.1 := by
  have hp := h.good.1
  rw [← List.append_assoc] at hp
  have hd := (List.pairwise_append.1 hp).2.2 b hb (bucket_block i a)
    ((mem_free_blocks fl _).2 ⟨i, hi, a, ha, rfl⟩)
  unfold Disj bucket_block at *
  simp only [ALIGN] at hd
  omega

theorem InvCore.good0 {s : Pool} {live : List (Nat × Nat)} {regs : List Block}
    {fl : Nat → List Nat} (h : InvCore s [] live regs fl) :
    Good regs (live.map live_block ++ free_blocks fl) := by
  have := h.good
  rwa [List.nil_append] at this

theorem InvCore.good1 {s : Pool} {x : Block} {live : List (Nat × Nat)} {regs : List Block}
    {fl : Nat → List Nat} (h : InvCore s [x] live regs fl) :
    Good regs (x :: (live.map live_block ++ free_blocks fl)) := by
  have := h.good
  rwa [List.singleton_append] at this

theorem InvCore.good2 {s : Pool} {x y : Block} {live : List (Nat × Nat)} {regs : List Block}
    {fl : Nat → List Nat} (h : InvCore s [x, y] live regs fl) :
    Good regs (x :: y :: (live.map live_block ++ free_blocks fl)) := by
  have := h.good
  rwa [List.cons_append, List.singleton_append] at this

theorem Good.to0 {regs : List Block} {l : List Block} (h : Good regs l) :
    Good regs ([] ++ l) := by
  rwa [List.nil_append]

theorem Good.to1 {regs : List Block} {x : Block} {l : List Block} (h : Good regs (x :: l)) :
    Good regs ([x] ++ l) := by
  rwa [List.singleton_append]

theorem Good.to2 {regs : List Block} {x y : Block} {l : List Block}
    (h : Good regs (x :: y :: l)) : Good regs ([x, y] ++ l) := by
  rwa [List.cons_append, List.singleton_append]

theorem salvaged_eq_self (s : Pool) (h : ¬ (0 < bytes_left s ∧ s.start_mem_pool ≠ 0)) :
    salvaged s = s := by
  unfold salvaged; rw [if_neg h]

theorem salvaged_eq_push (s : Pool) (h : 0 < bytes_left s ∧ s.start_mem_pool ≠ 0) :
    salvaged s = { s with
      mem := Function.update s.mem s.start_mem_pool (s.free_list (get_free_list (bytes_left s))),
      free_list := Function.update s.free_list (get_free_list (bytes_left s)) s.start_mem_pool } := by
  unfold salvaged; rw [if_pos h]

/-- The salvage moves the remainder of the arena to a bucket below `k`. -/
theorem InvCore.salvage {s : Pool} {live : List (Nat × Nat)} {regs : List Block}
    {fl : Nat → List Nat} (core : InvCore s [arena s] live regs fl)
    (ha1 : s.start_mem_pool ≤ s.end_mem_pool)
    (ha2 : ALIGN ∣ (s.end_mem_pool - s.start_mem_pool))
    (ha3 : s.end_mem_pool - s.start_mem_pool < SIZE_RANGE)
    (k : Nat) (hk : k < FREE_LIST_SIZE)
    (hbl : s.end_mem_pool - s.start_mem_pool < (k + 1) * ALIGN) :
    ∃ fl1, InvCore (salvaged s) [] live regs fl1 ∧ (∀ j, k ≤ j → fl1 j = fl j) ∧
      (∀ j, k ≤ j → (salvaged s).free_list j = s.free_list j) := by
  have hb := bytes_left_eq s ha1 ha3
  by_cases hc : 0 < bytes_left s ∧ s.start_mem_pool ≠ 0
  · rw [salvaged_eq_push s hc]
    rw [hb] at hc ⊢
    obtain ⟨q, hq⟩ := ha2
    have hq1 : 1 ≤ q := by
      rcases Nat.eq_zero_or_pos q with h | h
      · rw [h] at hq; omega
      · exact h
    have hqk : q - 1 < k := by
      simp only [ALIGN] at hq hbl; omega
    have hg : get_free_list (s.end_mem_pool - s.start_mem_pool) = q - 1 := by
      rw [hq]
      have := get_free_list_bucket (q - 1) (by omega)
      have e : q - 1 + 1 = q := by omega
      rw [e, Nat.mul_comm] at this
      exact this
    have hab : arena s = bucket_block (q - 1) s.start_mem_pool := by
      simp only [arena, bucket_block, hq]
      have e : q - 1 + 1 = q := by omega
      rw [e, Nat.mul_comm]
    rw [hg]
    generalize q - 1 = kb at *
    have hkb : kb < FREE_LIST_SIZE := by omega
    have hhas : (arena s).has s.start_mem_pool := by
      simp only [Block.has, arena]; omega
    have hmem : ∀ i, i < FREE_LIST_SIZE → ∀ a ∈ fl i,
        Function.update s.mem s.start_mem_pool (s.free_list kb) a = s.mem a := by
      intro i hi a ha
      exact Function.update_noteq (core.node_ne hi ha (List.mem_append_left _
        (List.mem_singleton_self _)) hhas) _ _
    refine ⟨Function.update fl kb (s.start_mem_pool :: fl kb),
      ⟨?_, core.hs, ?_, core.regs_ok, core.live_ok⟩, ?_, ?_⟩
    · intro i hi
      dsimp only
      by_cases e : i = kb
      · rw [e, Function.update_same, Function.update_same, isChain_cons, Function.update_same]
        exact ⟨rfl, hc.2, IsChain.congr_mem (hmem _ hkb) (core.chains _ hkb)⟩
      · rw [Function.update_noteq e, Function.update_noteq e]
        exact IsChain.congr_mem (hmem _ hi) (core.chains _ hi)
    · refine Good.to0 (Good.perm ?_ core.good1)
      have hf := free_blocks_add_perm fl kb hkb [s.start_mem_pool]
      simp only [List.singleton_append, List.map_cons, List.map_nil] at hf
      rw [← hab] at hf
      refine List.Perm.trans ?_ (List.Perm.append_left _ hf.symm)
      exact List.perm_middle.symm
    · intro j hj
      exact Function.update_noteq (by omega) _ _
    · intro j hj
      exact Function.update_noteq (by omega) _ _
  · rw [salvaged_eq_self s hc]
    exact ⟨fl, core.with_good (Good.to0 (Good.tail core.good1)), fun _ _ => rfl, fun _ _ => rfl⟩

/-- A region granted by the heap becomes an extra block. -/
theorem InvCore.grant {s s' : Pool} {live : List (Nat × Nat)} {regs : List Block}
    {fl : Nat → List Nat} (core : InvCore s [] live regs fl) (a sz : Nat) (ha : a ≠ 0)
    (hd : ∀ r ∈ regs, Disj (a, sz) r)
    (hm : s'.mem = s.mem) (hf : s'.free_list = s.free_list) (hh : s'.heap_size < SIZE_RANGE) :
    InvCore s' [(a, sz)] live ((a, sz) :: regs) fl := by
  refine ⟨fun i hi => by rw [hm, hf]; exact core.chains i hi, hh, ?_, ?_, core.live_ok⟩
  · refine Good.to1 (Good.add_region core.good0 ?_ hd)
    intro b hb
    rcases List.mem_append.1 hb with hb | hb
    · exact live_block_pos core.live_ok hb
    · exact free_block_pos hb
  · intro r hr
    rcases List.mem_cons.1 hr with hr | hr
    · subst hr; exact ha
    · exact core.regs_ok r hr

/-- A bucket gives its head, which becomes an extra block. -/
theorem InvCore.donor {s : Pool} {live : List (Nat × Nat)} {regs : List Block}
    {fl : Nat → List Nat} (core : InvCore s [] live regs fl) (j : Nat)
    (hj : j < FREE_LIST_SIZE) (hp : s.free_list j ≠ 0) :
    ∃ l, fl j = s.free_list j :: l ∧
      InvCore (donate s j) [bucket_block j (s.free_list j)] live regs (Function.update fl j l) := by
  obtain ⟨l, hl, hc⟩ := (core.chains j hj).of_ne_zero hp
  refine ⟨l, hl, ⟨?_, core.hs, ?_, core.regs_ok, core.live_ok⟩⟩
  · intro i hi
    simp only [donate]
    by_cases e : i = j
    · rw [e, Function.update_same, Function.update_same]
      exact hc
    · rw [Function.update_noteq e, Function.update_noteq e]
      exact core.chains i hi
  · refine Good.to1 (Good.perm ?_ core.good0)
    have hf := free_blocks_pop_perm fl j hj _ l hl
    refine (List.Perm.append_left _ hf).trans ?_
    exact List.perm_middle

/-- After the failure the arena is the empty block at null. -/
theorem InvCore.exhausted {s s' : Pool} {live : List (Nat × Nat)} {regs : List Block}
    {fl : Nat → List Nat} (core : InvCore s [] live regs fl)
    (hm : s'.mem = s.mem) (hf : s'.free_list = s.free_list) (hh : s'.heap_size = s.heap_size) :
    InvCore s' [(0, 0)] live regs fl :=
  ⟨fun i hi => by rw [hm, hf]; exact core.chains i hi, by rw [hh]; exact core.hs,
    Good.to1 (Good.empty_block core.good0), core.regs_ok, core.live_ok⟩

theorem chunk_blocks_good (k : Nat) : ∀ (m a : Nat),
    ((chunk_blocks a ((k + 1) * ALIGN) m).map (bucket_block k)).Pairwise Disj ∧
    ∀ y ∈ (chunk_blocks a ((k + 1) * ALIGN) m).map (bucket_block k),
      a ≤ y.1 ∧ y.1 + y.2 ≤ a + m * ((k + 1) * ALIGN) ∧ ALIGN ∣ (y.1 - a) := by
  intro m
  induction m with
  | zero => intro a; simp [chunk_blocks]
  | succ m ih =>
    intro a
    obtain ⟨ih1, ih2⟩ := ih (a + (k + 1) * ALIGN)
    have e : a + (k + 1) * ALIGN + m * ((k + 1) * ALIGN) = a + (m + 1) * ((k + 1) * ALIGN) := by
      ring
    simp only [chunk_blocks, List.map_cons, List.pairwise_cons, List.mem_cons, forall_eq_or_imp]
    refine ⟨⟨?_, ih1⟩, ?_, ?_⟩
    · intro y hy
      have := ih2 y hy
      left
      simp only [bucket_block]
      omega
    · simp only [bucket_block]
      refine ⟨le_refl _, ?_, by simp⟩
      have : 1 * ((k + 1) * ALIGN) ≤ (m + 1) * ((k + 1) * ALIGN) :=
        Nat.mul_le_mul_right _ (by omega)
      omega
    · intro y hy
      obtain ⟨h1, h2, h3⟩ := ih2 y hy
      refine ⟨by omega, by omega, ?_⟩
      have e2 : y.1 - a = (y.1 - (a + (k + 1) * ALIGN)) + (k + 1) * ALIGN := by omega
      rw [e2]
      exact dvd_add h3 (Dvd.intro_left _ rfl)

/-- The loop of `refill` threads the blocks after the first one of the chunk
on bucket `k`, which was empty. -/
theorem InvCore.chain {s : Pool} {x : Block} {live : List (Nat × Nat)} {regs : List Block}
    {fl : Nat → List Nat} (k c m : Nat) (mem' : Nat → Nat)
    (core : InvCore s [x, (c, (m + 1) * ((k + 1) * ALIGN))] live regs fl)
    (hk : k < FREE_LIST_SIZE) (hm : 1 ≤ m) (hfl : fl k = [])
    (hlinks : ∀ j, j < m → mem' (c + (k + 1) * ALIGN + j * ((k + 1) * ALIGN)) =
      if j + 1 = m then 0 else c + (k + 1) * ALIGN + (j + 1) * ((k + 1) * ALIGN))
    (hframe : ∀ y, (y < c + (k + 1) * ALIGN ∨
      c + (k + 1) * ALIGN + m * ((k + 1) * ALIGN) ≤ y) → mem' y = s.mem y) :
    InvCore { s with
        free_list := Function.update s.free_list k (c + (k + 1) * ALIGN), mem := mem' }
      [x, (c, (k + 1) * ALIGN)] live regs
      (Function.update fl k (chunk_blocks (c + (k + 1) * ALIGN) ((k + 1) * ALIGN) m)) := by
  have hsz : 0 < (k + 1) * ALIGN := by simp [ALIGN]
  have he : c + (k + 1) * ALIGN + m * ((k + 1) * ALIGN) = c + (m + 1) * ((k + 1) * ALIGN) := by
    ring
  refine ⟨?_, core.hs, ?_, core.regs_ok, core.live_ok⟩
  · intro i hi
    dsimp only
    by_cases e : i = k
    · rw [e, Function.update_same, Function.update_same]
      have := chain_of_links mem' ((k + 1) * ALIGN) m (c + (k + 1) * ALIGN) (by omega) hlinks
      have hm0 : ¬ m = 0 := by omega
      rw [if_neg hm0] at this
      exact this
    · rw [Function.update_noteq e, Function.update_noteq e]
      refine IsChain.congr_mem ?_ (core.chains i hi)
      intro a ha
      apply hframe
      have := core.node_out hi ha (b := (c, (m + 1) * ((k + 1) * ALIGN)))
        (List.mem_append_left _ (by simp))
      simp only at this
      omega
  · have hg := core.good2
    have hg2 : Good regs ((c, (m + 1) * ((k + 1) * ALIGN)) :: x ::
        (live.map live_block ++ free_blocks fl)) := Good.perm (List.Perm.swap _ _ _) hg
    obtain ⟨hc1, hc2⟩ := chunk_blocks_good k m (c + (k + 1) * ALIGN)
    have hsplit := @Good.split regs _ ((c, (k + 1) * ALIGN) ::
        (chunk_blocks (c + (k + 1) * ALIGN) ((k + 1) * ALIGN) m).map (bucket_block k)) _ hg2
      (by
        refine List.pairwise_cons.2 ⟨?_, hc1⟩
        intro y hy
        have := hc2 y hy
        left; simp only; omega)
      (by
        intro y hy
        rcases List.mem_cons.1 hy with hy | hy
        · subst hy
          refine ⟨le_refl _, ?_, by simp⟩
          have : 1 * ((k + 1) * ALIGN) ≤ (m + 1) * ((k + 1) * ALIGN) :=
            Nat.mul_le_mul_right _ (by omega)
          simp only; omega
        · obtain ⟨h1, h2, h3⟩ := hc2 y hy
          refine ⟨by simp only; omega, by simp only; omega, ?_⟩
          have e2 : y.1 - c = (y.1 - (c + (k + 1) * ALIGN)) + (k + 1) * ALIGN := by omega
          simp only
          rw [e2]
          exact dvd_add h3 (Dvd.intro_left _ rfl))
    refine Good.to2 (Good.perm ?_ hsplit)
    have hf := free_blocks_add_perm fl k hk
      (chunk_blocks (c + (k + 1) * ALIGN) ((k + 1) * ALIGN) m)
    rw [hfl, List.append_nil] at hf
    generalize (chunk_blocks (c + (k + 1) * ALIGN) ((k + 1) * ALIGN) m).map (bucket_block k)
      = bl at *
    generalize free_blocks (Function.update fl k
      (chunk_blocks (c + (k + 1) * ALIGN) ((k + 1) * ALIGN) m)) = F' at *
    generalize free_blocks fl = F at *
    generalize live.map live_block = L at *
    -- (c,sz) :: bl ++ x :: (L ++ F)  ~  x :: (c,sz) :: (L ++ F')
    have h1 : (L ++ F').Perm (bl ++ (L ++ F)) := by
      refine (List.Perm.append_left _ hf).trans ?_
      rw [← List.append_assoc, ← List.append_assoc]
      exact List.Perm.append_right _ List.perm_append_comm
    simp only [List.cons_append]
    refine List.Perm.trans ?_ (List.Perm.swap _ _ _)
    refine List.Perm.cons _ ?_
    refine List.perm_middle.trans ?_
    exact List.Perm.cons _ h1.symm

theorem allocate_chunk_no_reply (size : Nat) (s : Pool) (hs2 : size ≤ MAX_BYTES)
    (hbl : bytes_left s < size) : allocate_chunk size [] s 20 = .no_reply := by
  have h20 : to_size_t 20 = 20 := by decide
  have hmod : size * 20 % SIZE_RANGE = size * 20 :=
    Nat.mod_eq_of_lt (by simp only [SIZE_RANGE, MAX_BYTES] at *; omega)
  have hbl2 : ¬ bytes_left s ≥ size * 20 := by omega
  have hbl3 : ¬ bytes_left s ≥ size := by omega
  unfold allocate_chunk
  simp only [h20, hmod, hbl2, hbl3, if_false, salvage_eq s size hbl hs2]

theorem bucket_size_bounds (k : Nat) (hk : k < FREE_LIST_SIZE) :
    1 ≤ (k + 1) * ALIGN ∧ (k + 1) * ALIGN ≤ MAX_BYTES ∧ ALIGN ∣ (k + 1) * ALIGN := by
  refine ⟨?_, ?_, Dvd.intro_left _ rfl⟩
  · simp only [ALIGN]; omega
  · simp only [FREE_LIST_SIZE, MAX_BYTES, ALIGN] at *; omega

/-- Carving `min 20 (span / size)` blocks off an arena that holds at least
one keeps the invariant. -/
theorem InvCore.carve_blocks {s : Pool} {live : List (Nat × Nat)} {regs : List Block}
    {fl : Nat → List Nat} (core : InvCore s [arena s] live regs fl)
    (ha1 : s.start_mem_pool ≤ s.end_mem_pool)
    (ha2 : ALIGN ∣ (s.end_mem_pool - s.start_mem_pool))
    (ha3 : s.end_mem_pool - s.start_mem_pool < SIZE_RANGE)
    (k c : Nat) (hsp : (k + 1) * ALIGN ≤ s.end_mem_pool - s.start_mem_pool)
    (hc : c = min 20 ((s.end_mem_pool - s.start_mem_pool) / ((k + 1) * ALIGN))) :
    1 ≤ c ∧ c ≤ 20 ∧
      InvCore { s with start_mem_pool := s.start_mem_pool + c * ((k + 1) * ALIGN) }
        [arena { s with start_mem_pool := s.start_mem_pool + c * ((k + 1) * ALIGN) },
          (s.start_mem_pool, c * ((k + 1) * ALIGN))] live regs fl ∧
      s.start_mem_pool + c * ((k + 1) * ALIGN) ≤ s.end_mem_pool ∧
      ALIGN ∣ (s.end_mem_pool - (s.start_mem_pool + c * ((k + 1) * ALIGN))) ∧
      s.end_mem_pool - (s.start_mem_pool + c * ((k + 1) * ALIGN)) < SIZE_RANGE := by
  have hsz : 0 < (k + 1) * ALIGN := by simp [ALIGN]
  have hq : 1 ≤ (s.end_mem_pool - s.start_mem_pool) / ((k + 1) * ALIGN) :=
    (Nat.le_div_iff_mul_le hsz).2 (by omega)
  have hqm := Nat.div_mul_le_self (s.end_mem_pool - s.start_mem_pool) ((k + 1) * ALIGN)
  generalize (s.end_mem_pool - s.start_mem_pool) / ((k + 1) * ALIGN) = q at *
  have hmq : c ≤ q := by omega
  have hle : c * ((k + 1) * ALIGN) ≤ q * ((k + 1) * ALIGN) := Nat.mul_le_mul_right _ hmq
  have hdvd : ALIGN ∣ c * ((k + 1) * ALIGN) :=
    Dvd.dvd.mul_left (Dvd.intro_left _ rfl) _
  refine ⟨by omega, by omega, core.carve _ (by omega) hdvd, by omega, ?_, by omega⟩
  have e : s.end_mem_pool - (s.start_mem_pool + c * ((k + 1) * ALIGN))
      = (s.end_mem_pool - s.start_mem_pool) - c * ((k + 1) * ALIGN) := by omega
  rw [e]
  exact (Nat.dvd_sub' ha2 hdvd)

theorem allocate_chunk_inv {s : Pool} {live : List (Nat × Nat)} {regs : List Block}
    {fl : Nat → List Nat} (core : InvCore s [arena s] live regs fl)
    (ha1 : s.start_mem_pool ≤ s.end_mem_pool)
    (ha2 : ALIGN ∣ (s.end_mem_pool - s.start_mem_pool))
    (ha3 : s.end_mem_pool - s.start_mem_pool < SIZE_RANGE)
    (k : Nat) (hk : k < FREE_LIST_SIZE) (hfl : fl k = []) (heap : List (Option Nat)) :
    ChunkPost k heap live regs (allocate_chunk ((k + 1) * ALIGN) heap s 20) := by
  obtain ⟨hs1, hs2, hs3⟩ := bucket_size_bounds k hk
  have hb := bytes_left_eq s ha1 ha3
  by_cases hsp : (k + 1) * ALIGN ≤ s.end_mem_pool - s.start_mem_pool
  · -- the arena holds at least one block
    rw [allocate_chunk_carve _ heap s hs1 hs2 ha1 ha3 hsp]
    obtain ⟨hc1, hc20, hcore, hb1, hb2, hb3⟩ := core.carve_blocks ha1 ha2 ha3 k _ hsp rfl
    exact ⟨_, rfl, hc1, hc20, fun _ => ⟨fl, hcore, hfl, hb1, hb2, hb3⟩⟩
  · have hbl : bytes_left s < (k + 1) * ALIGN := by omega
    obtain ⟨fl1, core1, hfl1, hfree1⟩ := core.salvage ha1 ha2 ha3 k hk (by omega)
    have hfl1k : fl1 k = [] := by rw [hfl1 k (le_refl _)]; exact hfl
    have hreq := request_size_bounds s _ hs2 core.hs
    cases heap with
    | nil =>
      rw [allocate_chunk_no_reply _ s hs2 hbl]
      rfl
    | cons r rest =>
      cases r with
      | some a =>
        rw [allocate_chunk_grant _ a rest s hs1 hs2 hbl core.hs]
        refine ⟨20, rfl, by omega, by omega, fun hok => ?_⟩
        obtain ⟨hane, hdisj, _⟩ := hok
        -- the state with the new region as its arena
        have hg := @InvCore.grant (salvaged s) { salvaged s with
            start_mem_pool := a,
            heap_size := (s.heap_size + request_size s ((k + 1) * ALIGN)) % SIZE_RANGE,
            end_mem_pool := a + request_size s ((k + 1) * ALIGN) } _ _ _ core1
          a (request_size s ((k + 1) * ALIGN)) hane hdisj rfl rfl
          (Nat.mod_lt _ (by simp [SIZE_RANGE]))
        have hg' : InvCore { salvaged s with
            start_mem_pool := a,
            heap_size := (s.heap_size + request_size s ((k + 1) * ALIGN)) % SIZE_RANGE,
            end_mem_pool := a + request_size s ((k + 1) * ALIGN) }
            [arena { salvaged s with
              start_mem_pool := a,
              heap_size := (s.heap_size + request_size s ((k + 1) * ALIGN)) % SIZE_RANGE,
              end_mem_pool := a + request_size s ((k + 1) * ALIGN) }] live
            ((a, request_size s ((k + 1) * ALIGN)) :: regs) fl1 := by
          have e : arena { salvaged s with
              start_mem_pool := a,
              heap_size := (s.heap_size + request_size s ((k + 1) * ALIGN)) % SIZE_RANGE,
              end_mem_pool := a + request_size s ((k + 1) * ALIGN) }
              = (a, request_size s ((k + 1) * ALIGN)) := by simp [arena]
          rw [e]; exact hg
        have hc := hg'.carve (20 * ((k + 1) * ALIGN)) (by simp only; omega)
          (Dvd.dvd.mul_left hs3 _)
        have hra : regions_after regs [(request_size s ((k + 1) * ALIGN), some a)]
            = (a, request_size s ((k + 1) * ALIGN)) :: regs := rfl
        rw [hra]
        dsimp only at hc
        refine ⟨fl1, hc, hfl1k, ?_, ?_, ?_⟩
        · simp only; omega
        · simp only
          have e : a + request_size s ((k + 1) * ALIGN) - (a + 20 * ((k + 1) * ALIGN))
              = request_size s ((k + 1) * ALIGN) - 20 * ((k + 1) * ALIGN) := by omega
          rw [e]
          refine Nat.dvd_sub' ?_ (Dvd.dvd.mul_left hs3 _)
          unfold request_size
          refine dvd_add ?_ (round_up_le _ ?_).2.2
          · exact Dvd.dvd.mul_left (Dvd.dvd.mul_right hs3 _) _
          · have := core.hs
            simp only [SIZE_RANGE] at this ⊢; omega
        · simp only; omega
      | none =>
        rcases scavenge_loop_spec (salvaged s) (FREE_LIST_SIZE + 1) k (by omega) (by omega) with
          ⟨j, hkj, hj, hp, hz, _⟩ | ⟨hz, _⟩
        · rw [allocate_chunk_donor k j rest s hkj hj hbl core.hs hp hz]
          obtain ⟨l, hl, hd⟩ := core1.donor j hj hp
          have harena : bucket_block j ((salvaged s).free_list j) =
              arena (donate (salvaged s) j) := by
            simp [arena, donate, bucket_block]
          rw [harena] at hd
          have hjk : j ≠ k := by
            intro e
            rw [e, hfl1k] at hl
            exact List.noConfusion hl
          have hspan : (donate (salvaged s) j).end_mem_pool -
              (donate (salvaged s) j).start_mem_pool = (j + 1) * ALIGN := by
            simp [donate]
          have hle : (k + 1) * ALIGN ≤ (j + 1) * ALIGN :=
            Nat.mul_le_mul_right _ (by omega)
          obtain ⟨hsj1, hsj2, hsj3⟩ := bucket_size_bounds j hj
          obtain ⟨hc1, hc20, hcore, hb1, hb2, hb3⟩ := hd.carve_blocks
            (by simp [donate]) (by rw [hspan]; exact hsj3)
            (by rw [hspan]; simp only [SIZE_RANGE, MAX_BYTES] at *; omega) k
            (min 20 ((j + 1) * ALIGN / ((k + 1) * ALIGN)))
            (by rw [hspan]; exact hle) (by rw [hspan])
          refine ⟨_, rfl, hc1, hc20, fun _ => ⟨Function.update fl1 j l, hcore, ?_, hb1, hb2, hb3⟩⟩
          rw [Function.update_noteq (Ne.symm hjk)]
          exact hfl1k
        · rw [allocate_chunk_exhausted k rest s hk hbl core.hs hz]
          intro _
          refine ⟨fl1, ?_, le_refl _, by simp, by simp [SIZE_RANGE]⟩
          exact core1.exhausted rfl rfl rfl

/-- The first block of the chunk goes to the caller. -/
theorem InvCore.take {s : Pool} {x : Block} {live : List (Nat × Nat)} {regs : List Block}
    {fl : Nat → List Nat} {c n sz : Nat} (core : InvCore s [x, (c, sz)] live regs fl)
    (hsz : round_up n = sz) (h1 : 1 ≤ n) (h2 : n ≤ MAX_BYTES) :
    InvCore s [x] ((c, n) :: live) regs fl := by
  refine ⟨core.chains, core.hs, ?_, core.regs_ok, ?_⟩
  · have := core.good2
    rw [List.singleton_append, List.map_cons, List.cons_append]
    have e : live_block (c, n) = (c, sz) := by rw [← hsz]; rfl
    rw [e]
    exact this
  · intro b hb
    rcases List.mem_cons.1 hb with hb | hb
    · subst hb; exact ⟨h1, h2⟩
    · exact core.live_ok b hb

theorem refill_inv {s : Pool} {live : List (Nat × Nat)} {regs : List Block}
    (hinv : Inv s live regs) (n : Nat) (h1 : 1 ≤ n) (h2 : n ≤ MAX_BYTES)
    (hz : s.free_list (get_free_list n) = 0) (heap : List (Option Nat)) :
    AllocPost n heap live regs (refill heap s (round_up n)) := by
  obtain ⟨fl, core, ha1, ha2, ha3⟩ := hinv
  have hk := get_free_list_lt n h1 h2
  have hru := round_up_get_free_list n h1 h2
  have hgk := get_free_list_bucket (get_free_list n) hk
  generalize get_free_list n = k at *
  have hflk : fl k = [] := by
    have := core.chains k hk
    rw [hz] at this
    exact this.of_zero
  have hcp := allocate_chunk_inv core ha1 ha2 ha3 k hk hflk heap
  obtain ⟨hs1, hs2, hs3⟩ := bucket_size_bounds k hk
  cases ho : allocate_chunk ((k + 1) * ALIGN) heap s 20 with
  | ret v s1 log =>
    obtain ⟨c, cnt⟩ := v
    rw [ho] at hcp
    obtain ⟨m, hcnt, hm1, hm20, hpost⟩ := hcp
    by_cases hm : m = 1
    · subst hm
      rw [hru, refill_one heap s s1 _ c cnt log ho (by rw [hcnt]; rfl)]
      intro hok
      obtain ⟨fl1, hcore, _, hb1, hb2, hb3⟩ := hpost hok
      rw [Nat.one_mul] at hcore
      exact ⟨fl1, hcore.take hru h1 h2, hb1, hb2, hb3⟩
    · obtain ⟨m', rfl⟩ : ∃ m', m = m' + 2 := ⟨m - 2, by omega⟩
      obtain ⟨mem', hr, hlinks, hframe⟩ := refill_many heap s s1 _ c cnt log ho m' hcnt hs1
        (by rw [hgk]; exact hk)
      rw [hru, hr, hgk]
      intro hok
      obtain ⟨fl1, hcore, hfl1, hb1, hb2, hb3⟩ := hpost hok
      have hch := InvCore.chain k c (m' + 1) mem' hcore hk (by omega) hfl1 hlinks hframe
      exact ⟨_, hch.take hru h1 h2, hb1, hb2, hb3⟩
  | bad_alloc s1 log =>
    rw [ho] at hcp
    have : refill heap s (round_up n) = .bad_alloc s1 log := by
      rw [hru]; simp only [refill, ho]
    rw [this]
    exact hcp
  | fault =>
    rw [ho] at hcp
    exact hcp.elim
  | no_reply =>
    rw [ho] at hcp
    have : refill heap s (round_up n) = .no_reply := by
      rw [hru]; simp only [refill, ho]
    rw [this]
    exact hcp

theorem allocate_inv {s : Pool} {live : List (Nat × Nat)} {regs : List Block}
    (hinv : Inv s live regs) (n : Nat) (h1 : 1 ≤ n) (h2 : n ≤ MAX_BYTES)
    (heap : List (Option Nat)) :
    AllocPost n heap live regs (_allocate heap s n) := by
  by_cases hz : s.free_list (get_free_list n) = 0
  · rw [allocate_refill_eq heap s n h1 h2 hz]
    exact refill_inv hinv n h1 h2 hz heap
  · rw [allocate_pop_eq heap s n h1 h2 hz]
    intro _
    exact inv_pop hinv h1 h2 hz

theorem free_blocks_nil : free_blocks (fun _ => []) = [] := by
  simp [free_blocks]

theorem inv_init (m : Nat → Nat) : Inv (init m) [] [] := by
  refine ⟨fun _ => [], ⟨fun i _ => rfl, by simp [init, SIZE_RANGE], ?_, ?_, ?_⟩,
    le_refl _, by simp [init], by simp [init, SIZE_RANGE]⟩
  · rw [free_blocks_nil, List.map_nil, List.append_nil, List.append_nil]
    exact ⟨List.pairwise_singleton _ _, fun b hb => by
      rw [List.mem_singleton] at hb; subst hb; exact Or.inl (by simp [arena, init])⟩
  · intro r hr; exact absurd hr (List.not_mem_nil _)
  · intro b hb; exact absurd hb (List.not_mem_nil _)

theorem allocate_oversized_state (heap : List (Option Nat)) (s s1 : Pool) (n : Nat)
    (hn : MAX_BYTES < n) (h : (_allocate heap s n).state? = some s1) : s1 = s := by
  have hn' : n > MAX_BYTES := hn
  simp only [_allocate, hn', if_true, alloc] at h
  cases heap with
  | nil => simp [Outcome.state?] at h
  | cons r rest =>
    cases r with
    | none => simp [Outcome.state?] at h; exact h.symm
    | some a =>
      by_cases ha : a = 0
      · simp [Outcome.state?, ha] at h; exact h.symm
      · simp [Outcome.state?, ha] at h; exact h.symm

theorem deallocate_oversized_state (s s1 : Pool) (p n : Nat)
    (hn : MAX_BYTES < n) (h : _deallocate s p n = some s1) :
    s1 = { s with freed := p :: s.freed } := by
  have hn' : n > MAX_BYTES := hn
  simp only [_deallocate, hn', if_true, dealloc] at h
  injection h with h
  exact h.symm

theorem inv_client_write {s : Pool} {live : List (Nat × Nat)} {regs : List Block}
    (hinv : Inv s live regs) (m : Nat → Nat)
    (hm : ∀ x, (∀ b ∈ live, ¬ (live_block b).has x) → m x = s.mem x) :
    Inv { s with mem := m } live regs := by
  obtain ⟨fl, core, ha1, ha2, ha3⟩ := hinv
  refine ⟨fl, ⟨?_, core.hs, core.good, core.regs_ok, core.live_ok⟩, ha1, ha2, ha3⟩
  intro i hi
  refine IsChain.congr_mem ?_ (core.chains i hi)
  intro a ha
  apply hm
  intro b hb hhas
  exact core.node_ne hi ha (List.mem_append_right _ (List.mem_map_of_mem _ hb)) hhas rfl

/-- Every reachable state satisfies the invariant. -/
theorem reach_inv {s : Pool} {live : List (Nat × Nat)} {regs : List Block}
    (h : Reach s live regs) : Inv s live regs := by
  induction h with
  | init m => exact inv_init m
  | @allocate s s1 live regs heap n p log _ h1 h2 hok he ih =>
    have := allocate_inv ih n h1 h2 heap
    rw [he] at this
    exact this hok
  | @allocate_failed s s1 live regs heap n log _ h1 h2 hok he ih =>
    have := allocate_inv ih n h1 h2 heap
    rw [he] at this
    exact this hok
  | deallocate _ hl hd ih => exact inv_deallocate ih hl hd
  | oversized _ hn he hst ih =>
    rw [← he] at hst
    rw [allocate_oversized_state _ _ _ _ hn hst]
    exact ih
  | oversized_free _ hn hd ih =>
    rw [deallocate_oversized_state _ _ _ _ hn hd]
    obtain ⟨fl, core, h1, h2, h3⟩ := ih
    exact ⟨fl, core.congr_state rfl rfl core.hs, h1, h2, h3⟩
  | client_write m _ hm ih => exact inv_client_write ih m hm

theorem Disj.no_common_byte {a b : Block} (h : Disj a b) (x : Nat) : ¬ (a.has x ∧ b.has x) := by
  unfold Disj Block.has at *
  omega

/-- The facts the invariant gives about the blocks of a state, in terms of
the lists the free-list heads lead to. -/
theorem Inv.blocks {s : Pool} {live : List (Nat × Nat)} {regs : List Block}
    (h : Inv s live regs) :
    (live.map live_block).Pairwise Disj ∧
    (∀ a ∈ live, Disj (arena s) (live_block a)) ∧
    (∀ i, i < FREE_LIST_SIZE → ∀ l, IsChain s.mem (s.free_list i) l →
      (l.map (bucket_block i)).Pairwise Disj ∧
      ∀ q ∈ l, Disj (arena s) (bucket_block i q) ∧
        (∀ a ∈ live, Disj (live_block a) (bucket_block i q)) ∧
        (∀ j, j < FREE_LIST_SIZE → j ≠ i → ∀ l', IsChain s.mem (s.free_list j) l' →
          ∀ q' ∈ l', Disj (bucket_block j q') (bucket_block i q)) ∧
        ∃ r ∈ regs, r.1 ≠ 0 ∧ r.1 ≤ q ∧ q + (i + 1) * ALIGN ≤ r.1 + r.2 ∧ ALIGN ∣ (q - r.1)) ∧
    (∀ a ∈ live, ∃ r ∈ regs, r.1 ≠ 0 ∧ r.1 ≤ a.1 ∧ a.1 + round_up a.2 ≤ r.1 + r.2 ∧
      ALIGN ∣ (a.1 - r.1)) := by
  obtain ⟨fl, core, _, _, _⟩ := h
  have hg := core.good1
  obtain ⟨hp, hw⟩ := hg
  obtain ⟨hp1, hp2⟩ := List.pairwise_cons.1 hp
  obtain ⟨hp3, hp4, hp5⟩ := List.pairwise_append.1 hp2
  have hfree : ∀ i, i < FREE_LIST_SIZE → ∀ q ∈ fl i, bucket_block i q ∈ free_blocks fl :=
    fun i hi q hq => (mem_free_blocks fl _).2 ⟨i, hi, q, hq, rfl⟩
  refine ⟨hp3, ?_, ?_, ?_⟩
  · intro a ha
    exact hp1 _ (List.mem_append_left _ (List.mem_map_of_mem _ ha))
  · intro i hi l hl
    have hli : l = fl i := hl.unique (core.chains i hi)
    subst hli
    have hperm := free_blocks_perm fl i hi
    have hp6 := (List.Perm.pairwise_iff (fun h => Disj.symm h) hperm).1 hp4
    obtain ⟨hp7, _, hp8⟩ := List.pairwise_append.1 hp6
    refine ⟨hp7, ?_⟩
    intro q hq
    refine ⟨hp1 _ (List.mem_append_right _ (hfree i hi q hq)), ?_, ?_, ?_⟩
    · intro a ha
      exact hp5 _ (List.mem_map_of_mem _ ha) _ (hfree i hi q hq)
    · intro j hj hji l' hl' q' hq'
      have hlj : l' = fl j := hl'.unique (core.chains j hj)
      subst hlj
      refine (hp8 _ (List.mem_map_of_mem _ hq) _ ?_).symm
      refine (mem_free_blocks _ _).2 ⟨j, hj, q', ?_, rfl⟩
      rw [Function.update_noteq hji]
      exact hq'
    · rcases hw _ (List.mem_cons_of_mem _ (List.mem_append_right _ (hfree i hi q hq))) with
        h0 | ⟨r, hr, h1, h2, h3⟩
      · simp [bucket_block, ALIGN] at h0
      · exact ⟨r, hr, core.regs_ok r hr, h1, h2, h3⟩
  · intro a ha
    rcases hw _ (List.mem_cons_of_mem _ (List.mem_append_left _ (List.mem_map_of_mem _ ha))) with
      h0 | ⟨r, hr, h1, h2, h3⟩
    · have := round_up_pos a.2 (core.live_ok a ha).1 (core.live_ok a ha).2
      simp only [live_block] at h0
      omega
    · exact ⟨r, hr, core.regs_ok r hr, h1, h2, h3⟩

end pool_alloc

/-! ## The outcome of `_allocate` case by case -/

namespace pool_alloc

open pool_alloc_base

/-- A pop: the bucket of `n` is not empty. -/
theorem allocate_pop_ret (heap : List (Option Nat)) (s : Pool) (n : Nat) (h1 : 1 ≤ n)
    (h2 : n ≤ MAX_BYTES) (h : s.free_list (get_free_list n) ≠ 0) :
    ∃ p s1 log, _allocate heap s n = .ret p s1 log :=
  ⟨_, _, _, allocate_pop_eq heap s n h1 h2 h⟩

/-- The bucket of `n` is empty and the arena holds a block. -/
theorem allocate_carve_ret {s : Pool} {live : List (Nat × Nat)} {regs : List Block}
    (hinv : Inv s live regs) (heap : List (Option Nat)) (n : Nat) (h1 : 1 ≤ n)
    (h2 : n ≤ MAX_BYTES) (hz : s.free_list (get_free_list n) = 0)
    (hsp : round_up n ≤ s.end_mem_pool - s.start_mem_pool) :
    ∃ s1, _allocate heap s n = .ret s.start_mem_pool s1 [] := by
  obtain ⟨fl, core, ha1, ha2, ha3⟩ := hinv
  have hk := get_free_list_lt n h1 h2
  have hru := round_up_get_free_list n h1 h2
  have hgk := get_free_list_bucket (get_free_list n) hk
  rw [allocate_refill_eq heap s n h1 h2 hz, hru]
  rw [hru] at hsp
  generalize get_free_list n = k at *
  obtain ⟨hs1, hs2, hs3⟩ := bucket_size_bounds k hk
  obtain ⟨hc1, _⟩ := core.carve_blocks ha1 ha2 ha3 k _ hsp rfl
  obtain ⟨s2, hr, _⟩ := refill_ret heap s _ _ _ _ []
    (allocate_chunk_carve _ heap s hs1 hs2 ha1 ha3 hsp) _ rfl hc1 hs1 (by rw [hgk]; exact hk)
  exact ⟨s2, hr⟩

/-- The bucket of `n` is empty, the arena holds no block and the heap grants
a region. -/
theorem allocate_grant_ret {s : Pool} {live : List (Nat × Nat)} {regs : List Block}
    (hinv : Inv s live regs) (a : Nat) (rest : List (Option Nat)) (n : Nat) (h1 : 1 ≤ n)
    (h2 : n ≤ MAX_BYTES) (hz : s.free_list (get_free_list n) = 0)
    (hsp : s.end_mem_pool - s.start_mem_pool < round_up n) :
    ∃ s1, _allocate (some a :: rest) s n =
      .ret a s1 [(request_size s (round_up n), some a)] := by
  obtain ⟨fl, core, ha1, ha2, ha3⟩ := hinv
  have hk := get_free_list_lt n h1 h2
  have hru := round_up_get_free_list n h1 h2
  have hgk := get_free_list_bucket (get_free_list n) hk
  have hb := bytes_left_eq s ha1 ha3
  rw [allocate_refill_eq _ s n h1 h2 hz, hru]
  rw [hru] at hsp
  generalize get_free_list n = k at *
  obtain ⟨hs1, hs2, hs3⟩ := bucket_size_bounds k hk
  have hg := allocate_chunk_grant _ a rest s hs1 hs2 (by omega) core.hs
  obtain ⟨s2, hr, _⟩ := refill_ret _ s _ _ _ _ _ hg 20 (by norm_num) (by omega) hs1
    (by rw [hgk]; exact hk)
  exact ⟨s2, hr⟩

/-- With at least one block in the arena `allocate_chunk` returns. -/
theorem allocate_chunk_carve_ret (size : Nat) (heap : List (Option Nat)) (s : Pool)
    (h : size ≤ bytes_left s) :
    ∃ v s1, allocate_chunk size heap s 20 = .ret v s1 [] := by
  unfold allocate_chunk
  by_cases hf : bytes_left s ≥ (size * to_size_t 20) % SIZE_RANGE
  · exact ⟨_, _, by simp only [hf, if_true]; rfl⟩
  · have hp : bytes_left s ≥ size := h
    exact ⟨_, _, by simp only [hf, hp, if_true, if_false]; rfl⟩

/-- The only way `allocate_chunk` throws: no block in the arena, the heap
refuses, and no bucket from `k` up has a block. -/
theorem allocate_chunk_bad_alloc (k : Nat) (heap : List (Option Nat)) (s s1 : Pool)
    (log : List HeapEvent) (hk : k < FREE_LIST_SIZE) (hhs : s.heap_size < SIZE_RANGE)
    (h : allocate_chunk ((k + 1) * ALIGN) heap s 20 = .bad_alloc s1 log) :
    bytes_left s < (k + 1) * ALIGN ∧ (∃ rest, heap = none :: rest) ∧
    (∀ j, k ≤ j → j < FREE_LIST_SIZE → (salvaged s).free_list j = 0) ∧
    s1 = { salvaged s with start_mem_pool := 0, end_mem_pool := 0 } ∧
    log = [(request_size s ((k + 1) * ALIGN), none)] := by
  obtain ⟨hs1, hs2, hs3⟩ := bucket_size_bounds k hk
  by_cases hbl : (k + 1) * ALIGN ≤ bytes_left s
  · obtain ⟨v, s2, he⟩ := allocate_chunk_carve_ret _ heap s hbl
    rw [he] at h
    exact Outcome.noConfusion h
  · have hbl' : bytes_left s < (k + 1) * ALIGN := by omega
    cases heap with
    | nil =>
      rw [allocate_chunk_no_reply _ s hs2 hbl'] at h
      exact Outcome.noConfusion h
    | cons r rest =>
      cases r with
      | some a =>
        rw [allocate_chunk_grant _ a rest s hs1 hs2 hbl' hhs] at h
        exact Outcome.noConfusion h
      | none =>
        rcases scavenge_loop_spec (salvaged s) (FREE_LIST_SIZE + 1) k (by omega) (by omega) with
          ⟨j, hkj, hj, hp, hz, _⟩ | ⟨hz, _⟩
        · rw [allocate_chunk_donor k j rest s hkj hj hbl' hhs hp hz] at h
          exact Outcome.noConfusion h
        · rw [allocate_chunk_exhausted k rest s hk hbl' hhs hz] at h
          injection h with h3 h4
          exact ⟨hbl', ⟨rest, rfl⟩, hz, h3.symm, h4.symm⟩

/-- The only way `_allocate` throws for a pooled size. -/
theorem allocate_bad_alloc (heap : List (Option Nat)) (s s1 : Pool) (n : Nat)
    (log : List HeapEvent) (hhs : s.heap_size < SIZE_RANGE) (h1 : 1 ≤ n) (h2 : n ≤ MAX_BYTES)
    (h : _allocate heap s n = .bad_alloc s1 log) :
    s.free_list (get_free_list n) = 0 ∧
    bytes_left s < round_up n ∧ (∃ rest, heap = none :: rest) ∧
    (∀ j, get_free_list n ≤ j → j < FREE_LIST_SIZE → (salvaged s).free_list j = 0) ∧
    s1 = { salvaged s with start_mem_pool := 0, end_mem_pool := 0 } ∧
    log = [(request_size s (round_up n), none)] := by
  have hk := get_free_list_lt n h1 h2
  have hru := round_up_get_free_list n h1 h2
  by_cases hz : s.free_list (get_free_list n) = 0
  · rw [allocate_refill_eq heap s n h1 h2 hz] at h
    rw [hru] at h ⊢
    generalize get_free_list n = k at *
    cases ho : allocate_chunk ((k + 1) * ALIGN) heap s 20 with
    | ret v s2 log2 =>
      exfalso
      obtain ⟨c, cnt⟩ := v
      simp only [refill, ho] at h
      split at h
      · exact Outcome.noConfusion h
      · split at h
        · split at h
          · exact Outcome.noConfusion h
          · exact Outcome.noConfusion h
        · exact Outcome.noConfusion h
    | bad_alloc s2 log2 =>
      simp only [refill, ho] at h
      injection h with h3 h4
      subst h3 h4
      exact ⟨hz, allocate_chunk_bad_alloc k heap s s2 log2 hk hhs ho⟩
    | fault =>
      simp only [refill, ho] at h
      exact Outcome.noConfusion h
    | no_reply =>
      simp only [refill, ho] at h
      exact Outcome.noConfusion h
  · rw [allocate_pop_eq heap s n h1 h2 hz] at h
    exact Outcome.noConfusion h

theorem min_div_bounds (A B : Nat) (hA : 0 < A) (hAB : A ≤ B) :
    1 ≤ min 20 (B / A) ∧ min 20 (B / A) * A ≤ B := by
  have hq : 1 ≤ B / A := (Nat.le_div_iff_mul_le hA).2 (by rw [Nat.one_mul]; exact hAB)
  have hqm := Nat.div_mul_le_self B A
  have hle : min 20 (B / A) * A ≤ B / A * A := Nat.mul_le_mul_right _ (Nat.min_le_right _ _)
  generalize B / A = q at *
  exact ⟨by omega, le_trans hle hqm⟩

/-- The scavenging path of `_allocate(n)`: bucket `j` is the lowest
non-empty bucket from the one of `n` up, after the salvage. -/
theorem allocate_donor_ret (rest : List (Option Nat)) (s : Pool) (n j : Nat)
    (h1 : 1 ≤ n) (h2 : n ≤ MAX_BYTES) (hhs : s.heap_size < SIZE_RANGE)
    (hz : s.free_list (get_free_list n) = 0) (hbl : bytes_left s < round_up n)
    (hkj : get_free_list n ≤ j) (hj : j < FREE_LIST_SIZE)
    (hp : (salvaged s).free_list j ≠ 0)
    (hlow : ∀ j', get_free_list n ≤ j' → j' < j → (salvaged s).free_list j' = 0) :
    ∃ s1 c, _allocate (none :: rest) s n =
        .ret ((salvaged s).free_list j) s1 [(request_size s (round_up n), none)] ∧
      1 ≤ c ∧ c * round_up n ≤ (j + 1) * ALIGN ∧
      s1.start_mem_pool = (salvaged s).free_list j + c * round_up n ∧
      s1.end_mem_pool = (salvaged s).free_list j + (j + 1) * ALIGN ∧
      s1.heap_size = s.heap_size ∧
      (∀ i, i ≠ get_free_list n → s1.free_list i = (donate (salvaged s) j).free_list i) ∧
      (∀ x, (x < (salvaged s).free_list j + round_up n ∨
          (salvaged s).free_list j + c * round_up n ≤ x) → s1.mem x = (salvaged s).mem x) := by
  have hk := get_free_list_lt n h1 h2
  have hru := round_up_get_free_list n h1 h2
  have hgk := get_free_list_bucket (get_free_list n) hk
  rw [allocate_refill_eq _ s n h1 h2 hz, hru]
  rw [hru] at hbl
  generalize get_free_list n = k at *
  obtain ⟨hs1, hs2, hs3⟩ := bucket_size_bounds k hk
  have hd := allocate_chunk_donor k j rest s hkj hj hbl hhs hp hlow
  have hle : (k + 1) * ALIGN ≤ (j + 1) * ALIGN := Nat.mul_le_mul_right _ (by omega)
  obtain ⟨hc1, hcm⟩ := min_div_bounds _ _ hs1 hle
  obtain ⟨s2, hr, e1, e2, e3, e4, e5⟩ := refill_ret _ s _ _ _ _ _ hd _ rfl hc1 hs1
    (by rw [hgk]; exact hk)
  rw [hgk] at e4
  refine ⟨s2, _, hr, hc1, hcm, e1, ?_, ?_, e4, e5⟩
  · rw [e2]; rfl
  · rw [e3]; exact salvaged_heap_size s

/-- In a state of the invariant the salvage does not write the link word of
a free block. -/
theorem InvCore.salvaged_mem {s : Pool} {live : List (Nat × Nat)} {regs : List Block}
    {fl : Nat → List Nat} (core : InvCore s [arena s] live regs fl)
    (ha1 : s.start_mem_pool ≤ s.end_mem_pool)
    (ha3 : s.end_mem_pool - s.start_mem_pool < SIZE_RANGE)
    {i q : Nat} (hi : i < FREE_LIST_SIZE) (hq : q ∈ fl i) :
    (salvaged s).mem q = s.mem q := by
  have hb := bytes_left_eq s ha1 ha3
  by_cases hc : 0 < bytes_left s ∧ s.start_mem_pool ≠ 0
  · rw [salvaged_eq_push s hc]
    dsimp only
    have hhas : (arena s).has s.start_mem_pool := by
      simp only [Block.has, arena]; omega
    rw [Function.update_noteq (core.node_ne hi hq (List.mem_append_left _
      (List.mem_singleton_self _)) hhas)]
  · rw [salvaged_eq_self s hc]

/-- The scavenging path from a state of the invariant, in terms of the state
before the call: the donor bucket `j` loses exactly its head `p`, which is
returned, and the arena is the part of the block `p` after the blocks
carved for bucket `k`. -/
theorem allocate_donor {s : Pool} {live : List (Nat × Nat)} {regs : List Block}
    (hinv : Inv s live regs) (rest : List (Option Nat)) (n j : Nat)
    (h1 : 1 ≤ n) (h2 : n ≤ MAX_BYTES)
    (hz : s.free_list (get_free_list n) = 0)
    (hsp : s.end_mem_pool - s.start_mem_pool < round_up n)
    (hkj : get_free_list n ≤ j) (hj : j < FREE_LIST_SIZE)
    (hp : s.free_list j ≠ 0)
    (hlow : ∀ j', get_free_list n ≤ j' → j' < j → s.free_list j' = 0) :
    ∃ s1, _allocate (none :: rest) s n =
        .ret (s.free_list j) s1 [(request_size s (round_up n), none)] ∧
      s1.free_list j = s.mem (s.free_list j) ∧
      (∀ l, IsChain s.mem (s.free_list j) (s.free_list j :: l) →
        IsChain s1.mem (s1.free_list j) l) ∧
      s.free_list j ≤ s1.start_mem_pool ∧ s1.start_mem_pool ≤ s1.end_mem_pool ∧
      s1.end_mem_pool = s.free_list j + (j + 1) * ALIGN ∧
      s1.heap_size = s.heap_size := by
  have hblocks := hinv.blocks
  obtain ⟨fl, core, ha1, ha2, ha3⟩ := hinv
  have hk := get_free_list_lt n h1 h2
  have hru := round_up_get_free_list n h1 h2
  have hb := bytes_left_eq s ha1 ha3
  obtain ⟨fl1, core1, hfl1, hfree1⟩ := core.salvage ha1 ha2 ha3 (get_free_list n) hk
    (by rw [← hru]; exact hsp)
  have hjk : j ≠ get_free_list n := by
    intro e; rw [e] at hp; exact hp hz
  obtain ⟨s1, c, he, hc1, hcm, e1, e2, e3, e4, e5⟩ := allocate_donor_ret rest s n j h1 h2
    core.hs hz (by rw [hb]; exact hsp) hkj hj (by rw [hfree1 j hkj]; exact hp)
    (fun j' h3 h4 => by rw [hfree1 j' h3]; exact hlow j' h3 h4)
  rw [hfree1 j hkj] at he e1 e2 e5
  -- the head of bucket `j` and its list
  obtain ⟨l0, hl0, hc0⟩ := (core.chains j hj).of_ne_zero hp
  have hpmem : s.free_list j ∈ fl j := by rw [hl0]; exact List.mem_cons_self _ _
  have hhead : s1.free_list j = s.mem (s.free_list j) := by
    rw [e4 j hjk]
    simp only [donate, Function.update_same]
    rw [hfree1 j hkj]
    exact core.salvaged_mem ha1 ha3 hj hpmem
  have hpos : 0 < round_up n := round_up_pos n h1 h2
  have hcn : 1 * round_up n ≤ c * round_up n := Nat.mul_le_mul_right _ hc1
  refine ⟨s1, he, hhead, ?_, by omega, by omega, e2, e3⟩
  intro l hl
  rw [hhead]
  have hl' : l = l0 := by
    have := hl.unique (core.chains j hj)
    rw [hl0] at this
    exact (List.cons.inj this).2
  subst hl'
  refine IsChain.congr_mem ?_ hc0
  intro a ha
  have hamem : a ∈ fl j := by rw [hl0]; exact List.mem_cons_of_mem _ ha
  -- `a` lies outside the block `p`
  have hpw := (hblocks.2.2.1 j hj (fl j) (core.chains j hj)).1
  rw [hl0, List.map_cons, List.pairwise_cons] at hpw
  have hd := hpw.1 _ (List.mem_map_of_mem _ ha)
  simp only [Disj, bucket_block] at hd
  rw [e5 a (by omega)]
  exact core.salvaged_mem ha1 ha3 hj hamem

/-- From a state of the invariant: the bucket of `n` is empty, the arena
holds no block of its size, the heap refuses and no bucket from the one of
`n` up has a block. -/
theorem allocate_exhausted_eq {s : Pool} {live : List (Nat × Nat)} {regs : List Block}
    (hinv : Inv s live regs) (rest : List (Option Nat)) (n : Nat)
    (h1 : 1 ≤ n) (h2 : n ≤ MAX_BYTES)
    (hz : s.free_list (get_free_list n) = 0)
    (hsp : s.end_mem_pool - s.start_mem_pool < round_up n)
    (hall : ∀ j, get_free_list n ≤ j → j < FREE_LIST_SIZE → s.free_list j = 0) :
    _allocate (none :: rest) s n =
      .bad_alloc { salvaged s with start_mem_pool := 0, end_mem_pool := 0 }
        [(request_size s (round_up n), none)] := by
  obtain ⟨fl, core, ha1, ha2, ha3⟩ := hinv
  have hk := get_free_list_lt n h1 h2
  have hru := round_up_get_free_list n h1 h2
  have hb := bytes_left_eq s ha1 ha3
  obtain ⟨fl1, core1, hfl1, hfree1⟩ := core.salvage ha1 ha2 ha3 (get_free_list n) hk
    (by rw [← hru]; exact hsp)
  rw [allocate_refill_eq _ s n h1 h2 hz, hru]
  rw [hru] at hsp
  generalize get_free_list n = k at *
  have he := allocate_chunk_exhausted k rest s hk (by rw [hb]; exact hsp) core.hs
    (fun j h3 h4 => by rw [hfree1 j h3]; exact hall j h3 h4)
  simp only [refill, he]

/-- In a state of the invariant the block `_allocate` returns is not null. -/
theorem allocate_ne_null {s : Pool} {live : List (Nat × Nat)} {regs : List Block}
    (hinv : Inv s live regs) (heap : List (Option Nat)) (n p : Nat) (s1 : Pool)
    (log : List HeapEvent) (h1 : 1 ≤ n) (h2 : n ≤ MAX_BYTES) (hok : HeapOK regs log)
    (he : _allocate heap s n = .ret p s1 log) : p ≠ 0 := by
  have hpost := allocate_inv hinv n h1 h2 heap
  rw [he] at hpost
  obtain ⟨_, _, _, g4⟩ := (hpost hok).blocks
  obtain ⟨r, _, hr0, hr1, _⟩ := g4 (p, n) (List.mem_cons_self _ _)
  simp only at hr1
  intro hp0
  rw [hp0] at hr1
  exact hr0 (Nat.le_zero.1 hr1)

/-- The lowest non-empty bucket from `k` up, when there is one. -/
theorem exists_lowest_bucket (s : Pool) (k : Nat)
    (h : ¬ ∀ j, k ≤ j → j < FREE_LIST_SIZE → s.free_list j = 0) :
    ∃ j, k ≤ j ∧ j < FREE_LIST_SIZE ∧ s.free_list j ≠ 0 ∧
      ∀ j', k ≤ j' → j' < j → s.free_list j' = 0 := by
  have hex : ∃ j, k ≤ j ∧ j < FREE_LIST_SIZE ∧ s.free_list j ≠ 0 := by
    by_contra hne
    apply h
    intro j h1 h2
    by_contra h3
    exact hne ⟨j, h1, h2, h3⟩
  refine ⟨Nat.find hex, (Nat.find_spec hex).1, (Nat.find_spec hex).2.1,
    (Nat.find_spec hex).2.2, ?_⟩
  intro j' h1 h2
  by_contra h3
  exact Nat.find_min hex h2 ⟨h1, lt_trans h2 (Nat.find_spec hex).2.1, h3⟩


theorem bytes_left_null (s : Pool) (h1 : s.start_mem_pool = 0) (h2 : s.end_mem_pool = 0) :
    bytes_left s = 0 := by
  unfold bytes_left
  rw [h1, h2]
  rfl


theorem round_up_zero : round_up 0 = 0 := by decide

theorem request_size_init (m : Nat → Nat) (size : Nat) :
    request_size (init m) size = 40 * size := by
  unfold request_size
  have e : (init m).heap_size / 16 = 0 := by simp [init]
  rw [e, round_up_zero]
  omega

/-- One pop from a state whose bucket of `n` has head `p`. -/
theorem allocate_pop_state (heap : List (Option Nat)) (s : Pool) (n p : Nat) (h1 : 1 ≤ n)
    (h2 : n ≤ MAX_BYTES) (hp : p ≠ 0) (hh : s.free_list (get_free_list n) = p) :
    _allocate heap s n = .ret p
      { s with free_list := Function.update s.free_list (get_free_list n) (s.mem p) } [] := by
  have := allocate_pop_eq heap s n h1 h2 (by rw [hh]; exact hp)
  rw [hh] at this
  exact this


end pool_alloc

/-! ## Disjointness, capacity and alignment of the blocks -/

namespace pool_alloc

open pool_alloc_base

/-- C2 (no overlapping live memory).  In every state reached from the
initial state by `_allocate` / `_deallocate` calls, with a heap whose
regions are pairwise disjoint and deallocations that return an outstanding
block with the size of its allocation, the byte ranges `[p, p + round_up n)`
of two outstanding pooled allocations share no byte, and an outstanding
block shares no byte with the arena span `[start_mem_pool, end_mem_pool)`
nor with a block on a free list. -/
theorem no_overlapping_live_memory {s : Pool} {live : List (Nat × Nat)} {regs : List Block}
    (h : Reach s live regs) :
    live.Pairwise (fun a b => ∀ x, ¬ ((live_block a).has x ∧ (live_block b).has x)) ∧
    (∀ a ∈ live, ∀ x, ¬ ((live_block a).has x ∧ (arena s).has x)) ∧
    (∀ a ∈ live, ∀ i, i < FREE_LIST_SIZE → ∀ l, IsChain s.mem (s.free_list i) l →
      ∀ q ∈ l, ∀ x, ¬ ((live_block a).has x ∧ (bucket_block i q).has x)) := by
  obtain ⟨h1, h2, h3, _⟩ := (reach_inv h).blocks
  refine ⟨?_, ?_, ?_⟩
  · have := List.pairwise_map.1 h1
    exact this.imp (fun hd x => hd.no_common_byte x)
  · intro a ha x
    exact (h2 a ha).symm.no_common_byte x
  · intro a ha i hi l hl q hq x
    exact ((h3 i hi l hl).2 q hq).2.1 a ha |>.no_common_byte x

/-- A state with two outstanding allocations of different size classes,
`(4096, 100)` and `(6656, 200)`, carved from one region. -/
theorem no_overlapping_live_memory_witness :
    ∃ s, Reach s [(6656, 200), (4096, 100)] [(4096, 5120)] ∧
    [(6656, 200), (4096, 100)].Pairwise
      (fun a b => ∀ x, ¬ ((live_block a).has x ∧ (live_block b).has x)) ∧
    (∀ a ∈ [(6656, 200), (4096, 100)], ∀ x, ¬ ((live_block a).has x ∧ (arena s).has x)) ∧
    (∀ a ∈ [(6656, 200), (4096, 100)], ∀ i, i < FREE_LIST_SIZE → ∀ l,
      IsChain s.mem (s.free_list i) l →
      ∀ q ∈ l, ∀ x, ¬ ((live_block a).has x ∧ (bucket_block i q).has x)) :=
  have h1 : Reach _ [(4096, 100)] [(4096, 5120)] :=
    @Reach.allocate _ _ _ _ [some 4096] 100 _ [(5120, some 4096)]
      (Reach.init fun _ => 0) (by decide) (by decide)
      ⟨by decide, fun r hr => absurd hr (List.not_mem_nil _), trivial⟩ rfl
  have h2 : Reach _ [(6656, 200), (4096, 100)] [(4096, 5120)] :=
    @Reach.allocate _ _ _ _ [] 200 _ [] h1 (by decide) (by decide) trivial rfl
  ⟨_, h2, no_overlapping_live_memory h2⟩

/-- C5 (block capacity).  In every reachable state each block on the free
list of bucket `i` is a region of exactly `(i + 1) * ALIGN` bytes lying in
a region obtained from the heap, and these regions share no byte with one
another (same or different buckets) nor with the arena; the block
`_allocate(n)` returns, `1 ≤ n ≤ MAX_BYTES`, is a region of
`round_up n ≥ n` bytes lying in a region obtained from the heap, none of
whose bytes belongs to another outstanding block, to the arena or to a free
block of the state the call leaves. -/
theorem block_capacity {s : Pool} {live : List (Nat × Nat)} {regs : List Block}
    (h : Reach s live regs) :
    (∀ i, i < FREE_LIST_SIZE → ∀ l, IsChain s.mem (s.free_list i) l →
      (l.map (bucket_block i)).Pairwise (fun a b => ∀ x, ¬ (a.has x ∧ b.has x)) ∧
      ∀ q ∈ l,
        (∃ r ∈ regs, r.1 ≤ q ∧ q + (i + 1) * ALIGN ≤ r.1 + r.2) ∧
        (∀ x, ¬ ((bucket_block i q).has x ∧ (arena s).has x)) ∧
        (∀ j, j < FREE_LIST_SIZE → j ≠ i → ∀ l', IsChain s.mem (s.free_list j) l' →
          ∀ q' ∈ l', ∀ x, ¬ ((bucket_block j q').has x ∧ (bucket_block i q).has x))) ∧
    (∀ (heap : List (Option Nat)) (n p : Nat) (s1 : Pool) (log : List HeapEvent),
      1 ≤ n → n ≤ MAX_BYTES → HeapOK regs log → _allocate heap s n = .ret p s1 log →
      n ≤ round_up n ∧ round_up n = (get_free_list n + 1) * ALIGN ∧
      (∃ r ∈ regions_after regs log, r.1 ≤ p ∧ p + round_up n ≤ r.1 + r.2) ∧
      (∀ a ∈ live, ∀ x, ¬ ((live_block (p, n)).has x ∧ (live_block a).has x)) ∧
      (∀ x, ¬ ((live_block (p, n)).has x ∧ (arena s1).has x)) ∧
      (∀ i, i < FREE_LIST_SIZE → ∀ l, IsChain s1.mem (s1.free_list i) l →
        ∀ q ∈ l, ∀ x, ¬ ((live_block (p, n)).has x ∧ (bucket_block i q).has x))) := by
  obtain ⟨_, _, h3, _⟩ := (reach_inv h).blocks
  refine ⟨?_, ?_⟩
  · intro i hi l hl
    obtain ⟨hp, hq⟩ := h3 i hi l hl
    refine ⟨hp.imp (fun hd x => hd.no_common_byte x), ?_⟩
    intro q hql
    obtain ⟨h1, _, h2, r, hr, _, hr1, hr2, _⟩ := hq q hql
    refine ⟨⟨r, hr, hr1, hr2⟩, fun x => h1.symm.no_common_byte x, ?_⟩
    intro j hj hji l' hl' q' hq' x
    exact (h2 j hj hji l' hl' q' hq').no_common_byte x
  · intro heap n p s1 log h1 h2 hok he
    have hr := Reach.allocate h h1 h2 hok he
    obtain ⟨g1, g2, g3, g4⟩ := (reach_inv hr).blocks
    obtain ⟨r, hr, _, hr1, hr2, _⟩ := g4 (p, n) (List.mem_cons_self _ _)
    have hru := round_up_le n (by simp only [MAX_BYTES, SIZE_RANGE] at *; omega)
    refine ⟨hru.1, round_up_get_free_list n h1 h2, ⟨r, hr, hr1, hr2⟩, ?_, ?_, ?_⟩
    · intro a ha x
      have := (List.pairwise_cons.1 (List.pairwise_map.1 g1)).1 a ha
      exact this.no_common_byte x
    · intro x
      exact (g2 (p, n) (List.mem_cons_self _ _)).symm.no_common_byte x
    · intro i hi l hl q hq x
      exact (((g3 i hi l hl).2 q hq).2.1 (p, n) (List.mem_cons_self _ _)).no_common_byte x

/-- The state after `_allocate(100)` from the initial state: the 19 blocks
left on bucket 1 and the block a further `_allocate(100)` returns. -/
theorem block_capacity_witness :
    ∃ s, Reach s [(4096, 100)] [(4096, 5120)] ∧
    (∀ i, i < FREE_LIST_SIZE → ∀ l, IsChain s.mem (s.free_list i) l →
      (l.map (bucket_block i)).Pairwise (fun a b => ∀ x, ¬ (a.has x ∧ b.has x)) ∧
      ∀ q ∈ l,
        (∃ r ∈ [(4096, 5120)], r.1 ≤ q ∧ q + (i + 1) * ALIGN ≤ r.1 + r.2) ∧
        (∀ x, ¬ ((bucket_block i q).has x ∧ (arena s).has x)) ∧
        (∀ j, j < FREE_LIST_SIZE → j ≠ i → ∀ l', IsChain s.mem (s.free_list j) l' →
          ∀ q' ∈ l', ∀ x, ¬ ((bucket_block j q').has x ∧ (bucket_block i q).has x))) ∧
    (∀ (heap : List (Option Nat)) (n p : Nat) (s1 : Pool) (log : List HeapEvent),
      1 ≤ n → n ≤ MAX_BYTES → HeapOK [(4096, 5120)] log → _allocate heap s n = .ret p s1 log →
      n ≤ round_up n ∧ round_up n = (get_free_list n + 1) * ALIGN ∧
      (∃ r ∈ regions_after [(4096, 5120)] log, r.1 ≤ p ∧ p + round_up n ≤ r.1 + r.2) ∧
      (∀ a ∈ [(4096, 100)], ∀ x, ¬ ((live_block (p, n)).has x ∧ (live_block a).has x)) ∧
      (∀ x, ¬ ((live_block (p, n)).has x ∧ (arena s1).has x)) ∧
      (∀ i, i < FREE_LIST_SIZE → ∀ l, IsChain s1.mem (s1.free_list i) l →
        ∀ q ∈ l, ∀ x, ¬ ((live_block (p, n)).has x ∧ (bucket_block i q).has x))) :=
  have h1 : Reach _ [(4096, 100)] [(4096, 5120)] :=
    @Reach.allocate _ _ _ _ [some 4096] 100 _ [(5120, some 4096)]
      (Reach.init fun _ => 0) (by decide) (by decide)
      ⟨by decide, fun r hr => absurd hr (List.not_mem_nil _), trivial⟩ rfl
  ⟨_, h1, block_capacity h1⟩

/-- C4 (alignment) fails as stated: `::operator new` may return the address
`4112 = 0x1010`, which is not a multiple of `ALIGN`; from the initial state
`_allocate(1)` then asks the heap for 2560 bytes and returns `4112`. -/
theorem allocate_not_aligned :
    Reach (init fun _ => 0) [] [] ∧ HeapOK [] [(2560, some 4112)] ∧
    (_allocate [some 4112] (init fun _ => 0) 1).val? = some 4112 ∧
    (_allocate [some 4112] (init fun _ => 0) 1).log? = some [(2560, some 4112)] ∧
    ¬ ALIGN ∣ 4112 :=
  ⟨Reach.init _, ⟨by decide, fun r hr => absurd hr (List.not_mem_nil _), trivial⟩,
    by decide, by decide, by decide⟩

/-- C4 as amended.  In every reachable state, for `1 ≤ n ≤ MAX_BYTES`, the
address `_allocate(n)` returns lies in a region obtained from the heap, at an
offset from the start of that region that is a multiple of `ALIGN`; hence it
is a multiple of `ALIGN` when the regions the heap returned start at
multiples of `ALIGN`. -/
theorem allocate_aligned_in_region {s : Pool} {live : List (Nat × Nat)} {regs : List Block}
    (h : Reach s live regs) (heap : List (Option Nat)) (n p : Nat) (s1 : Pool)
    (log : List HeapEvent) (h1 : 1 ≤ n) (h2 : n ≤ MAX_BYTES) (hok : HeapOK regs log)
    (he : _allocate heap s n = .ret p s1 log) :
    (∃ r ∈ regions_after regs log, r.1 ≤ p ∧ p + round_up n ≤ r.1 + r.2 ∧ ALIGN ∣ (p - r.1)) ∧
    ((∀ r ∈ regions_after regs log, ALIGN ∣ r.1) → ALIGN ∣ p) := by
  have hr := Reach.allocate h h1 h2 hok he
  obtain ⟨_, _, _, g4⟩ := (reach_inv hr).blocks
  obtain ⟨r, hr, _, hr1, hr2, hr3⟩ := g4 (p, n) (List.mem_cons_self _ _)
  refine ⟨⟨r, hr, hr1, hr2, hr3⟩, fun hal => ?_⟩
  have e : p = (p - r.1) + r.1 := by simp only at hr1; omega
  rw [e]
  exact dvd_add hr3 (hal r hr)

/-- The first allocation from the initial state with a heap that returns the
aligned address `4096`. -/
theorem allocate_aligned_in_region_witness :
    ∃ s1, _allocate [some 4096] (init fun _ => 0) 100 = .ret 4096 s1 [(5120, some 4096)] ∧
    (∃ r ∈ regions_after [] [(5120, some 4096)],
      r.1 ≤ 4096 ∧ 4096 + round_up 100 ≤ r.1 + r.2 ∧ ALIGN ∣ (4096 - r.1)) ∧
    ((∀ r ∈ regions_after [] [(5120, some 4096)], ALIGN ∣ r.1) → ALIGN ∣ 4096) :=
  ⟨_, rfl, allocate_aligned_in_region (Reach.init fun _ => 0) [some 4096] 100 4096 _
    [(5120, some 4096)] (by decide) (by decide)
    ⟨by decide, fun r hr => absurd hr (List.not_mem_nil _), trivial⟩ rfl⟩

end pool_alloc

/-! ## Out of memory, scavenging, refill batching -/

namespace pool_alloc

open pool_alloc_base

/-- C7 (out-of-memory iff).  In every reachable state, for
`1 ≤ n ≤ MAX_BYTES` and a heap whose first answer is `r`, `_allocate(n)`
throws `bad_alloc` if and only if the free list of the bucket of `n` is
empty, the arena span is smaller than `round_up n`, the heap request fails
(`r = none`) and every bucket whose block size is in
`[round_up n, MAX_BYTES]` (the buckets from the one of `n` up) has an empty
free list; in every other case it returns a block, which is not null when
the heap behaves. -/
theorem out_of_memory_iff {s : Pool} {live : List (Nat × Nat)} {regs : List Block}
    (h : Reach s live regs) (n : Nat) (h1 : 1 ≤ n) (h2 : n ≤ MAX_BYTES)
    (r : Option Nat) (rest : List (Option Nat)) :
    ((∃ s1 log, _allocate (r :: rest) s n = .bad_alloc s1 log) ↔
      (s.free_list (get_free_list n) = 0 ∧
        s.end_mem_pool - s.start_mem_pool < round_up n ∧ r = none ∧
        ∀ j, get_free_list n ≤ j → j < FREE_LIST_SIZE → s.free_list j = 0)) ∧
    (¬ (s.free_list (get_free_list n) = 0 ∧
        s.end_mem_pool - s.start_mem_pool < round_up n ∧ r = none ∧
        ∀ j, get_free_list n ≤ j → j < FREE_LIST_SIZE → s.free_list j = 0) →
      ∃ p s1 log, _allocate (r :: rest) s n = .ret p s1 log ∧ (HeapOK regs log → p ≠ 0)) := by
  have hinv := reach_inv h
  have hnull : ∀ p s1 log, _allocate (r :: rest) s n = .ret p s1 log →
      (HeapOK regs log → p ≠ 0) :=
    fun p s1 log he hok => allocate_ne_null hinv _ n p s1 log h1 h2 hok he
  have hk := get_free_list_lt n h1 h2
  have hru := round_up_get_free_list n h1 h2
  obtain ⟨fl, core, ha1, ha2, ha3⟩ := id hinv
  have hb := bytes_left_eq s ha1 ha3
  refine ⟨⟨?_, ?_⟩, ?_⟩
  · rintro ⟨s1, log, he⟩
    obtain ⟨g1, g2, ⟨rest', g3⟩, g4, _, _⟩ :=
      allocate_bad_alloc _ s s1 n log core.hs h1 h2 he
    rw [hb] at g2
    obtain ⟨fl1, core1, hfl1, hfree1⟩ := core.salvage ha1 ha2 ha3 (get_free_list n) hk
      (by rw [← hru]; exact g2)
    refine ⟨g1, g2, (List.cons.inj g3).1, ?_⟩
    intro j h3 h4
    rw [← hfree1 j h3]
    exact g4 j h3 h4
  · rintro ⟨g1, g2, g3, g4⟩
    subst g3
    exact ⟨_, _, allocate_exhausted_eq hinv rest n h1 h2 g1 g2 g4⟩
  · intro hnot
    by_cases hz : s.free_list (get_free_list n) = 0
    · by_cases hsp : s.end_mem_pool - s.start_mem_pool < round_up n
      · cases r with
        | some a =>
          obtain ⟨s1, he⟩ := allocate_grant_ret hinv a rest n h1 h2 hz hsp
          exact ⟨_, _, _, he, hnull _ _ _ he⟩
        | none =>
          have hne : ¬ ∀ j, get_free_list n ≤ j → j < FREE_LIST_SIZE → s.free_list j = 0 :=
            fun hall => hnot ⟨hz, hsp, rfl, hall⟩
          obtain ⟨j, hkj, hj, hp, hlow⟩ := exists_lowest_bucket s _ hne
          obtain ⟨s1, he, _⟩ := allocate_donor hinv rest n j h1 h2 hz hsp hkj hj hp hlow
          exact ⟨_, _, _, he, hnull _ _ _ he⟩
      · obtain ⟨s1, he⟩ := allocate_carve_ret hinv (r :: rest) n h1 h2 hz (Nat.le_of_not_lt hsp)
        exact ⟨_, _, _, he, hnull _ _ _ he⟩
    · obtain ⟨p, s1, log, he⟩ := allocate_pop_ret (r :: rest) s n h1 h2 hz
      exact ⟨_, _, _, he, hnull _ _ _ he⟩

/-- The initial state with a heap that refuses: every condition holds and
`_allocate(100)` throws. -/
theorem out_of_memory_iff_witness :
    ((∃ s1 log, _allocate [none] (init fun _ => 0) 100 = .bad_alloc s1 log) ↔
      ((init fun _ => 0).free_list (get_free_list 100) = 0 ∧
        (init fun _ => 0).end_mem_pool - (init fun _ => 0).start_mem_pool < round_up 100 ∧
        (none : Option Nat) = none ∧
        ∀ j, get_free_list 100 ≤ j → j < FREE_LIST_SIZE → (init fun _ => 0).free_list j = 0)) ∧
    (¬ ((init fun _ => 0).free_list (get_free_list 100) = 0 ∧
        (init fun _ => 0).end_mem_pool - (init fun _ => 0).start_mem_pool < round_up 100 ∧
        (none : Option Nat) = none ∧
        ∀ j, get_free_list 100 ≤ j → j < FREE_LIST_SIZE → (init fun _ => 0).free_list j = 0) →
      ∃ p s1 log, _allocate [none] (init fun _ => 0) 100 = .ret p s1 log ∧
        (HeapOK [] log → p ≠ 0)) :=
  out_of_memory_iff (Reach.init fun _ => 0) 100 (by decide) (by decide) none []

/-- C9, as stated for every state, fails.  First state: the arena is
`[4096, 4196)`, a span of 100 bytes, and bucket 5 holds the block 8192.  For
`n = 100` the bucket of `n` is empty, the span is below `round_up n = 128`,
the heap fails and bucket 5 is the lowest non-empty bucket from the one of
`n` up; but the salvage pushes the remainder 4096 on bucket 1, the bucket
of `n`, the scan finds it there first, and `_allocate(100)` returns 4096,
not the head 8192 of bucket 5.  Second state: the span `[4096, 4160)` is a
multiple of `ALIGN`, but the arena starts at a block of the list
`8192, 4096, 12288` of bucket 5.  `_allocate(100)` returns the head 8192,
but the salvage has overwritten the link of 4096, so bucket 5 is left with
the list `4096` alone: it lost 12288 as well as its head. -/
theorem scavenge_outside_reach :
    (({ init (fun _ => 0) with
        free_list := Function.update (init fun _ => 0).free_list 5 8192,
        start_mem_pool := 4096, end_mem_pool := 4196 } : Pool).free_list (get_free_list 100) = 0 ∧
     (4196 : Nat) - 4096 < round_up 100 ∧
     get_free_list 100 ≤ 5 ∧ 5 < FREE_LIST_SIZE ∧
     ({ init (fun _ => 0) with
        free_list := Function.update (init fun _ => 0).free_list 5 8192,
        start_mem_pool := 4096, end_mem_pool := 4196 } : Pool).free_list 5 = 8192 ∧
     (∀ j', get_free_list 100 ≤ j' → j' < 5 →
       ({ init (fun _ => 0) with
        free_list := Function.update (init fun _ => 0).free_list 5 8192,
        start_mem_pool := 4096, end_mem_pool := 4196 } : Pool).free_list j' = 0) ∧
     ∃ s1 log, _allocate [none]
        { init (fun _ => 0) with
          free_list := Function.update (init fun _ => 0).free_list 5 8192,
          start_mem_pool := 4096, end_mem_pool := 4196 } 100 = .ret 4096 s1 log) ∧
    (({ init (fun x => if x = 8192 then 4096 else if x = 4096 then 12288 else 0) with
        free_list := Function.update (init fun _ => 0).free_list 5 8192,
        start_mem_pool := 4096, end_mem_pool := 4160 } : Pool).free_list (get_free_list 100) = 0 ∧
     (4160 : Nat) - 4096 < round_up 100 ∧ ALIGN ∣ (4160 : Nat) - 4096 ∧
     IsChain
       ({ init (fun x => if x = 8192 then 4096 else if x = 4096 then 12288 else 0) with
          free_list := Function.update (init fun _ => 0).free_list 5 8192,
          start_mem_pool := 4096, end_mem_pool := 4160 } : Pool).mem
       (({ init (fun x => if x = 8192 then 4096 else if x = 4096 then 12288 else 0) with
          free_list := Function.update (init fun _ => 0).free_list 5 8192,
          start_mem_pool := 4096, end_mem_pool := 4160 } : Pool).free_list 5)
       [8192, 4096, 12288] ∧
     (∀ j', get_free_list 100 ≤ j' → j' < 5 →
       ({ init (fun x => if x = 8192 then 4096 else if x = 4096 then 12288 else 0) with
        free_list := Function.update (init fun _ => 0).free_list 5 8192,
        start_mem_pool := 4096, end_mem_pool := 4160 } : Pool).free_list j' = 0) ∧
     ∃ s1 log, _allocate [none]
        { init (fun x => if x = 8192 then 4096 else if x = 4096 then 12288 else 0) with
          free_list := Function.update (init fun _ => 0).free_list 5 8192,
          start_mem_pool := 4096, end_mem_pool := 4160 } 100 = .ret 8192 s1 log ∧
       IsChain s1.mem (s1.free_list 5) [4096] ∧
       ¬ IsChain s1.mem (s1.free_list 5) [4096, 12288]) := by
  have e : get_free_list 100 = 1 := by decide
  have hlow : ∀ (f : Nat → Nat), f 1 = 0 → f 2 = 0 → f 3 = 0 → f 4 = 0 →
      ∀ j', get_free_list 100 ≤ j' → j' < 5 → f j' = 0 := by
    intro f f1 f2 f3 f4 j' a b
    rw [e] at a
    have : j' = 1 ∨ j' = 2 ∨ j' = 3 ∨ j' = 4 := by omega
    rcases this with rfl | rfl | rfl | rfl <;> assumption
  refine ⟨⟨by decide, by decide, by decide, by decide, by decide,
      hlow _ rfl rfl rfl rfl, _, _, rfl⟩,
    by decide, by decide, by decide, ?_, hlow _ rfl rfl rfl rfl, _, _, rfl, ?_, ?_⟩
  · simp [IsChain, init, Function.update]
  · refine ⟨by decide, by decide, ?_⟩
    show _ = 0
    decide
  · intro h
    have h2 : _ = 12288 := h.2.2.1
    revert h2
    decide

/-- C9 (scavenging, amended).  In every reachable state in which the bucket
of `n` (`1 ≤ n ≤ MAX_BYTES`) is empty, the arena span is smaller than
`round_up n`, the heap request fails, and `j` is the lowest non-empty
bucket among those of block size in `[round_up n, MAX_BYTES]`,
`_allocate(n)` returns the head `p` of bucket `j`; that bucket loses exactly
its head (its new head is the link of `p`, and the list it leads to is the
old one without `p`), and the arena is re-seated inside
`[p, p + (j + 1) * ALIGN)` with its end at `p + (j + 1) * ALIGN`;
`heap_size` is unchanged. -/
theorem scavenging {s : Pool} {live : List (Nat × Nat)} {regs : List Block}
    (h : Reach s live regs) (rest : List (Option Nat)) (n j : Nat)
    (h1 : 1 ≤ n) (h2 : n ≤ MAX_BYTES)
    (hz : s.free_list (get_free_list n) = 0)
    (hsp : s.end_mem_pool - s.start_mem_pool < round_up n)
    (hkj : get_free_list n ≤ j) (hj : j < FREE_LIST_SIZE)
    (hp : s.free_list j ≠ 0)
    (hlow : ∀ j', get_free_list n ≤ j' → j' < j → s.free_list j' = 0) :
    ∃ s1, _allocate (none :: rest) s n =
        .ret (s.free_list j) s1 [(request_size s (round_up n), none)] ∧
      s1.free_list j = s.mem (s.free_list j) ∧
      (∀ l, IsChain s.mem (s.free_list j) (s.free_list j :: l) →
        IsChain s1.mem (s1.free_list j) l) ∧
      s.free_list j ≤ s1.start_mem_pool ∧ s1.start_mem_pool ≤ s1.end_mem_pool ∧
      s1.end_mem_pool = s.free_list j + (j + 1) * ALIGN ∧
      s1.heap_size = s.heap_size :=
  allocate_donor (reach_inv h) rest n j h1 h2 hz hsp hkj hj hp hlow

/-- After `_allocate(200)` (a chunk of 256-byte blocks at 4096) and
`_allocate(5000)` (which leaves 64 bytes in the arena), `_allocate(100)` with
a heap that refuses takes the head `4352` of bucket 3. -/
theorem scavenging_witness :
    ∃ s, Reach s [(9216, 5000), (4096, 200)] [(4096, 10240)] ∧
      s.free_list (get_free_list 100) = 0 ∧
      s.end_mem_pool - s.start_mem_pool < round_up 100 ∧
      get_free_list 100 ≤ 3 ∧ 3 < FREE_LIST_SIZE ∧ s.free_list 3 = 4352 ∧
      (∀ j', get_free_list 100 ≤ j' → j' < 3 → s.free_list j' = 0) ∧
      ∃ s1, _allocate [none] s 100 =
        .ret (s.free_list 3) s1 [(request_size s (round_up 100), none)] ∧
      s1.free_list 3 = s.mem (s.free_list 3) ∧
      (∀ l, IsChain s.mem (s.free_list 3) (s.free_list 3 :: l) →
        IsChain s1.mem (s1.free_list 3) l) ∧
      s.free_list 3 ≤ s1.start_mem_pool ∧ s1.start_mem_pool ≤ s1.end_mem_pool ∧
      s1.end_mem_pool = s.free_list 3 + (3 + 1) * ALIGN ∧
      s1.heap_size = s.heap_size :=
  have r1 : Reach _ [(4096, 200)] [(4096, 10240)] :=
    @Reach.allocate _ _ _ _ [some 4096] 200 _ [(10240, some 4096)]
      (Reach.init fun _ => 0) (by decide) (by decide)
      ⟨by decide, fun r hr => absurd hr (List.not_mem_nil _), trivial⟩ rfl
  have r2 : Reach _ [(9216, 5000), (4096, 200)] [(4096, 10240)] :=
    @Reach.allocate _ _ _ _ [] 5000 _ [] r1 (by decide) (by decide) trivial rfl
  have hlow : ∀ j', get_free_list 100 ≤ j' → j' < 3 → _ = 0 := fun j' a b => by
    have e : get_free_list 100 = 1 := by decide
    rw [e] at a
    have : j' = 1 ∨ j' = 2 := by omega
    rcases this with rfl | rfl <;> rfl
  ⟨_, r2, by decide, by decide, by decide, by decide, by decide, hlow,
    scavenging r2 [] 100 3 (by decide) (by decide) (by decide) (by decide) (by decide)
      (by decide) (by decide) hlow⟩
/-- C10 (refill batching).  For `1 ≤ n ≤ MAX_BYTES`, in every state in
which the bucket of `n` is empty and `allocate_chunk` supplies the full batch
of 20 blocks at the chunk address `c`, `_allocate(n)` returns `c`, and the
next 19 calls `_allocate(n)` return `c + j * round_up n` for `j = 1..19` in
that order, whatever the heap would answer and with no heap request; they
change only the head of the bucket (the arena cursor and `heap_size` stay
those of `after_pops`), and after them the bucket is empty.  In the initial
state with a heap that grants the region `a`, `allocate_chunk` does supply
20 blocks at `a`, with exactly one heap request, of `40 * round_up n`
bytes. -/
theorem refill_batching (s s1 : Pool) (heap : List (Option Nat)) (n c : Nat)
    (log : List HeapEvent) (h1 : 1 ≤ n) (h2 : n ≤ MAX_BYTES)
    (hz : s.free_list (get_free_list n) = 0)
    (hc : allocate_chunk (round_up n) heap s 20 = .ret (c, 20) s1 log) :
    (∃ s2, _allocate heap s n = .ret c s2 log ∧
      s2.start_mem_pool = s1.start_mem_pool ∧ s2.end_mem_pool = s1.end_mem_pool ∧
      s2.heap_size = s1.heap_size ∧
      after_pops s2 (get_free_list n) c (round_up n) 0 = s2 ∧
      (∀ j, j < 19 → ∀ heap',
        _allocate heap' (after_pops s2 (get_free_list n) c (round_up n) j) n =
          .ret (c + (j + 1) * round_up n)
            (after_pops s2 (get_free_list n) c (round_up n) (j + 1)) []) ∧
      (after_pops s2 (get_free_list n) c (round_up n) 19).free_list (get_free_list n) = 0) ∧
    (∀ (m : Nat → Nat) (a : Nat) (rest : List (Option Nat)),
      (init m).free_list (get_free_list n) = 0 ∧
      ∃ s0, allocate_chunk (round_up n) (some a :: rest) (init m) 20 =
        .ret (a, 20) s0 [(40 * round_up n, some a)]) := by
  have hk := get_free_list_lt n h1 h2
  have hru := round_up_get_free_list n h1 h2
  have hgk := get_free_list_bucket (get_free_list n) hk
  have hpos := round_up_pos n h1 h2
  rw [← hru] at hgk
  refine ⟨?_, ?_⟩
  · obtain ⟨mem', hr, hlinks, _⟩ := refill_many heap s s1 (round_up n) c 20 log hc 18
      (by norm_num) hpos (by rw [hgk]; exact hk)
    rw [hgk] at hr
    rw [← allocate_refill_eq heap s n h1 h2 hz] at hr
    generalize hs2 : ({ s1 with
      free_list := Function.update s1.free_list (get_free_list n) (c + round_up n),
      mem := mem' } : Pool) = s2 at hr
    have hf : s2.free_list (get_free_list n) = c + round_up n := by
      rw [← hs2]; exact Function.update_same _ _ _
    have hm : s2.mem = mem' := by rw [← hs2]
    have hidem : ∀ v w, ({ after_pops s2 (get_free_list n) c (round_up n) v with
        free_list := Function.update
          (after_pops s2 (get_free_list n) c (round_up n) v).free_list (get_free_list n) w }
          : Pool) = { s2 with free_list := Function.update s2.free_list (get_free_list n) w } := by
      intro v w
      simp only [after_pops, Function.update_idem]
    refine ⟨s2, hr, by rw [← hs2], by rw [← hs2], by rw [← hs2], ?_, ?_, ?_⟩
    · have e : (if 0 < 19 then c + (0 + 1) * round_up n else 0) = s2.free_list (get_free_list n) := by
        rw [hf]; simp
      unfold after_pops
      rw [e, Function.update_eq_self]
    · intro j hj heap'
      have hmul : 1 * round_up n ≤ (j + 1) * round_up n := Nat.mul_le_mul_right _ (by omega)
      have hne : c + (j + 1) * round_up n ≠ 0 := by
        generalize (j + 1) * round_up n = x at *
        generalize round_up n = y at *
        omega
      have hlink : mem' (c + (j + 1) * round_up n) =
          if j + 1 < 19 then c + (j + 1 + 1) * round_up n else 0 := by
        have e1 : c + (j + 1) * round_up n = c + round_up n + j * round_up n := by ring
        have e2 : c + round_up n + (j + 1) * round_up n = c + (j + 1 + 1) * round_up n := by
          ring
        rw [e1, hlinks j (by omega), e2]
        by_cases hlast : j + 1 = 18 + 1
        · have : ¬ j + 1 < 19 := by omega
          rw [if_pos hlast, if_neg this]
        · have : j + 1 < 19 := by omega
          rw [if_neg hlast, if_pos this]
      have hpop := allocate_pop_state heap' (after_pops s2 (get_free_list n) c (round_up n) j)
        n (c + (j + 1) * round_up n) h1 h2 hne (by
          simp only [after_pops]
          rw [Function.update_same, if_pos hj])
      rw [hpop, hidem]
      have e3 : (after_pops s2 (get_free_list n) c (round_up n) j).mem = mem' := by
        rw [← hm]; rfl
      rw [e3, hlink]
      rfl
    · simp only [after_pops]
      rw [Function.update_same]
      simp
  · intro m a rest
    refine ⟨rfl, ?_⟩
    have hg := allocate_chunk_grant (round_up n) a rest (init m) hpos
      (by rw [hru]; exact (bucket_size_bounds _ hk).2.1)
      (by rw [bytes_left_null (init m) rfl rfl]; exact hpos) (by simp [init, SIZE_RANGE])
    rw [request_size_init] at hg
    exact ⟨_, hg⟩

/-- The first `_allocate(100)` from the initial state, with a heap that
grants the region at 4096: a chunk of 20 blocks of 128 bytes. -/
theorem refill_batching_witness :
    ∃ s1, allocate_chunk (round_up 100) [some 4096] (init fun _ => 0) 20 =
      .ret (4096, 20) s1 [(5120, some 4096)] ∧
    ((∃ s2, _allocate [some 4096] (init fun _ => 0) 100 = .ret 4096 s2 [(5120, some 4096)] ∧
      s2.start_mem_pool = s1.start_mem_pool ∧ s2.end_mem_pool = s1.end_mem_pool ∧
      s2.heap_size = s1.heap_size ∧
      after_pops s2 (get_free_list 100) 4096 (round_up 100) 0 = s2 ∧
      (∀ j, j < 19 → ∀ heap',
        _allocate heap' (after_pops s2 (get_free_list 100) 4096 (round_up 100) j) 100 =
          .ret (4096 + (j + 1) * round_up 100)
            (after_pops s2 (get_free_list 100) 4096 (round_up 100) (j + 1)) []) ∧
      (after_pops s2 (get_free_list 100) 4096 (round_up 100) 19).free_list
        (get_free_list 100) = 0) ∧
    (∀ (m : Nat → Nat) (a : Nat) (rest : List (Option Nat)),
      (init m).free_list (get_free_list 100) = 0 ∧
      ∃ s0, allocate_chunk (round_up 100) (some a :: rest) (init m) 20 =
        .ret (a, 20) s0 [(40 * round_up 100, some a)])) :=
  ⟨_, rfl, refill_batching (init fun _ => 0) _ [some 4096] 100 4096 [(5120, some 4096)]
    (by decide) (by decide) (by decide) rfl⟩

end pool_alloc

/-! ## Claims on the bucketing functions and on the paths without a heap request -/

namespace pool_alloc_base

/-- The rounding in closed form, for every argument (the sum wraps as
`size_t` does). -/
theorem round_up_wrap (n : Nat) :
    round_up n = (n + 63) % 18446744073709551616 / 64 * 64 := by
  unfold round_up
  simp only [ALIGN, SIZE_RANGE]
  have e : n + 64 - 1 = n + 63 := by omega
  rw [e]
  exact land_mask _ (Nat.mod_lt _ (by norm_num))

/-- The bucket index in closed form, for every argument. -/
theorem get_free_list_wrap (n : Nat) :
    get_free_list n =
      (18446744073709551615 + (n + 63) % 18446744073709551616 / 64) % 18446744073709551616 := by
  unfold get_free_list
  simp only [ALIGN, SIZE_RANGE]
  have e : n + 64 - 1 = n + 63 := by omega
  rw [e]

end pool_alloc_base

namespace pool_alloc
open pool_alloc_base

/-- C11 (oversized requests bypass the pool).  For every `n > MAX_BYTES` and
every state, `_allocate(n)` is `alloc(n)`: it asks the heap for exactly `n`
bytes once and returns the address the heap gives (a non-null `a`), or
throws `bad_alloc` when the heap fails (no answer, or a null result of
`malloc`), and frees nothing; `_deallocate(p, n)` hands exactly `p` to
`std::free`, once.  In every case the free-list array, the link words,
`start_mem_pool`, `end_mem_pool` and `heap_size` are the ones before the
call. -/
theorem oversized_bypass (s : Pool) (n : Nat) (hn : MAX_BYTES < n) :
    (∀ heap, _allocate heap s n = alloc heap s n) ∧
    (∀ a rest, a ≠ 0 → _allocate (some a :: rest) s n = .ret a s [(n, some a)]) ∧
    (∀ rest, _allocate (none :: rest) s n = .bad_alloc s [(n, none)]) ∧
    (∀ rest, _allocate (some 0 :: rest) s n = .bad_alloc s [(n, some 0)]) ∧
    (∀ heap s1, (_allocate heap s n).state? = some s1 → s1 = s) ∧
    (∀ p, _deallocate s p n = some { s with freed := p :: s.freed }) := by
  have hn' : n > MAX_BYTES := hn
  have h0 : ∀ heap, _allocate heap s n = alloc heap s n := by
    intro heap
    simp only [_allocate, hn', if_true]
  refine ⟨h0, ?_, ?_, ?_, ?_, ?_⟩
  · intro a rest ha
    rw [h0]
    simp only [alloc, ha, if_false]
  · intro rest
    rw [h0]
    rfl
  · intro rest
    rw [h0]
    simp only [alloc, if_true]
  · intro heap s1 h
    exact allocate_oversized_state heap s s1 n hn h
  · intro p
    simp only [_deallocate, hn', if_true, dealloc]

/-- The request of `MAX_BYTES + 1` bytes from the initial state. -/
theorem oversized_bypass_witness :
    (∀ heap, _allocate heap (init fun _ => 0) 65537 = alloc heap (init fun _ => 0) 65537) ∧
    (∀ a rest, a ≠ 0 → _allocate (some a :: rest) (init fun _ => 0) 65537 =
      .ret a (init fun _ => 0) [(65537, some a)]) ∧
    (∀ rest, _allocate (none :: rest) (init fun _ => 0) 65537 =
      .bad_alloc (init fun _ => 0) [(65537, none)]) ∧
    (∀ rest, _allocate (some 0 :: rest) (init fun _ => 0) 65537 =
      .bad_alloc (init fun _ => 0) [(65537, some 0)]) ∧
    (∀ heap s1, (_allocate heap (init fun _ => 0) 65537).state? = some s1 →
      s1 = (init fun _ => 0)) ∧
    (∀ p, _deallocate (init fun _ => 0) p 65537 =
      some { (init fun _ => 0) with freed := p :: (init fun _ => 0).freed }) :=
  oversized_bypass (init fun _ => 0) 65537 (by decide)

/-- C13 (bucket index characterisation).  For every `bytes` with
`1 ≤ bytes ≤ MAX_BYTES` the index computed by `get_free_list` is
`(bytes + ALIGN - 1) / ALIGN - 1 = round_up(bytes) / ALIGN - 1`, lies below
`FREE_LIST_SIZE = MAX_BYTES / ALIGN = 1024`, and is the unique `i` with
`i * ALIGN < bytes ≤ (i + 1) * ALIGN`; `round_up(bytes)` is the least
multiple of `ALIGN` that is at least `bytes`. -/
theorem bucket_index_characterisation (bytes : Nat) (h1 : 1 ≤ bytes) (h2 : bytes ≤ MAX_BYTES) :
    get_free_list bytes = (bytes + ALIGN - 1) / ALIGN - 1 ∧
    get_free_list bytes = round_up bytes / ALIGN - 1 ∧
    get_free_list bytes < FREE_LIST_SIZE ∧
    FREE_LIST_SIZE = MAX_BYTES / ALIGN ∧ FREE_LIST_SIZE = 1024 ∧
    get_free_list bytes * ALIGN < bytes ∧ bytes ≤ (get_free_list bytes + 1) * ALIGN ∧
    (∀ i, i * ALIGN < bytes → bytes ≤ (i + 1) * ALIGN → i = get_free_list bytes) ∧
    ALIGN ∣ round_up bytes ∧ bytes ≤ round_up bytes ∧
    (∀ m, ALIGN ∣ m → bytes ≤ m → round_up bytes ≤ m) := by
  have hlt := get_free_list_lt bytes h1 h2
  have hr := round_up_get_free_list bytes h1 h2
  have hb : bytes + 63 < 18446744073709551616 := by
    simp only [MAX_BYTES] at h2; omega
  have hg := get_free_list_eq bytes h1 hb
  have hre := round_up_eq bytes hb
  rw [hre]
  generalize get_free_list bytes = k at *
  simp only [ALIGN, FREE_LIST_SIZE, MAX_BYTES] at *
  refine ⟨by omega, by omega, hlt, by norm_num, by norm_num, by omega, by omega, ?_,
    Dvd.intro_left _ rfl, by omega, ?_⟩
  · intro i hi1 hi2
    omega
  · rintro m ⟨q, rfl⟩ hm
    omega

/-- The request of 100 bytes: bucket 1, rounded to 128. -/
theorem bucket_index_characterisation_witness :
    get_free_list 100 = (100 + ALIGN - 1) / ALIGN - 1 ∧
    get_free_list 100 = round_up 100 / ALIGN - 1 ∧
    get_free_list 100 < FREE_LIST_SIZE ∧
    FREE_LIST_SIZE = MAX_BYTES / ALIGN ∧ FREE_LIST_SIZE = 1024 ∧
    get_free_list 100 * ALIGN < 100 ∧ 100 ≤ (get_free_list 100 + 1) * ALIGN ∧
    (∀ i, i * ALIGN < 100 → 100 ≤ (i + 1) * ALIGN → i = get_free_list 100) ∧
    ALIGN ∣ round_up 100 ∧ 100 ≤ round_up 100 ∧
    (∀ m, ALIGN ∣ m → 100 ≤ m → round_up 100 ≤ m) :=
  bucket_index_characterisation 100 (by decide) (by decide)

/-- C14 (idempotence of bucketing).  For every `n`,
`get_free_list(round_up(n)) = get_free_list(n)` and
`round_up(round_up(n)) = round_up(n)`; so `_allocate(n)`,
`refill(round_up(n))` and `_deallocate(p, n)` address the same bucket. -/
theorem bucketing_idempotent (n : Nat) :
    get_free_list (round_up n) = get_free_list n ∧ round_up (round_up n) = round_up n := by
  rw [round_up_wrap (round_up n), get_free_list_wrap (round_up n), round_up_wrap n,
    get_free_list_wrap n]
  have hx : (n + 63) % 18446744073709551616 < 18446744073709551616 :=
    Nat.mod_lt _ (by norm_num)
  generalize (n + 63) % 18446744073709551616 = x at *
  constructor <;> omega

end pool_alloc
/-! ## Carving and the chain that `refill` builds -/

namespace pool_alloc
open pool_alloc_base

/-- Carving for any block size and any count whose product fits in a
`size_t`: the count becomes `min c (span / size)`. -/
theorem allocate_chunk_carve_count (size : Nat) (heap : List (Option Nat)) (s : Pool) (c : Nat)
    (hs1 : 0 < size) (hc1 : 1 ≤ c) (hc2 : c < 2147483648) (hov : size * c < SIZE_RANGE)
    (h : s.start_mem_pool ≤ s.end_mem_pool)
    (h2 : s.end_mem_pool - s.start_mem_pool < SIZE_RANGE)
    (h3 : size ≤ s.end_mem_pool - s.start_mem_pool) :
    allocate_chunk size heap s (c : Int) =
      .ret (s.start_mem_pool, ((min c ((s.end_mem_pool - s.start_mem_pool) / size) : Nat) : Int))
        { s with start_mem_pool :=
            s.start_mem_pool + size * min c ((s.end_mem_pool - s.start_mem_pool) / size) } [] := by
  have hbl := bytes_left_eq s h h2
  have hc : to_size_t (c : Int) = c := to_size_t_natCast c (by simp only [SIZE_RANGE]; omega)
  have hmod : size * c % SIZE_RANGE = size * c := Nat.mod_eq_of_lt hov
  unfold allocate_chunk
  simp only [hbl, hc, hmod]
  generalize s.end_mem_pool - s.start_mem_pool = span at *
  by_cases hf : span ≥ size * c
  · have hq : c ≤ span / size := by
      rw [Nat.le_div_iff_mul_le hs1, Nat.mul_comm]; exact hf
    rw [if_pos hf, Nat.min_eq_left hq]
  · have hq : span / size < c := by
      rw [Nat.div_lt_iff_lt_mul hs1, Nat.mul_comm]; omega
    have hq' : span / size ≤ c := by omega
    have hle : size * (span / size) ≤ size * c := Nat.mul_le_mul_left _ hq'
    rw [if_neg hf, if_pos h3, Nat.min_eq_right hq',
      to_int_small _ (by omega), to_size_t_natCast _ (by simp only [SIZE_RANGE]; omega),
      Nat.mod_eq_of_lt (by omega)]

/-- C15, as stated, fails when `size * c` wraps around as a `size_t`: with
blocks of `2 ^ 34` bytes, a count of `2 ^ 30` and an arena of exactly one
block, `total_bytes` is `0`, the first test succeeds, and
`allocate_chunk` returns the count `2 ^ 30` unchanged without moving
`start_mem_pool`, where `min c (span / size)` is `1`. -/
theorem carve_count_overflow :
    (4096 : Nat) ≤ 17179873280 ∧ (0 : Nat) < 17179869184 ∧ (1 : Int) ≤ 1073741824 ∧
    (17179869184 : Nat) ≤ 17179873280 - 4096 ∧
    allocate_chunk 17179869184 []
      { init (fun _ => 0) with start_mem_pool := 4096, end_mem_pool := 17179873280 }
      1073741824 =
      .ret (4096, 1073741824)
        { init (fun _ => 0) with start_mem_pool := 4096, end_mem_pool := 17179873280 } [] ∧
    min 1073741824 ((17179873280 - 4096) / 17179869184) = 1 := by
  refine ⟨by decide, by decide, by decide, by decide, ?_, by decide⟩
  rfl

/-- C15 (carving postcondition, amended).  For every state with
`start_mem_pool ≤ end_mem_pool`, every `size > 0` and every requested count
`c ≥ 1` (an `int`) whose product `size * c` fits in a `size_t`, if the span
`end_mem_pool - start_mem_pool` is at least `size` then
`allocate_chunk(size, c)` makes no heap request, returns the old
`start_mem_pool`, sets the count to `k = min c (span / size)` (which is `c`
when `span ≥ size * c` and otherwise satisfies `1 ≤ k < c`), advances
`start_mem_pool` by exactly `size * k` so that it stays at most
`end_mem_pool`, and changes nothing else. -/
theorem carve_postcondition (size : Nat) (heap : List (Option Nat)) (s : Pool) (c : Nat)
    (hs1 : 0 < size) (hc1 : 1 ≤ c) (hc2 : c < 2147483648) (hov : size * c < SIZE_RANGE)
    (h : s.start_mem_pool ≤ s.end_mem_pool) (hend : s.end_mem_pool < SIZE_RANGE)
    (h3 : size ≤ s.end_mem_pool - s.start_mem_pool) :
    ∃ k, k = min c ((s.end_mem_pool - s.start_mem_pool) / size) ∧
      allocate_chunk size heap s (c : Int) =
        .ret (s.start_mem_pool, (k : Int))
          { s with start_mem_pool := s.start_mem_pool + size * k } [] ∧
      s.start_mem_pool + size * k ≤ s.end_mem_pool ∧
      (size * c ≤ s.end_mem_pool - s.start_mem_pool → k = c) ∧
      (s.end_mem_pool - s.start_mem_pool < size * c → 1 ≤ k ∧ k < c) := by
  have h2 : s.end_mem_pool - s.start_mem_pool < SIZE_RANGE := by omega
  refine ⟨_, rfl, allocate_chunk_carve_count size heap s c hs1 hc1 hc2 hov h h2 h3, ?_, ?_, ?_⟩
  · have h4 : size * min c ((s.end_mem_pool - s.start_mem_pool) / size) ≤
        size * ((s.end_mem_pool - s.start_mem_pool) / size) :=
      Nat.mul_le_mul_left _ (Nat.min_le_right _ _)
    have h5 := Nat.mul_div_le (s.end_mem_pool - s.start_mem_pool) size
    omega
  · intro h6
    apply Nat.min_eq_left
    rw [Nat.le_div_iff_mul_le hs1, Nat.mul_comm]
    exact h6
  · intro h6
    have hq : (s.end_mem_pool - s.start_mem_pool) / size < c := by
      rw [Nat.div_lt_iff_lt_mul hs1, Nat.mul_comm]; exact h6
    have hq1 : 1 ≤ (s.end_mem_pool - s.start_mem_pool) / size := by
      rw [Nat.le_div_iff_mul_le hs1]; omega
    rw [Nat.min_eq_right (Nat.le_of_lt hq)]
    exact ⟨hq1, hq⟩

/-- Twenty blocks of 64 bytes asked of an arena of 640 bytes: ten are
carved. -/
theorem carve_postcondition_witness :
    ∃ k, k = min 20 (((4736 : Nat) - 4096) / 64) ∧
      allocate_chunk 64 []
        { init (fun _ => 0) with start_mem_pool := 4096, end_mem_pool := 4736 } ((20 : Nat) : Int) =
        .ret (4096, (k : Int))
          { init (fun _ => 0) with start_mem_pool := 4096 + 64 * k, end_mem_pool := 4736 } [] ∧
      4096 + 64 * k ≤ 4736 ∧
      (64 * 20 ≤ (4736 : Nat) - 4096 → k = 20) ∧
      ((4736 : Nat) - 4096 < 64 * 20 → 1 ≤ k ∧ k < 20) :=
  carve_postcondition 64 [] { init (fun _ => 0) with start_mem_pool := 4096, end_mem_pool := 4736 }
    20 (by decide) (by decide) (by decide) (by decide) (by decide) (by decide) (by decide)

/-- The blocks of a chunk, written out. -/
theorem chunk_blocks_eq_map (n : Nat) : ∀ (m a : Nat),
    chunk_blocks a n m = (List.range m).map (fun j => a + j * n) := by
  intro m
  induction m with
  | zero => intro a; rfl
  | succ m ih =>
    intro a
    rw [chunk_blocks, ih, List.range_succ_eq_map, List.map_cons, List.map_map]
    congr 1
    · simp
    · apply List.map_congr_left
      intro j _
      simp only [Function.comp, Nat.succ_eq_add_one]
      ring

/-- The loop of `refill` with `m` iterations to go: less fuel than `m` does
not reach the `break`, and any fuel from `m` on gives the result of exactly
`m` iterations. -/
theorem refill_loop_iterations (n : Nat) (c : Int) :
    ∀ (m fuel : Nat) (mem : Nat → Nat) (t : Int) (next : Nat), 1 ≤ m → t + m = c →
    (fuel < m → refill_loop fuel mem n c t next = none) ∧
    (m ≤ fuel → refill_loop fuel mem n c t next = refill_loop m mem n c t next) := by
  intro m
  induction m with
  | zero => intro fuel mem t next h; omega
  | succ m ih =>
    intro fuel mem t next _ ht
    by_cases hm : m = 0
    · subst hm
      have e : c - 1 = t := by omega
      constructor
      · intro hf
        have : fuel = 0 := by omega
        subst this
        rfl
      · intro hf
        obtain ⟨fuel, rfl⟩ : ∃ f, fuel = f + 1 := ⟨fuel - 1, by omega⟩
        simp only [refill_loop, e, if_true]
    · have e : ¬ c - 1 = t := by omega
      have ih1 := fun fuel => ih fuel (Function.update mem next (next + n)) (t + 1) (next + n)
        (by omega) (by push_cast at ht ⊢; omega)
      constructor
      · intro hf
        rcases Nat.eq_zero_or_pos fuel with h0 | h0
        · subst h0; rfl
        · obtain ⟨fuel, rfl⟩ : ∃ f, fuel = f + 1 := ⟨fuel - 1, by omega⟩
          simp only [refill_loop, e, if_false]
          exact (ih1 fuel).1 (by omega)
      · intro hf
        obtain ⟨fuel, rfl⟩ : ∃ f, fuel = f + 1 := ⟨fuel - 1, by omega⟩
        simp only [refill_loop, e, if_false]
        exact (ih1 fuel).2 (by omega)

/-- What `refill` does with a chunk of `m + 2` blocks. -/
theorem refill_chain (heap : List (Option Nat)) (s s1 : Pool) (n c : Nat) (cnt : Int)
    (log : List HeapEvent)
    (h : allocate_chunk n heap s 20 = .ret (c, cnt) s1 log)
    (m : Nat) (hcnt : cnt = ((m + 2 : Nat) : Int))
    (hn : 1 ≤ n) (hk : get_free_list n < FREE_LIST_SIZE) :
    ∃ mem', refill heap s n = .ret c
        { s1 with free_list := Function.update s1.free_list (get_free_list n) (c + n),
                  mem := mem' } log ∧
      IsChain mem' (c + n) ((List.range (m + 1)).map (fun j => c + (j + 1) * n)) ∧
      (∀ x, (x < c + n ∨ c + (m + 2) * n ≤ x) → mem' x = s1.mem x) ∧
      refill_loop (m + 1) s1.mem n cnt 1 (c + n) = some mem' ∧
      (∀ fuel, fuel < m + 1 → refill_loop fuel s1.mem n cnt 1 (c + n) = none) := by
  obtain ⟨mem', h1, h2, h3⟩ := refill_loop_spec n cnt hn (m + 1) (m + 2)
    s1.mem 1 (c + n) (by omega) (by omega) (by rw [hcnt]; push_cast; ring)
  have hit := refill_loop_iterations n cnt (m + 1) (m + 2) s1.mem 1 (c + n) (by omega)
    (by rw [hcnt]; push_cast; ring)
  have hit0 := fun fuel => (refill_loop_iterations n cnt (m + 1) fuel s1.mem 1 (c + n) (by omega)
    (by rw [hcnt]; push_cast; ring)).1
  refine ⟨mem', ?_, ?_, ?_, ?_, hit0⟩
  · have hne : ¬ (cnt = 1) := by omega
    have htn : cnt.toNat = m + 2 := by rw [hcnt]; exact Int.toNat_ofNat _
    simp only [refill, h, hne, if_false, hk, if_true, htn, h1]
  · have hc := chain_of_links mem' n (m + 1) (c + n) (by omega) h2
    rw [if_neg (by omega), chunk_blocks_eq_map] at hc
    have e : (fun j => c + n + j * n) = (fun j => c + (j + 1) * n) := by
      funext j; ring
    rw [e] at hc
    exact hc
  · intro x hx
    apply h3
    have e : c + n + (m + 1) * n = c + (m + 2) * n := by ring
    rw [e]
    exact hx
  · rw [← hit.2 (by omega)]
    exact h1

/-- C16 (refill postcondition).  For every block size `n` in
`[ALIGN, MAX_BYTES]` (the multiples of `ALIGN` among them), if `allocate_chunk` supplies `m` blocks at
`c` with `1 ≤ m ≤ 20`, then `refill(n)` returns `c`; with `m = 1` it leaves
the state as `allocate_chunk` left it; with `m ≥ 2` the free list of
the bucket of `n` becomes exactly `c + n, c + 2n, ..., c + (m - 1) n` in
that order, each linked to the next and the last to null, no other head
and no link word outside these blocks changes, and the loop runs
`m - 1` iterations (it ends with that many and with no fewer). -/
theorem refill_postcondition (heap : List (Option Nat)) (s s1 : Pool) (n c m : Nat)
    (log : List HeapEvent) (hn1 : ALIGN ≤ n) (hn2 : n ≤ MAX_BYTES)
    (hm1 : 1 ≤ m) (hm2 : m ≤ 20)
    (h : allocate_chunk n heap s 20 = .ret (c, (m : Int)) s1 log) :
    ∃ s2, refill heap s n = .ret c s2 log ∧
      (m = 1 → s2 = s1) ∧
      (2 ≤ m →
        s2.free_list (get_free_list n) = c + n ∧
        IsChain s2.mem (s2.free_list (get_free_list n))
          ((List.range (m - 1)).map (fun j => c + (j + 1) * n)) ∧
        (∀ i, i ≠ get_free_list n → s2.free_list i = s1.free_list i) ∧
        (∀ x, (x < c + n ∨ c + m * n ≤ x) → s2.mem x = s1.mem x) ∧
        refill_loop (m - 1) s1.mem n (m : Int) 1 (c + n) = some s2.mem ∧
        (∀ fuel, fuel < m - 1 → refill_loop fuel s1.mem n (m : Int) 1 (c + n) = none)) ∧
      s2.start_mem_pool = s1.start_mem_pool ∧ s2.end_mem_pool = s1.end_mem_pool ∧
      s2.heap_size = s1.heap_size := by
  have hn : 1 ≤ n := by simp only [ALIGN] at hn1; omega
  have hk : get_free_list n < FREE_LIST_SIZE := get_free_list_lt n hn hn2
  by_cases h1 : m = 1
  · have hc1 : ((m : Nat) : Int) = 1 := by rw [h1]; rfl
    refine ⟨s1, refill_one heap s s1 n c _ log h hc1, fun _ => rfl, ?_, rfl, rfl, rfl⟩
    intro h2
    omega
  · have e : m - 2 + 2 = m := by omega
    have hc2 : ((m : Nat) : Int) = ((m - 2 + 2 : Nat) : Int) := by rw [e]
    obtain ⟨mem', hr, hch, hframe, hl1, hl2⟩ :=
      refill_chain heap s s1 n c _ log h (m - 2) hc2 hn hk
    have e1 : m - 2 + 1 = m - 1 := by omega
    rw [e1] at hch hl1 hl2
    rw [e] at hframe
    refine ⟨_, hr, fun h => absurd h h1, fun _ => ⟨?_, ?_, ?_, hframe, hl1, hl2⟩, rfl, rfl, rfl⟩
    · exact Function.update_same _ _ _
    · dsimp only
      rw [Function.update_same]
      exact hch
    · intro i hi
      exact Function.update_noteq hi _ _

/-- A chunk of three blocks of 64 bytes carved at 4096: `refill(64)` returns
4096 and chains 4160 and 4224 on bucket 0. -/
theorem refill_postcondition_witness :
    allocate_chunk 64 []
      { init (fun _ => 0) with start_mem_pool := 4096, end_mem_pool := 4288 } 20 =
      .ret (4096, ((3 : Nat) : Int))
        { init (fun _ => 0) with start_mem_pool := 4288, end_mem_pool := 4288 } [] ∧
    ∃ s2, refill [] { init (fun _ => 0) with start_mem_pool := 4096, end_mem_pool := 4288 } 64 =
        .ret 4096 s2 [] ∧
      (3 = 1 → s2 = { init (fun _ => 0) with start_mem_pool := 4288, end_mem_pool := 4288 }) ∧
      (2 ≤ 3 →
        s2.free_list (get_free_list 64) = 4096 + 64 ∧
        IsChain s2.mem (s2.free_list (get_free_list 64))
          ((List.range (3 - 1)).map (fun j => 4096 + (j + 1) * 64)) ∧
        (∀ i, i ≠ get_free_list 64 → s2.free_list i =
          ({ init (fun _ => 0) with start_mem_pool := 4288, end_mem_pool := 4288 } : Pool).free_list i) ∧
        (∀ x, (x < 4096 + 64 ∨ 4096 + 3 * 64 ≤ x) → s2.mem x =
          ({ init (fun _ => 0) with start_mem_pool := 4288, end_mem_pool := 4288 } : Pool).mem x) ∧
        refill_loop (3 - 1)
          ({ init (fun _ => 0) with start_mem_pool := 4288, end_mem_pool := 4288 } : Pool).mem
          64 ((3 : Nat) : Int) 1 (4096 + 64) = some s2.mem ∧
        (∀ fuel, fuel < 3 - 1 → refill_loop fuel
          ({ init (fun _ => 0) with start_mem_pool := 4288, end_mem_pool := 4288 } : Pool).mem
          64 ((3 : Nat) : Int) 1 (4096 + 64) = none)) ∧
      s2.start_mem_pool =
        ({ init (fun _ => 0) with start_mem_pool := 4288, end_mem_pool := 4288 } : Pool).start_mem_pool ∧
      s2.end_mem_pool =
        ({ init (fun _ => 0) with start_mem_pool := 4288, end_mem_pool := 4288 } : Pool).end_mem_pool ∧
      s2.heap_size =
        ({ init (fun _ => 0) with start_mem_pool := 4288, end_mem_pool := 4288 } : Pool).heap_size :=
  ⟨rfl, refill_postcondition []
    { init (fun _ => 0) with start_mem_pool := 4096, end_mem_pool := 4288 }
    { init (fun _ => 0) with start_mem_pool := 4288, end_mem_pool := 4288 } 64 4096 3 []
    (by decide) (by decide) (by decide) (by decide) rfl⟩

end pool_alloc
/-! ## The retry of `allocate_chunk` -/

namespace pool_alloc
open pool_alloc_base

/-- The replenish path with a heap that grants: one request, then the
retry on the new arena. -/
theorem allocate_chunk_grant_step (size a : Nat) (rest : List (Option Nat)) (s : Pool)
    (hs2 : size ≤ MAX_BYTES) (hbl : bytes_left s < size) (hhs : s.heap_size < SIZE_RANGE) :
    allocate_chunk size (some a :: rest) s 20 =
      (allocate_chunk size rest
        { salvaged s with
          start_mem_pool := a,
          heap_size := (s.heap_size + request_size s size) % SIZE_RANGE,
          end_mem_pool := a + request_size s size } 20).logged (request_size s size, some a) := by
  have hb := request_size_bounds s size hs2 hhs
  have h20 : to_size_t 20 = 20 := by decide
  have hmod : size * 20 % SIZE_RANGE = size * 20 :=
    Nat.mod_eq_of_lt (by simp only [SIZE_RANGE, MAX_BYTES] at *; omega)
  have hbl2 : ¬ bytes_left s ≥ size * 20 := by omega
  have hbl3 : ¬ bytes_left s ≥ size := by omega
  have hreq : (2 * (size * 20) + round_up (s.heap_size / 16)) % SIZE_RANGE
      = request_size s size := Nat.mod_eq_of_lt hb.1
  conv_lhs => unfold allocate_chunk
  simp only [h20, hmod, hbl2, hbl3, if_false, salvage_eq s size hbl hs2, salvaged_heap_size, hreq]

/-- The replenish path with a heap that fails and a donor bucket: one
request, then the retry on the donated block. -/
theorem allocate_chunk_donor_step (k j : Nat) (rest : List (Option Nat)) (s : Pool)
    (hkj : k ≤ j) (hj : j < FREE_LIST_SIZE) (hbl : bytes_left s < (k + 1) * ALIGN)
    (hhs : s.heap_size < SIZE_RANGE)
    (hp : (salvaged s).free_list j ≠ 0)
    (hz : ∀ j', k ≤ j' → j' < j → (salvaged s).free_list j' = 0) :
    scavenge (salvaged s) ((k + 1) * ALIGN) = .donor (donate (salvaged s) j) ∧
    allocate_chunk ((k + 1) * ALIGN) (none :: rest) s 20 =
      (allocate_chunk ((k + 1) * ALIGN) rest (donate (salvaged s) j) 20).logged
        (request_size s ((k + 1) * ALIGN), none) := by
  have hk : k < FREE_LIST_SIZE := by omega
  have hs2 : (k + 1) * ALIGN ≤ MAX_BYTES := by
    simp only [FREE_LIST_SIZE, MAX_BYTES, ALIGN] at *; omega
  have hb := request_size_bounds s _ hs2 hhs
  have h20 : to_size_t 20 = 20 := by decide
  have hmod : (k + 1) * ALIGN * 20 % SIZE_RANGE = (k + 1) * ALIGN * 20 :=
    Nat.mod_eq_of_lt (by simp only [SIZE_RANGE, MAX_BYTES] at *; omega)
  have hbl2 : ¬ bytes_left s ≥ (k + 1) * ALIGN * 20 := by omega
  have hbl3 : ¬ bytes_left s ≥ (k + 1) * ALIGN := by omega
  have hreq : (2 * ((k + 1) * ALIGN * 20) + round_up (s.heap_size / 16)) % SIZE_RANGE
      = request_size s ((k + 1) * ALIGN) := Nat.mod_eq_of_lt hb.1
  have hsc := scavenge_donor _ k j hkj hj hp hz
  refine ⟨hsc, ?_⟩
  conv_lhs => unfold allocate_chunk
  simp only [h20, hmod, hbl2, hbl3, if_false, salvage_eq s _ hbl hs2, salvaged_heap_size, hreq,
    hsc]

/-- The span of a donated block. -/
theorem bytes_left_donate (s : Pool) (j : Nat) (hj : j < FREE_LIST_SIZE) :
    bytes_left (donate s j) = (j + 1) * ALIGN := by
  have h1 : (j + 1) * ALIGN < SIZE_RANGE := by
    simp only [FREE_LIST_SIZE, MAX_BYTES, ALIGN, SIZE_RANGE] at *; omega
  rw [bytes_left_eq _ (by simp [donate]) (by simpa [donate] using h1)]
  simp [donate]

/-- From a state of the invariant `allocate_chunk((k + 1) * ALIGN, 20)` reads
at most the first answer of the heap and ends with a chunk or with
`bad_alloc`, after at most one request. -/
theorem allocate_chunk_one_request {s : Pool} {live : List (Nat × Nat)} {regs : List Block}
    (hinv : Inv s live regs) (k : Nat) (hk : k < FREE_LIST_SIZE) (r : Option Nat)
    (rest : List (Option Nat)) :
    allocate_chunk ((k + 1) * ALIGN) (r :: rest) s 20 =
      allocate_chunk ((k + 1) * ALIGN) [r] s 20 ∧
    ((∃ p c s1 log, allocate_chunk ((k + 1) * ALIGN) (r :: rest) s 20 =
        .ret (p, ((c : Nat) : Int)) s1 log ∧ 1 ≤ c ∧ c ≤ 20 ∧ log.length ≤ 1) ∨
     (∃ s1 log, allocate_chunk ((k + 1) * ALIGN) (r :: rest) s 20 = .bad_alloc s1 log ∧
        log.length = 1)) := by
  obtain ⟨fl, core, hse, _, hsr⟩ := hinv
  obtain ⟨hs1, hs2, _⟩ := bucket_size_bounds k hk
  have hbl := bytes_left_eq s hse hsr
  by_cases hc : (k + 1) * ALIGN ≤ s.end_mem_pool - s.start_mem_pool
  · have h1 := fun heap => allocate_chunk_carve _ heap s hs1 hs2 hse hsr hc
    refine ⟨by rw [h1, h1], Or.inl ⟨_, _, _, _, h1 _, ?_, Nat.min_le_left _ _, by simp⟩⟩
    have : 1 ≤ (s.end_mem_pool - s.start_mem_pool) / ((k + 1) * ALIGN) := by
      rw [Nat.le_div_iff_mul_le (by omega)]; omega
    exact Nat.le_min.2 ⟨by omega, this⟩
  · have hb : bytes_left s < (k + 1) * ALIGN := by omega
    cases r with
    | some a =>
      have h1 := fun rest => allocate_chunk_grant _ a rest s hs1 hs2 hb core.hs
      exact ⟨by rw [h1, h1], Or.inl ⟨a, 20, _, _, h1 _, by omega, by omega, by simp⟩⟩
    | none =>
      by_cases hz : ∀ j, k ≤ j → j < FREE_LIST_SIZE → (salvaged s).free_list j = 0
      · have h1 := fun rest => allocate_chunk_exhausted k rest s hk hb core.hs hz
        exact ⟨by rw [h1, h1], Or.inr ⟨_, _, h1 _, by simp⟩⟩
      · obtain ⟨j, hkj, hj, hp, hlow⟩ := exists_lowest_bucket (salvaged s) k hz
        have h1 := fun rest => allocate_chunk_donor k j rest s hkj hj hb core.hs hp hlow
        refine ⟨by rw [h1, h1], Or.inl ⟨_, _, _, _, h1 _, ?_, Nat.min_le_left _ _, by simp⟩⟩
        have : 1 ≤ (j + 1) * ALIGN / ((k + 1) * ALIGN) := by
          rw [Nat.le_div_iff_mul_le (by omega), Nat.one_mul]
          exact Nat.mul_le_mul_right _ (by omega)
        exact Nat.le_min.2 ⟨by omega, this⟩

/-- C17 (retry always lands).  In every reachable state, for every block
size `(k + 1) * ALIGN` (the multiples of `ALIGN` in `[ALIGN, MAX_BYTES]`)
and the count 20: when `allocate_chunk` takes the replenish path (the span
is below one block), after a grant of the heap the retry runs on an arena
of `2 * size * 20 + round_up(heap_size / 16) ≥ size * 20` bytes, passes the
first test and returns the count 20 with no further request; after a failed
request with a donor bucket `j ≥ k` the retry runs on the donated block of
`(j + 1) * ALIGN ≥ size` bytes and returns between 1 and 20 blocks with no
further request; with no donor the call ends in `bad_alloc`.  Hence every
call of `allocate_chunk` reads at most one answer of the heap, makes at
most one request and ends with a chunk or with `bad_alloc`. -/
theorem retry_lands {s : Pool} {live : List (Nat × Nat)} {regs : List Block}
    (hr : Reach s live regs) (k : Nat) (hk : k < FREE_LIST_SIZE) :
    (bytes_left s < (k + 1) * ALIGN →
      (∀ a rest, ∃ sg, sg.start_mem_pool = a ∧
        sg.end_mem_pool = a + request_size s ((k + 1) * ALIGN) ∧
        allocate_chunk ((k + 1) * ALIGN) (some a :: rest) s 20 =
          (allocate_chunk ((k + 1) * ALIGN) rest sg 20).logged
            (request_size s ((k + 1) * ALIGN), some a) ∧
        bytes_left sg = request_size s ((k + 1) * ALIGN) ∧
        (k + 1) * ALIGN * 20 ≤ bytes_left sg ∧
        (k + 1) * ALIGN * to_size_t 20 % SIZE_RANGE ≤ bytes_left sg ∧
        allocate_chunk ((k + 1) * ALIGN) rest sg 20 =
          .ret (a, 20) { sg with start_mem_pool := a + 20 * ((k + 1) * ALIGN) } []) ∧
      (∀ rest,
        (∃ j sd, k ≤ j ∧ j < FREE_LIST_SIZE ∧
          scavenge (salvaged s) ((k + 1) * ALIGN) = .donor sd ∧
          allocate_chunk ((k + 1) * ALIGN) (none :: rest) s 20 =
            (allocate_chunk ((k + 1) * ALIGN) rest sd 20).logged
              (request_size s ((k + 1) * ALIGN), none) ∧
          bytes_left sd = (j + 1) * ALIGN ∧ (k + 1) * ALIGN ≤ bytes_left sd ∧
          ∃ c s1, allocate_chunk ((k + 1) * ALIGN) rest sd 20 =
            .ret (sd.start_mem_pool, ((c : Nat) : Int)) s1 [] ∧ 1 ≤ c ∧ c ≤ 20) ∨
        (scavenge (salvaged s) ((k + 1) * ALIGN) = .exhausted ∧
          ∃ s1, allocate_chunk ((k + 1) * ALIGN) (none :: rest) s 20 =
            .bad_alloc s1 [(request_size s ((k + 1) * ALIGN), none)]))) ∧
    (∀ r rest,
      allocate_chunk ((k + 1) * ALIGN) (r :: rest) s 20 =
        allocate_chunk ((k + 1) * ALIGN) [r] s 20 ∧
      ((∃ p c s1 log, allocate_chunk ((k + 1) * ALIGN) (r :: rest) s 20 =
          .ret (p, ((c : Nat) : Int)) s1 log ∧ 1 ≤ c ∧ c ≤ 20 ∧ log.length ≤ 1) ∨
       (∃ s1 log, allocate_chunk ((k + 1) * ALIGN) (r :: rest) s 20 = .bad_alloc s1 log ∧
          log.length = 1))) := by
  have hinv := reach_inv hr
  refine ⟨?_, fun r rest => allocate_chunk_one_request hinv k hk r rest⟩
  obtain ⟨fl, core, hse, _, hsr⟩ := hinv
  obtain ⟨hs1, hs2, _⟩ := bucket_size_bounds k hk
  intro hb
  have hreq := request_size_bounds s _ hs2 core.hs
  generalize hsz : (k + 1) * ALIGN = size at *
  constructor
  · intro a rest
    have h20 : to_size_t 20 = 20 := by decide
    have hmod : size * 20 % SIZE_RANGE = size * 20 :=
      Nat.mod_eq_of_lt (by simp only [SIZE_RANGE, MAX_BYTES] at *; omega)
    have hbg : bytes_left { salvaged s with
          start_mem_pool := a,
          heap_size := (s.heap_size + request_size s size) % SIZE_RANGE,
          end_mem_pool := a + request_size s size } = request_size s size := by
      rw [bytes_left_eq _ (by simp) (by simpa using hreq.1)]
      simp
    refine ⟨_, rfl, rfl, allocate_chunk_grant_step size a rest s hs2 hb core.hs, hbg, ?_, ?_, ?_⟩
    · rw [hbg]; omega
    · rw [hbg, h20, hmod]; omega
    · rw [allocate_chunk_carve size rest _ hs1 hs2 (by simp) (by simpa using hreq.1)
        (by simp; omega)]
      have hq : 20 ≤ (request_size s size) / size := by
        rw [Nat.le_div_iff_mul_le (by omega)]; omega
      simp [Nat.min_eq_left hq]
  · intro rest
    subst hsz
    by_cases hz : ∀ j, k ≤ j → j < FREE_LIST_SIZE → (salvaged s).free_list j = 0
    · exact Or.inr ⟨scavenge_exhausted _ k hk hz, _,
        allocate_chunk_exhausted k rest s hk hb core.hs hz⟩
    · obtain ⟨j, hkj, hj, hp, hlow⟩ := exists_lowest_bucket (salvaged s) k hz
      obtain ⟨hsc, hstep⟩ := allocate_chunk_donor_step k j rest s hkj hj hb core.hs hp hlow
      have hbd := bytes_left_donate (salvaged s) j hj
      have hle : (k + 1) * ALIGN ≤ (j + 1) * ALIGN := Nat.mul_le_mul_right _ (by omega)
      have hj2 : (j + 1) * ALIGN < SIZE_RANGE := by
        simp only [FREE_LIST_SIZE, MAX_BYTES, ALIGN, SIZE_RANGE] at *; omega
      refine Or.inl ⟨j, _, hkj, hj, hsc, hstep, hbd, by rw [hbd]; exact hle, _, _,
        allocate_chunk_carve _ rest _ hs1 hs2 (by simp [donate]) (by simpa [donate] using hj2)
          (by simpa [donate] using hle), ?_, Nat.min_le_left _ _⟩
      have : 1 ≤ ((donate (salvaged s) j).end_mem_pool - (donate (salvaged s) j).start_mem_pool) /
          ((k + 1) * ALIGN) := by
        rw [Nat.le_div_iff_mul_le (by omega), Nat.one_mul]
        simpa [donate] using hle
      exact Nat.le_min.2 ⟨by omega, this⟩

/-- The first call from the initial state, for blocks of 64 bytes. -/
theorem retry_lands_witness :
    (bytes_left (init fun _ => 0) < (0 + 1) * ALIGN →
      (∀ a rest, ∃ sg, sg.start_mem_pool = a ∧
        sg.end_mem_pool = a + request_size (init fun _ => 0) ((0 + 1) * ALIGN) ∧
        allocate_chunk ((0 + 1) * ALIGN) (some a :: rest) (init fun _ => 0) 20 =
          (allocate_chunk ((0 + 1) * ALIGN) rest sg 20).logged
            (request_size (init fun _ => 0) ((0 + 1) * ALIGN), some a) ∧
        bytes_left sg = request_size (init fun _ => 0) ((0 + 1) * ALIGN) ∧
        (0 + 1) * ALIGN * 20 ≤ bytes_left sg ∧
        (0 + 1) * ALIGN * to_size_t 20 % SIZE_RANGE ≤ bytes_left sg ∧
        allocate_chunk ((0 + 1) * ALIGN) rest sg 20 =
          .ret (a, 20) { sg with start_mem_pool := a + 20 * ((0 + 1) * ALIGN) } []) ∧
      (∀ rest,
        (∃ j sd, 0 ≤ j ∧ j < FREE_LIST_SIZE ∧
          scavenge (salvaged (init fun _ => 0)) ((0 + 1) * ALIGN) = .donor sd ∧
          allocate_chunk ((0 + 1) * ALIGN) (none :: rest) (init fun _ => 0) 20 =
            (allocate_chunk ((0 + 1) * ALIGN) rest sd 20).logged
              (request_size (init fun _ => 0) ((0 + 1) * ALIGN), none) ∧
          bytes_left sd = (j + 1) * ALIGN ∧ (0 + 1) * ALIGN ≤ bytes_left sd ∧
          ∃ c s1, allocate_chunk ((0 + 1) * ALIGN) rest sd 20 =
            .ret (sd.start_mem_pool, ((c : Nat) : Int)) s1 [] ∧ 1 ≤ c ∧ c ≤ 20) ∨
        (scavenge (salvaged (init fun _ => 0)) ((0 + 1) * ALIGN) = .exhausted ∧
          ∃ s1, allocate_chunk ((0 + 1) * ALIGN) (none :: rest) (init fun _ => 0) 20 =
            .bad_alloc s1 [(request_size (init fun _ => 0) ((0 + 1) * ALIGN), none)]))) ∧
    (∀ r rest,
      allocate_chunk ((0 + 1) * ALIGN) (r :: rest) (init fun _ => 0) 20 =
        allocate_chunk ((0 + 1) * ALIGN) [r] (init fun _ => 0) 20 ∧
      ((∃ p c s1 log, allocate_chunk ((0 + 1) * ALIGN) (r :: rest) (init fun _ => 0) 20 =
          .ret (p, ((c : Nat) : Int)) s1 log ∧ 1 ≤ c ∧ c ≤ 20 ∧ log.length ≤ 1) ∨
       (∃ s1 log, allocate_chunk ((0 + 1) * ALIGN) (r :: rest) (init fun _ => 0) 20 = .bad_alloc s1 log ∧
          log.length = 1))) :=
  retry_lands (Reach.init fun _ => 0) 0 (by decide)

end pool_alloc
/-! ## The replenish path for any block size and count -/

namespace pool_alloc
open pool_alloc_base

/-- The salvage is defined whenever the remainder is at most `MAX_BYTES`. -/
theorem salvage_defined (s : Pool) (h : bytes_left s ≤ MAX_BYTES) :
    salvage s = some (salvaged s) := by
  unfold salvage salvaged
  by_cases hc : 0 < bytes_left s ∧ s.start_mem_pool ≠ 0
  · have hk : get_free_list (bytes_left s) < FREE_LIST_SIZE := get_free_list_lt _ hc.1 h
    simp only [hc, hk, and_self, if_true, ne_eq, not_false_eq_true]
  · simp only [hc, if_false]

/-- The scan from any `i ≥ 1`: it ends without a donor, or with the head of
the bucket of some `i' ≥ i` as the new arena `[head, head + i')`; it never
leaves the array. -/
theorem scavenge_loop_any (s : Pool) : ∀ (fuel i : Nat), 1 ≤ i →
    scavenge_loop fuel s i = .exhausted ∨
    ∃ i', i ≤ i' ∧ i' ≤ MAX_BYTES ∧ get_free_list i' < FREE_LIST_SIZE ∧
      s.free_list (get_free_list i') ≠ 0 ∧
      scavenge_loop fuel s i = .donor { s with
        free_list := Function.update s.free_list (get_free_list i')
          (s.mem (s.free_list (get_free_list i'))),
        start_mem_pool := s.free_list (get_free_list i'),
        end_mem_pool := s.free_list (get_free_list i') + i' } := by
  intro fuel
  induction fuel with
  | zero => intro i _; exact Or.inl rfl
  | succ fuel ih =>
    intro i hi
    by_cases hm : i ≤ MAX_BYTES
    · have hk := get_free_list_lt i hi hm
      by_cases hp : s.free_list (get_free_list i) = 0
      · have hstep : scavenge_loop (fuel + 1) s i = scavenge_loop fuel s (i + ALIGN) := by
          simp only [scavenge_loop, hm, hk, hp, if_true, ne_eq, not_true_eq_false, if_false]
        rw [hstep]
        rcases ih (i + ALIGN) (by omega) with h | ⟨i', h1, h2, h3, h4, h5⟩
        · exact Or.inl h
        · exact Or.inr ⟨i', by omega, h2, h3, h4, h5⟩
      · refine Or.inr ⟨i, Nat.le_refl i, hm, hk, hp, ?_⟩
        simp only [scavenge_loop, hm, hk, hp, if_true, ne_eq, not_false_eq_true]
    · refine Or.inl ?_
      simp only [scavenge_loop, hm, if_false]

/-- The replenish path of `allocate_chunk(size, c)` when the heap grants,
for any block size and count whose request fits in a `size_t`. -/
theorem allocate_chunk_grant_any (size c a : Nat) (rest : List (Option Nat)) (s : Pool)
    (hc1 : 1 ≤ c) (hc2 : c < 2147483648) (hbl : bytes_left s < size)
    (hrem : bytes_left s ≤ MAX_BYTES)
    (hov : 2 * (size * c) + round_up (s.heap_size / 16) < SIZE_RANGE) :
    allocate_chunk size (some a :: rest) s (c : Int) =
      .ret (a, (c : Int))
        { salvaged s with
          start_mem_pool := a + size * c,
          heap_size := (s.heap_size + (2 * (size * c) + round_up (s.heap_size / 16))) % SIZE_RANGE,
          end_mem_pool := a + (2 * (size * c) + round_up (s.heap_size / 16)) }
        [(2 * (size * c) + round_up (s.heap_size / 16), some a)] := by
  have hcs : to_size_t (c : Int) = c := to_size_t_natCast c (by simp only [SIZE_RANGE]; omega)
  have hsc : size ≤ size * c := Nat.le_mul_of_pos_right size hc1
  have hmod : size * c % SIZE_RANGE = size * c := Nat.mod_eq_of_lt (by omega)
  have hbl2 : ¬ bytes_left s ≥ size * c := by omega
  have hbl3 : ¬ bytes_left s ≥ size := by omega
  have hreq : (2 * (size * c) + round_up (s.heap_size / 16)) % SIZE_RANGE
      = 2 * (size * c) + round_up (s.heap_size / 16) := Nat.mod_eq_of_lt hov
  generalize hR : 2 * (size * c) + round_up (s.heap_size / 16) = req at *
  conv_lhs => unfold allocate_chunk
  simp only [hcs, hmod, hbl2, hbl3, if_false, salvage_defined s hrem, salvaged_heap_size, hR,
    hreq]
  rw [allocate_chunk_carve_count size rest _ c (by omega) hc1 hc2 (by omega) (by simp)
    (by simpa using hov) (by simp; omega)]
  have hq : c ≤ req / size := by
    rw [Nat.le_div_iff_mul_le (by omega), Nat.mul_comm]; omega
  simp [Outcome.logged, Nat.min_eq_left hq]

/-- The replenish path of `allocate_chunk(size, c)` when the heap refuses,
for any block size and count whose request fits in a `size_t`: `bad_alloc`
with a null arena, or a chunk carved from the head of the bucket of some
`i' ≥ size`. -/
theorem allocate_chunk_refused_any (size c : Nat) (rest : List (Option Nat)) (s : Pool)
    (hc1 : 1 ≤ c) (hc2 : c < 2147483648) (hbl : bytes_left s < size)
    (hrem : bytes_left s ≤ MAX_BYTES)
    (hov : 2 * (size * c) + round_up (s.heap_size / 16) < SIZE_RANGE) :
    allocate_chunk size (none :: rest) s (c : Int) =
      .bad_alloc { salvaged s with start_mem_pool := 0, end_mem_pool := 0 }
        [(2 * (size * c) + round_up (s.heap_size / 16), none)] ∨
    ∃ i', size ≤ i' ∧ i' ≤ MAX_BYTES ∧ get_free_list i' < FREE_LIST_SIZE ∧
      (salvaged s).free_list (get_free_list i') ≠ 0 ∧
      allocate_chunk size (none :: rest) s (c : Int) =
        .ret ((salvaged s).free_list (get_free_list i'), ((min c (i' / size) : Nat) : Int))
          { salvaged s with
            free_list := Function.update (salvaged s).free_list (get_free_list i')
              ((salvaged s).mem ((salvaged s).free_list (get_free_list i'))),
            start_mem_pool := (salvaged s).free_list (get_free_list i') + size * min c (i' / size),
            end_mem_pool := (salvaged s).free_list (get_free_list i') + i' }
          [(2 * (size * c) + round_up (s.heap_size / 16), none)] := by
  have hcs : to_size_t (c : Int) = c := to_size_t_natCast c (by simp only [SIZE_RANGE]; omega)
  have hsc : size ≤ size * c := Nat.le_mul_of_pos_right size hc1
  have hmod : size * c % SIZE_RANGE = size * c := Nat.mod_eq_of_lt (by omega)
  have hbl2 : ¬ bytes_left s ≥ size * c := by omega
  have hbl3 : ¬ bytes_left s ≥ size := by omega
  have hreq : (2 * (size * c) + round_up (s.heap_size / 16)) % SIZE_RANGE
      = 2 * (size * c) + round_up (s.heap_size / 16) := Nat.mod_eq_of_lt hov
  generalize hR : 2 * (size * c) + round_up (s.heap_size / 16) = req at *
  have hany : scavenge (salvaged s) size = scavenge_loop (FREE_LIST_SIZE + 1) (salvaged s) size :=
    rfl
  rcases scavenge_loop_any (salvaged s) (FREE_LIST_SIZE + 1) size (by omega) with
    h | ⟨i', h1, h2, h3, h4, h5⟩
  · left
    rw [← hany] at h
    conv_lhs => unfold allocate_chunk
    simp only [hcs, hmod, hbl2, hbl3, if_false, salvage_defined s hrem, salvaged_heap_size, hR,
      hreq, h]
  · right
    refine ⟨i', h1, h2, h3, h4, ?_⟩
    rw [← hany] at h5
    conv_lhs => unfold allocate_chunk
    simp only [hcs, hmod, hbl2, hbl3, if_false, salvage_defined s hrem, salvaged_heap_size, hR,
      hreq, h5]
    have hi : i' < SIZE_RANGE := by simp only [MAX_BYTES, SIZE_RANGE] at *; omega
    rw [allocate_chunk_carve_count size rest _ c (by omega) hc1 hc2 (by omega) (by simp)
      (by simpa using hi) (by simpa using h1)]
    simp [Outcome.logged]

/-- The value of `bytes_to_get`, computed in `size_t`, is the integer
`2 * size * cnt + round_up(heap_size / 16)` whenever that integer is a
`size_t` value. -/
theorem bytes_to_get_eq (size hs : Nat) (cnt : Int) (req : Nat)
    (hreq : (req : Int) = 2 * (size : Int) * cnt + (round_up (hs / 16) : Nat))
    (hfit : req < SIZE_RANGE) :
    (2 * ((size * to_size_t cnt) % SIZE_RANGE) + round_up (hs / 16)) % SIZE_RANGE = req := by
  have ht : ((to_size_t cnt : Nat) : Int) = cnt % 18446744073709551616 := by
    unfold to_size_t
    simp only [SIZE_RANGE]
    omega
  obtain ⟨q, hq⟩ : ∃ q : Int, ((to_size_t cnt : Nat) : Int) = cnt - 18446744073709551616 * q :=
    ⟨cnt / 18446744073709551616, by rw [ht]; omega⟩
  have hprod : (((size * to_size_t cnt : Nat)) : Int) =
      (size : Int) * cnt - 18446744073709551616 * ((size : Int) * q) := by
    push_cast
    rw [hq]
    ring
  have hreq' : (req : Int) = 2 * ((size : Int) * cnt) + (round_up (hs / 16) : Nat) := by
    rw [hreq]; ring
  clear hreq hq ht
  simp only [SIZE_RANGE] at *
  generalize round_up (hs / 16) = ru at *
  generalize size * to_size_t cnt = X at *
  generalize (size : Int) * cnt = Y at *
  generalize (size : Int) * q = Z at *
  omega

/-- With at least one block in the arena `allocate_chunk` returns without a
request, whatever the count, and changes `start_mem_pool` only. -/
theorem allocate_chunk_lands (size : Nat) (heap : List (Option Nat)) (s : Pool) (cnt : Int)
    (h : size ≤ bytes_left s) :
    ∃ v s1, allocate_chunk size heap s cnt = .ret v s1 [] ∧ s1.heap_size = s.heap_size ∧
      s1.free_list = s.free_list ∧ s1.mem = s.mem ∧ s1.end_mem_pool = s.end_mem_pool ∧
      s1.freed = s.freed := by
  unfold allocate_chunk
  by_cases hf : bytes_left s ≥ size * to_size_t cnt % SIZE_RANGE
  · simp only [hf, if_true]
    exact ⟨_, _, rfl, rfl, rfl, rfl, rfl, rfl⟩
  · have h' : bytes_left s ≥ size := h
    simp only [hf, h', if_false, if_true]
    exact ⟨_, _, rfl, rfl, rfl, rfl, rfl, rfl⟩

/-- The replenish path, for any block size and any count: after the salvage
the heap is asked for `bytes_to_get` bytes, and on a grant the call goes on
from the salvaged state with the new arena and the larger `heap_size`. -/
theorem allocate_chunk_grant_step_any (size a : Nat) (cnt : Int) (rest : List (Option Nat))
    (s : Pool) (htot : bytes_left s < size * to_size_t cnt % SIZE_RANGE)
    (hbl : bytes_left s < size) (hrem : bytes_left s ≤ MAX_BYTES) :
    allocate_chunk size (some a :: rest) s cnt =
      (allocate_chunk size rest
        { salvaged s with
          start_mem_pool := a,
          heap_size := (s.heap_size +
            (2 * (size * to_size_t cnt % SIZE_RANGE) + round_up (s.heap_size / 16)) %
              SIZE_RANGE) % SIZE_RANGE,
          end_mem_pool := a +
            (2 * (size * to_size_t cnt % SIZE_RANGE) + round_up (s.heap_size / 16)) %
              SIZE_RANGE } cnt).logged
        ((2 * (size * to_size_t cnt % SIZE_RANGE) + round_up (s.heap_size / 16)) % SIZE_RANGE,
          some a) := by
  have hbl2 : ¬ bytes_left s ≥ size * to_size_t cnt % SIZE_RANGE := by omega
  have hbl3 : ¬ bytes_left s ≥ size := by omega
  conv_lhs => unfold allocate_chunk
  simp only [hbl2, hbl3, if_false, salvage_defined s hrem, salvaged_heap_size]

/-- The replenish path when the heap refuses, for any block size and any
count: the scan runs on the salvaged state; a donor gives the arena from
which the call goes on, and without a donor the call throws with a null
arena. -/
theorem allocate_chunk_refused_step_any (size : Nat) (cnt : Int) (rest : List (Option Nat))
    (s : Pool) (htot : bytes_left s < size * to_size_t cnt % SIZE_RANGE)
    (hbl : bytes_left s < size) (hrem : bytes_left s ≤ MAX_BYTES) :
    (∀ s2, scavenge (salvaged s) size = .donor s2 →
      allocate_chunk size (none :: rest) s cnt =
        (allocate_chunk size rest s2 cnt).logged
          ((2 * (size * to_size_t cnt % SIZE_RANGE) + round_up (s.heap_size / 16)) % SIZE_RANGE,
            none)) ∧
    (scavenge (salvaged s) size = .exhausted →
      allocate_chunk size (none :: rest) s cnt =
        .bad_alloc { salvaged s with start_mem_pool := 0, end_mem_pool := 0 }
          [((2 * (size * to_size_t cnt % SIZE_RANGE) + round_up (s.heap_size / 16)) % SIZE_RANGE,
            none)]) := by
  have hbl2 : ¬ bytes_left s ≥ size * to_size_t cnt % SIZE_RANGE := by omega
  have hbl3 : ¬ bytes_left s ≥ size := by omega
  constructor
  · intro s2 h
    conv_lhs => unfold allocate_chunk
    simp only [hbl2, hbl3, if_false, salvage_defined s hrem, salvaged_heap_size, h]
  · intro h
    conv_lhs => unfold allocate_chunk
    simp only [hbl2, hbl3, if_false, salvage_defined s hrem, salvaged_heap_size, h]

/-- The scan from a size of at least one byte ends without a donor or with
one whose arena holds at least `size` bytes; the donor state differs from
the scanned state in one list head and in the arena. -/
theorem scavenge_any (s : Pool) (size : Nat) (h1 : 1 ≤ size) :
    scavenge s size = .exhausted ∨
    ∃ i', size ≤ i' ∧ i' ≤ MAX_BYTES ∧ get_free_list i' < FREE_LIST_SIZE ∧
      s.free_list (get_free_list i') ≠ 0 ∧
      scavenge s size = .donor { s with
        free_list := Function.update s.free_list (get_free_list i')
          (s.mem (s.free_list (get_free_list i'))),
        start_mem_pool := s.free_list (get_free_list i'),
        end_mem_pool := s.free_list (get_free_list i') + i' } :=
  scavenge_loop_any s (FREE_LIST_SIZE + 1) size h1

/-- The first test of `allocate_chunk`: enough bytes for the whole request. -/
theorem allocate_chunk_fast (size : Nat) (heap : List (Option Nat)) (s : Pool) (cnt : Int)
    (h : size * to_size_t cnt % SIZE_RANGE ≤ bytes_left s) :
    allocate_chunk size heap s cnt =
      .ret (s.start_mem_pool, cnt)
        { s with start_mem_pool := s.start_mem_pool + size * to_size_t cnt % SIZE_RANGE } [] := by
  have h' : bytes_left s ≥ size * to_size_t cnt % SIZE_RANGE := h
  unfold allocate_chunk
  simp only [h', if_true]

/-- For a count of at least one, a request that fits in a `size_t` covers
the bytes of the whole chunk. -/
theorem total_le_request (size hs : Nat) (cnt : Int) (req : Nat) (hs1 : 1 ≤ size)
    (hc : 1 ≤ cnt)
    (hreq : (req : Int) = 2 * (size : Int) * cnt + (round_up (hs / 16) : Nat))
    (hfit : req < SIZE_RANGE) :
    size * to_size_t cnt % SIZE_RANGE = size * cnt.toNat ∧ size * cnt.toNat ≤ req := by
  obtain ⟨c, rfl⟩ : ∃ c : Nat, cnt = (c : Int) := ⟨cnt.toNat, by omega⟩
  have hc1 : 1 ≤ c := by omega
  have hprod : ((size * c : Nat) : Int) = (size : Int) * (c : Int) := by push_cast; rfl
  have hreq' : (req : Int) = 2 * ((size : Int) * (c : Int)) + (round_up (hs / 16) : Nat) := by
    rw [hreq]; ring
  have hle : c ≤ size * c := Nat.le_mul_of_pos_left c hs1
  rw [← hprod] at hreq'
  have h2 : size * c ≤ req := by omega
  have hcs : to_size_t (c : Int) = c := to_size_t_natCast c (by omega)
  rw [hcs, Int.toNat_ofNat]
  exact ⟨Nat.mod_eq_of_lt (by omega), h2⟩

end pool_alloc
/-! ## The salvage and the bucket that `refill` overwrites -/

namespace pool_alloc
open pool_alloc_base

/-- The arena `allocate_chunk((k + 1) * ALIGN, 20)` leaves when it returns a
chunk has the shape `SpanOK`, and the chunk has at least one block. -/
theorem allocate_chunk_span {s : Pool} (hs : SpanOK s) (k : Nat) (hk : k < FREE_LIST_SIZE)
    (heap : List (Option Nat)) (c : Nat) (cnt : Int) (s1 : Pool) (log : List HeapEvent)
    (h : allocate_chunk ((k + 1) * ALIGN) heap s 20 = .ret (c, cnt) s1 log) :
    1 ≤ cnt ∧ SpanOK s1 := by
  obtain ⟨hse, hal, hsr, hhs, _⟩ := hs
  obtain ⟨hs1, hs2, _⟩ := bucket_size_bounds k hk
  have hbl := bytes_left_eq s hse hsr
  by_cases hc : (k + 1) * ALIGN ≤ s.end_mem_pool - s.start_mem_pool
  · rw [allocate_chunk_carve _ heap s hs1 hs2 hse hsr hc] at h
    obtain ⟨hv, hst, _⟩ := Outcome.ret.inj h
    have hm := min_div_bounds _ _ hs1 hc
    generalize min 20 ((s.end_mem_pool - s.start_mem_pool) / ((k + 1) * ALIGN)) = m at *
    rw [← hst, ← (Prod.mk.inj hv).2]
    refine ⟨by omega, ?_, ?_, ?_, hhs, ?_⟩
    · show s.start_mem_pool + m * ((k + 1) * ALIGN) ≤ s.end_mem_pool
      omega
    · show ALIGN ∣ s.end_mem_pool - (s.start_mem_pool + m * ((k + 1) * ALIGN))
      rw [Nat.sub_add_eq]
      exact Nat.dvd_sub' hal (Dvd.intro_left (m * (k + 1)) (by ring))
    · show s.end_mem_pool - (s.start_mem_pool + m * ((k + 1) * ALIGN)) < SIZE_RANGE
      omega
    · intro _
      show s.start_mem_pool + m * ((k + 1) * ALIGN) ≠ 0
      have : 1 * ((k + 1) * ALIGN) ≤ m * ((k + 1) * ALIGN) := Nat.mul_le_mul_right _ hm.1
      omega
  · have hb : bytes_left s < (k + 1) * ALIGN := by omega
    cases heap with
    | nil =>
      rw [allocate_chunk_no_reply _ s hs2 hb] at h
      cases h
    | cons r rest =>
      cases r with
      | some a =>
        rw [allocate_chunk_grant _ a rest s hs1 hs2 hb hhs] at h
        obtain ⟨hv, hst, _⟩ := Outcome.ret.inj h
        have hrb := request_size_bounds s _ hs2 hhs
        have hru := round_up_le (s.heap_size / 16) (by simp only [SIZE_RANGE] at *; omega)
        obtain ⟨q, hq⟩ := hru.2.2
        have hreq : request_size s ((k + 1) * ALIGN) =
            20 * ((k + 1) * ALIGN) + ALIGN * (20 * (k + 1) + q) := by
          unfold request_size
          rw [hq]
          ring
        rw [← hst, ← (Prod.mk.inj hv).2]
        generalize request_size s ((k + 1) * ALIGN) = req at *
        refine ⟨by omega, ?_, ?_, ?_, Nat.mod_lt _ (by simp only [SIZE_RANGE]; omega), ?_⟩
        · show a + 20 * ((k + 1) * ALIGN) ≤ a + req
          omega
        · show ALIGN ∣ a + req - (a + 20 * ((k + 1) * ALIGN))
          exact ⟨20 * (k + 1) + q, by omega⟩
        · show a + req - (a + 20 * ((k + 1) * ALIGN)) < SIZE_RANGE
          omega
        · intro _
          show a + 20 * ((k + 1) * ALIGN) ≠ 0
          omega
      | none =>
        by_cases hzz : ∀ j, k ≤ j → j < FREE_LIST_SIZE → (salvaged s).free_list j = 0
        · rw [allocate_chunk_exhausted k rest s hk hb hhs hzz] at h
          cases h
        · obtain ⟨j, hkj, hj, hp, hlow⟩ := exists_lowest_bucket (salvaged s) k hzz
          rw [allocate_chunk_donor k j rest s hkj hj hb hhs hp hlow] at h
          obtain ⟨hv, hst, _⟩ := Outcome.ret.inj h
          have hle : (k + 1) * ALIGN ≤ (j + 1) * ALIGN := Nat.mul_le_mul_right _ (by omega)
          have hm := min_div_bounds _ _ hs1 hle
          have hj2 : (j + 1) * ALIGN < SIZE_RANGE := by
            simp only [FREE_LIST_SIZE, MAX_BYTES, ALIGN, SIZE_RANGE] at *; omega
          generalize min 20 ((j + 1) * ALIGN / ((k + 1) * ALIGN)) = m at *
          rw [← hst, ← (Prod.mk.inj hv).2]
          have hshs := salvaged_heap_size s
          refine ⟨by omega, ?_, ?_, ?_, ?_, ?_⟩
          · show (salvaged s).free_list j + m * ((k + 1) * ALIGN) ≤
              (salvaged s).free_list j + (j + 1) * ALIGN
            omega
          · show ALIGN ∣ (salvaged s).free_list j + (j + 1) * ALIGN -
              ((salvaged s).free_list j + m * ((k + 1) * ALIGN))
            rw [Nat.add_sub_add_left]
            exact Nat.dvd_sub' (Dvd.intro_left (j + 1) rfl) (Dvd.intro_left (m * (k + 1)) (by ring))
          · show (salvaged s).free_list j + (j + 1) * ALIGN -
              ((salvaged s).free_list j + m * ((k + 1) * ALIGN)) < SIZE_RANGE
            omega
          · show (salvaged s).heap_size < SIZE_RANGE
            omega
          · intro _
            show (salvaged s).free_list j + m * ((k + 1) * ALIGN) ≠ 0
            omega

/-- A call of `_allocate(n)` keeps the shape `SpanOK` of the arena. -/
theorem allocate_span {s : Pool} (hs : SpanOK s) (n : Nat) (h1 : 1 ≤ n) (h2 : n ≤ MAX_BYTES)
    (heap : List (Option Nat)) (s1 : Pool)
    (h : (_allocate heap s n).state? = some s1) : SpanOK s1 := by
  by_cases hz : s.free_list (get_free_list n) = 0
  · have hk := get_free_list_lt n h1 h2
    have hru := round_up_get_free_list n h1 h2
    have hgk := get_free_list_bucket (get_free_list n) hk
    cases ho : _allocate heap s n with
    | ret p s1' log =>
      rw [ho] at h
      simp only [Outcome.state?, Option.some.injEq] at h
      subst h
      rw [allocate_refill_eq heap s n h1 h2 hz, hru] at ho
      generalize get_free_list n = k at *
      obtain ⟨hs1, _, _⟩ := bucket_size_bounds k hk
      cases hch : allocate_chunk ((k + 1) * ALIGN) heap s 20 with
      | ret v s0 log0 =>
        obtain ⟨c, cnt⟩ := v
        obtain ⟨hcnt, hsp⟩ := allocate_chunk_span hs k hk heap c cnt s0 log0 hch
        obtain ⟨s2, hr, e1, e2, e3, _⟩ := refill_ret heap s s0 _ c cnt log0 hch cnt.toNat
          (by omega) (by omega) hs1 (by rw [hgk]; exact hk)
        rw [hr] at ho
        obtain ⟨_, hst, _⟩ := Outcome.ret.inj ho
        rw [← hst]
        unfold SpanOK at hsp ⊢
        rw [e1, e2, e3]
        exact hsp
      | bad_alloc s0 log0 => simp only [refill, hch] at ho; cases ho
      | fault => simp only [refill, hch] at ho; cases ho
      | no_reply => simp only [refill, hch] at ho; cases ho
    | bad_alloc s1' log =>
      rw [ho] at h
      simp only [Outcome.state?, Option.some.injEq] at h
      subst h
      obtain ⟨_, _, _, _, hst, _⟩ := allocate_bad_alloc heap s _ n log hs.2.2.2.1 h1 h2 ho
      rw [hst]
      refine ⟨Nat.le_refl _, ⟨0, rfl⟩, by simp only [SIZE_RANGE]; omega, ?_, ?_⟩
      · show (salvaged s).heap_size < SIZE_RANGE
        rw [salvaged_heap_size]
        exact hs.2.2.2.1
      · intro h0
        simp at h0
    | fault =>
      rw [ho] at h
      simp [Outcome.state?] at h
    | no_reply =>
      rw [ho] at h
      simp [Outcome.state?] at h
  · rw [allocate_pop_eq heap s n h1 h2 hz] at h
    simp only [Outcome.state?, Option.some.injEq] at h
    rw [← h]
    exact hs

/-- A call of `_deallocate` keeps the shape `SpanOK` of the arena. -/
theorem deallocate_span {s s1 : Pool} (hs : SpanOK s) (p n : Nat)
    (h : _deallocate s p n = some s1) : SpanOK s1 := by
  unfold _deallocate at h
  split at h
  · simp only [dealloc, Option.some.injEq] at h
    rw [← h]
    exact hs
  · dsimp only at h
    split at h
    · split at h
      · cases h
      · simp only [Option.some.injEq] at h
        rw [← h]
        exact hs
    · cases h

/-- Every state reached through calls with pooled sizes has an arena of the
shape `SpanOK`. -/
theorem reachable_span {s : Pool} (h : Reachable s) : SpanOK s := by
  induction h with
  | init m =>
    exact ⟨Nat.le_refl _, ⟨0, rfl⟩, by simp [init, SIZE_RANGE], by simp [init, SIZE_RANGE],
      fun h0 => by simp [init] at h0⟩
  | @allocate s s1 heap n p log _ h1 h2 he ih =>
    exact allocate_span ih n h1 h2 heap s1 (by rw [he]; rfl)
  | @allocate_failed s s1 heap n log _ h1 h2 he ih =>
    exact allocate_span ih n h1 h2 heap s1 (by rw [he]; rfl)
  | deallocate _ _ _ hd ih => exact deallocate_span ih _ _ hd
  | client_write m _ ih => exact ih

/-- C18 (exact salvage).  In every state reached from the initial state
through calls of `_allocate` and `_deallocate` with sizes in
`[1, MAX_BYTES]` (whatever pointer is given back), the arena span is a
multiple of `ALIGN`.  So whenever `allocate_chunk(size, cnt)`, for a block
size `size ≤ MAX_BYTES`, takes the replenish path with a remainder
`0 < r < size`: `r` is a multiple of `ALIGN` with
`ALIGN ≤ r ≤ MAX_BYTES - ALIGN`, the index `r / ALIGN - 1` is inside the
array and its block size is exactly `r`, the salvage pushes the old
`start_mem_pool` as the head of that bucket, linked to the previous head,
and `allocate_chunk` goes on from that state, whatever the count and
whatever the heap answers; for a count `c ≥ 1` the old `start_mem_pool` is
still the head of that bucket, with that link, in the state
`allocate_chunk` leaves, and no other link word is changed. -/
theorem exact_salvage {s : Pool} (hr : Reachable s) :
    s.start_mem_pool ≤ s.end_mem_pool ∧
    bytes_left s = s.end_mem_pool - s.start_mem_pool ∧
    ALIGN ∣ bytes_left s ∧
    ∀ size : Nat, size ≤ MAX_BYTES → 0 < bytes_left s → bytes_left s < size →
      ALIGN ≤ bytes_left s ∧ bytes_left s ≤ MAX_BYTES - ALIGN ∧
      get_free_list (bytes_left s) = bytes_left s / ALIGN - 1 ∧
      get_free_list (bytes_left s) < FREE_LIST_SIZE ∧
      (get_free_list (bytes_left s) + 1) * ALIGN = bytes_left s ∧
      salvage s = some { s with
        mem := Function.update s.mem s.start_mem_pool
          (s.free_list (get_free_list (bytes_left s))),
        free_list := Function.update s.free_list (get_free_list (bytes_left s))
          s.start_mem_pool } ∧
      salvaged s = { s with
        mem := Function.update s.mem s.start_mem_pool
          (s.free_list (get_free_list (bytes_left s))),
        free_list := Function.update s.free_list (get_free_list (bytes_left s))
          s.start_mem_pool } ∧
      (∀ cnt : Int, bytes_left s < size * to_size_t cnt % SIZE_RANGE →
        (∀ a rest, allocate_chunk size (some a :: rest) s cnt =
          (allocate_chunk size rest
            { salvaged s with
              start_mem_pool := a,
              heap_size := (s.heap_size +
                (2 * (size * to_size_t cnt % SIZE_RANGE) + round_up (s.heap_size / 16)) %
                  SIZE_RANGE) % SIZE_RANGE,
              end_mem_pool := a +
                (2 * (size * to_size_t cnt % SIZE_RANGE) + round_up (s.heap_size / 16)) %
                  SIZE_RANGE } cnt).logged
            ((2 * (size * to_size_t cnt % SIZE_RANGE) + round_up (s.heap_size / 16)) %
              SIZE_RANGE, some a)) ∧
        (∀ rest s2, scavenge (salvaged s) size = .donor s2 →
          allocate_chunk size (none :: rest) s cnt =
            (allocate_chunk size rest s2 cnt).logged
              ((2 * (size * to_size_t cnt % SIZE_RANGE) + round_up (s.heap_size / 16)) %
                SIZE_RANGE, none)) ∧
        (∀ rest, scavenge (salvaged s) size = .exhausted →
          allocate_chunk size (none :: rest) s cnt =
            .bad_alloc { salvaged s with start_mem_pool := 0, end_mem_pool := 0 }
              [((2 * (size * to_size_t cnt % SIZE_RANGE) + round_up (s.heap_size / 16)) %
                SIZE_RANGE, none)])) ∧
      ∀ c : Nat, 1 ≤ c → c < 2147483648 → ∀ r rest, ∃ s1,
        (allocate_chunk size (r :: rest) s (c : Int)).state? = some s1 ∧
        s1.free_list (get_free_list (bytes_left s)) = s.start_mem_pool ∧
        s1.mem s.start_mem_pool = s.free_list (get_free_list (bytes_left s)) ∧
        (∀ x, x ≠ s.start_mem_pool → s1.mem x = s.mem x) := by
  obtain ⟨hse, hal, hsr, hhs, hst0⟩ := reachable_span hr
  have hb := bytes_left_eq s hse hsr
  refine ⟨hse, hb, by rw [hb]; exact hal, ?_⟩
  intro size hs2 hpos hlt
  have hne : s.start_mem_pool ≠ 0 := hst0 (by rw [← hb]; exact hpos)
  have hbm : bytes_left s ≤ MAX_BYTES := by omega
  have hsv : salvage s = some (salvaged s) := salvage_defined s hbm
  have hpush := salvaged_eq_push s ⟨hpos, hne⟩
  have hlt2 := get_free_list_lt _ hpos hbm
  have hge := get_free_list_eq (bytes_left s) hpos (by simp only [MAX_BYTES] at hbm; omega)
  obtain ⟨q, hq⟩ := hal
  rw [← hb] at hq
  have hA : ALIGN ≤ bytes_left s := by simp only [ALIGN] at *; omega
  have hB : bytes_left s ≤ MAX_BYTES - ALIGN := by simp only [ALIGN, MAX_BYTES] at *; omega
  have hC : get_free_list (bytes_left s) = bytes_left s / ALIGN - 1 := by
    rw [hge]; simp only [ALIGN] at *; omega
  have hD : (get_free_list (bytes_left s) + 1) * ALIGN = bytes_left s := by
    rw [hge]; simp only [ALIGN] at *; omega
  refine ⟨hA, hB, hC, hlt2, hD, by rw [hsv, hpush], hpush, ?_, ?_⟩
  · intro cnt htot
    exact ⟨fun a rest => allocate_chunk_grant_step_any size a cnt rest s htot hlt hbm,
      fun rest s2 h => (allocate_chunk_refused_step_any size cnt rest s htot hlt hbm).1 s2 h,
      fun rest h => (allocate_chunk_refused_step_any size cnt rest s htot hlt hbm).2 h⟩
  intro c hc1 hc2
  have hov : 2 * (size * c) + round_up (s.heap_size / 16) < SIZE_RANGE := by
    have h1 : size * c ≤ MAX_BYTES * 2147483648 := Nat.mul_le_mul hs2 (Nat.le_of_lt hc2)
    have h2 := (round_up_le (s.heap_size / 16) (by simp only [SIZE_RANGE] at *; omega)).2.1
    simp only [SIZE_RANGE, MAX_BYTES] at *
    omega
  have hfl : (salvaged s).free_list (get_free_list (bytes_left s)) = s.start_mem_pool := by
    rw [hpush]; exact Function.update_same _ _ _
  have hm1 : (salvaged s).mem s.start_mem_pool = s.free_list (get_free_list (bytes_left s)) := by
    rw [hpush]; exact Function.update_same _ _ _
  have hm2 : ∀ x, x ≠ s.start_mem_pool → (salvaged s).mem x = s.mem x := by
    intro x hx
    rw [hpush]; exact Function.update_noteq hx _ _
  intro r rest
  cases r with
  | some a =>
    rw [allocate_chunk_grant_any size c a rest s hc1 hc2 hlt hbm hov]
    exact ⟨_, rfl, hfl, hm1, hm2⟩
  | none =>
    rcases allocate_chunk_refused_any size c rest s hc1 hc2 hlt hbm hov with
      h | ⟨i', h1, h2, _, _, h5⟩
    · rw [h]
      exact ⟨_, rfl, hfl, hm1, hm2⟩
    · rw [h5]
      refine ⟨_, rfl, ?_, hm1, hm2⟩
      have hgi := get_free_list_eq i' (by omega) (by simp only [MAX_BYTES] at h2; omega)
      have hneq : get_free_list (bytes_left s) ≠ get_free_list i' := by
        rw [hge, hgi]; simp only [ALIGN] at *; omega
      show Function.update (salvaged s).free_list (get_free_list i') _
        (get_free_list (bytes_left s)) = s.start_mem_pool
      rw [Function.update_noteq hneq]
      exact hfl

/-- After `_allocate(192)` (a chunk at 4096), `_allocate(3776)` (which leaves
64 bytes in the arena) and the return of the block 4096 with the size 100,
which is not the size of its allocation: the remainder of 64 bytes goes to
bucket 0. -/
theorem exact_salvage_witness :
    ∃ s1 s2 s3, _allocate [some 4096] (init fun _ => 0) 192 = .ret 4096 s1 [(7680, some 4096)] ∧
      _allocate [] s1 3776 = .ret 7936 s2 [] ∧
      _deallocate s2 4096 100 = some s3 ∧
      bytes_left s3 = 64 ∧
      s3.start_mem_pool ≤ s3.end_mem_pool ∧
      bytes_left s3 = s3.end_mem_pool - s3.start_mem_pool ∧
      ALIGN ∣ bytes_left s3 ∧
      ∀ size : Nat, size ≤ MAX_BYTES → 0 < bytes_left s3 → bytes_left s3 < size →
        ALIGN ≤ bytes_left s3 ∧ bytes_left s3 ≤ MAX_BYTES - ALIGN ∧
        get_free_list (bytes_left s3) = bytes_left s3 / ALIGN - 1 ∧
        get_free_list (bytes_left s3) < FREE_LIST_SIZE ∧
        (get_free_list (bytes_left s3) + 1) * ALIGN = bytes_left s3 ∧
        salvage s3 = some { s3 with
          mem := Function.update s3.mem s3.start_mem_pool
            (s3.free_list (get_free_list (bytes_left s3))),
          free_list := Function.update s3.free_list (get_free_list (bytes_left s3))
            s3.start_mem_pool } ∧
        salvaged s3 = { s3 with
          mem := Function.update s3.mem s3.start_mem_pool
            (s3.free_list (get_free_list (bytes_left s3))),
          free_list := Function.update s3.free_list (get_free_list (bytes_left s3))
            s3.start_mem_pool } ∧
        (∀ cnt : Int, bytes_left s3 < size * to_size_t cnt % SIZE_RANGE →
          (∀ a rest, allocate_chunk size (some a :: rest) s3 cnt =
            (allocate_chunk size rest
              { salvaged s3 with
                start_mem_pool := a,
                heap_size := (s3.heap_size +
                  (2 * (size * to_size_t cnt % SIZE_RANGE) + round_up (s3.heap_size / 16)) %
                    SIZE_RANGE) % SIZE_RANGE,
                end_mem_pool := a +
                  (2 * (size * to_size_t cnt % SIZE_RANGE) + round_up (s3.heap_size / 16)) %
                    SIZE_RANGE } cnt).logged
              ((2 * (size * to_size_t cnt % SIZE_RANGE) + round_up (s3.heap_size / 16)) %
                SIZE_RANGE, some a)) ∧
          (∀ rest s2, scavenge (salvaged s3) size = .donor s2 →
            allocate_chunk size (none :: rest) s3 cnt =
              (allocate_chunk size rest s2 cnt).logged
                ((2 * (size * to_size_t cnt % SIZE_RANGE) + round_up (s3.heap_size / 16)) %
                  SIZE_RANGE, none)) ∧
          (∀ rest, scavenge (salvaged s3) size = .exhausted →
            allocate_chunk size (none :: rest) s3 cnt =
              .bad_alloc { salvaged s3 with start_mem_pool := 0, end_mem_pool := 0 }
                [((2 * (size * to_size_t cnt % SIZE_RANGE) + round_up (s3.heap_size / 16)) %
                  SIZE_RANGE, none)])) ∧
        ∀ c : Nat, 1 ≤ c → c < 2147483648 → ∀ r rest, ∃ s1,
          (allocate_chunk size (r :: rest) s3 (c : Int)).state? = some s1 ∧
          s1.free_list (get_free_list (bytes_left s3)) = s3.start_mem_pool ∧
          s1.mem s3.start_mem_pool = s3.free_list (get_free_list (bytes_left s3)) ∧
          (∀ x, x ≠ s3.start_mem_pool → s1.mem x = s3.mem x) :=
  have r1 : Reachable _ :=
    @Reachable.allocate _ _ [some 4096] 192 4096 [(7680, some 4096)]
      (Reachable.init fun _ => 0) (by decide) (by decide) rfl
  have r2 : Reachable _ :=
    @Reachable.allocate _ _ [] 3776 7936 [] r1 (by decide) (by decide) rfl
  have r3 : Reachable _ :=
    @Reachable.deallocate _ _ 4096 100 r2 (by decide) (by decide) rfl
  ⟨_, _, _, rfl, rfl, rfl, by decide, exact_salvage r3⟩

/-- A non-empty arena of a state of the invariant does not start at null. -/
theorem Inv.start_ne_zero {s : Pool} {live : List (Nat × Nat)} {regs : List Block}
    (h : Inv s live regs) (hpos : 0 < s.end_mem_pool - s.start_mem_pool) :
    s.start_mem_pool ≠ 0 := by
  obtain ⟨fl, core, _, _, _⟩ := h
  rcases core.good1.2 (arena s) (List.mem_cons_self _ _) with h0 | ⟨r, hr, h1, _, _⟩
  · simp only [arena] at h0; omega
  · have := core.regs_ok r hr
    simp only [arena] at h1
    omega

/-- In a state of the invariant whose bucket `k` is empty, bucket `k` is
still empty in the state `allocate_chunk((k + 1) * ALIGN, 20)` returns. -/
theorem allocate_chunk_keeps_bucket {s : Pool} {live : List (Nat × Nat)} {regs : List Block}
    (hinv : Inv s live regs) (k : Nat) (hk : k < FREE_LIST_SIZE) (hz : s.free_list k = 0)
    (heap : List (Option Nat)) (c : Nat) (cnt : Int) (s1 : Pool) (log : List HeapEvent)
    (h : allocate_chunk ((k + 1) * ALIGN) heap s 20 = .ret (c, cnt) s1 log) :
    s1.free_list k = 0 := by
  obtain ⟨fl, core, hse, hal, hsr⟩ := hinv
  obtain ⟨hs1, hs2, _⟩ := bucket_size_bounds k hk
  have hbl := bytes_left_eq s hse hsr
  by_cases hc : (k + 1) * ALIGN ≤ s.end_mem_pool - s.start_mem_pool
  · rw [allocate_chunk_carve _ heap s hs1 hs2 hse hsr hc] at h
    obtain ⟨_, hs, _⟩ := Outcome.ret.inj h
    rw [← hs]
    exact hz
  · have hb : bytes_left s < (k + 1) * ALIGN := by omega
    obtain ⟨fl1, _, _, hfree⟩ := core.salvage hse hal hsr k hk (by omega)
    have hzs : (salvaged s).free_list k = 0 := by rw [hfree k (Nat.le_refl k)]; exact hz
    cases heap with
    | nil =>
      rw [allocate_chunk_no_reply _ s hs2 hb] at h
      cases h
    | cons r rest =>
      cases r with
      | some a =>
        rw [allocate_chunk_grant _ a rest s hs1 hs2 hb core.hs] at h
        obtain ⟨_, hs, _⟩ := Outcome.ret.inj h
        rw [← hs]
        exact hzs
      | none =>
        by_cases hzz : ∀ j, k ≤ j → j < FREE_LIST_SIZE → (salvaged s).free_list j = 0
        · rw [allocate_chunk_exhausted k rest s hk hb core.hs hzz] at h
          cases h
        · obtain ⟨j, hkj, hj, hp, hlow⟩ := exists_lowest_bucket (salvaged s) k hzz
          rw [allocate_chunk_donor k j rest s hkj hj hb core.hs hp hlow] at h
          obtain ⟨_, hs, _⟩ := Outcome.ret.inj h
          rw [← hs]
          have hne : k ≠ j := by
            intro e
            rw [← e] at hp
            exact hp hzs
          simp only [donate]
          rw [Function.update_noteq hne]
          exact hzs

/-- C20 (refill never discards free blocks).  In every reachable state,
when `_allocate(n)` finds the bucket of `n` empty and enters
`refill(round_up(n))`, that bucket is still empty in the state
`allocate_chunk` hands back, which is the state in which `refill`
overwrites its head with the new chain: the salvage pushes the remainder
on a strictly lower bucket, and the scan takes the head of a strictly
higher bucket and touches no other head. -/
theorem refill_discards_nothing {s : Pool} {live : List (Nat × Nat)} {regs : List Block}
    (hr : Reach s live regs) (n : Nat) (h1 : 1 ≤ n) (h2 : n ≤ MAX_BYTES)
    (hz : s.free_list (get_free_list n) = 0) :
    (∀ heap c cnt s1 log, allocate_chunk (round_up n) heap s 20 = .ret (c, cnt) s1 log →
      s1.free_list (get_free_list n) = 0) ∧
    (bytes_left s < round_up n →
      salvage s = some (salvaged s) ∧
      (salvaged s).free_list (get_free_list n) = 0 ∧
      (0 < bytes_left s → get_free_list (bytes_left s) < get_free_list n ∧
        (salvaged s).free_list (get_free_list (bytes_left s)) = s.start_mem_pool ∧
        ∀ i, i ≠ get_free_list (bytes_left s) → (salvaged s).free_list i = s.free_list i) ∧
      ∀ sd, scavenge (salvaged s) (round_up n) = .donor sd →
        ∃ j, get_free_list n < j ∧ j < FREE_LIST_SIZE ∧ sd = donate (salvaged s) j ∧
          sd.free_list j = (salvaged s).mem ((salvaged s).free_list j) ∧
          ∀ i, i ≠ j → sd.free_list i = (salvaged s).free_list i) := by
  have hinv := reach_inv hr
  have hk := get_free_list_lt n h1 h2
  have hru := round_up_get_free_list n h1 h2
  rw [hru]
  generalize get_free_list n = k at *
  refine ⟨fun heap c cnt s1 log h =>
    allocate_chunk_keeps_bucket hinv k hk hz heap c cnt s1 log h, ?_⟩
  intro hb
  have hinv' := hinv
  obtain ⟨fl, core, hse, hal, hsr⟩ := hinv'
  obtain ⟨hs1, hs2, _⟩ := bucket_size_bounds k hk
  have hbl := bytes_left_eq s hse hsr
  obtain ⟨fl1, _, _, hfree⟩ := core.salvage hse hal hsr k hk (by omega)
  have hzs : (salvaged s).free_list k = 0 := by rw [hfree k (Nat.le_refl k)]; exact hz
  refine ⟨salvage_eq s _ hb hs2, hzs, ?_, ?_⟩
  · intro hpos
    have hne : s.start_mem_pool ≠ 0 := Inv.start_ne_zero hinv (by rw [← hbl]; exact hpos)
    have hbm : bytes_left s ≤ MAX_BYTES := by omega
    have hge := round_up_get_free_list (bytes_left s) hpos hbm
    have hrl := round_up_le (bytes_left s) (by simp only [MAX_BYTES, SIZE_RANGE] at *; omega)
    have hlt : get_free_list (bytes_left s) < k := by
      obtain ⟨q, hq⟩ := hal
      rw [← hbl] at hq
      have h3 : round_up (bytes_left s) = bytes_left s := by
        have := round_up_eq (bytes_left s) (by simp only [MAX_BYTES] at hbm; omega)
        rw [this, hq]
        simp only [ALIGN]
        omega
      rw [h3] at hge
      rw [hge] at hb
      exact Nat.lt_of_add_lt_add_right (Nat.lt_of_mul_lt_mul_right hb)
    rw [salvaged_eq_push s ⟨hpos, hne⟩]
    refine ⟨hlt, Function.update_same _ _ _, ?_⟩
    intro i hi
    exact Function.update_noteq hi _ _
  · intro sd hsd
    unfold scavenge at hsd
    rcases scavenge_loop_spec (salvaged s) (FREE_LIST_SIZE + 1) k (by omega) (by omega) with
      ⟨j, hkj, hj, hp, _, hsc⟩ | ⟨_, hsc⟩
    · rw [hsc] at hsd
      have hne : k ≠ j := by
        intro e
        rw [← e] at hp
        exact hp hzs
      refine ⟨j, by omega, hj, (Scavenged.donor.inj hsd).symm, ?_, ?_⟩
      · rw [← Scavenged.donor.inj hsd]
        exact Function.update_same _ _ _
      · intro i hi
        rw [← Scavenged.donor.inj hsd]
        exact Function.update_noteq hi _ _
    · rw [hsc] at hsd
      cases hsd

/-- After `_allocate(192)` (a chunk of twenty 192-byte blocks at 4096, which
leaves nineteen of them on bucket 2) and `_allocate(3776)` (which leaves 64
bytes in the arena), `_allocate(128)` with a heap that refuses enters
`refill(128)` with bucket 1 empty, a remainder of 64 bytes for bucket 0 and
a donor in bucket 2. -/
theorem refill_discards_nothing_witness :
    ∃ s1 s2, _allocate [some 4096] (init fun _ => 0) 192 = .ret 4096 s1 [(7680, some 4096)] ∧
      _allocate [] s1 3776 = .ret 7936 s2 [] ∧
      s2.free_list (get_free_list 128) = 0 ∧
      0 < bytes_left s2 ∧ bytes_left s2 < round_up 128 ∧
      (∃ sd, scavenge (salvaged s2) (round_up 128) = .donor sd) ∧
      (∀ heap c cnt s1 log, allocate_chunk (round_up 128) heap s2 20 = .ret (c, cnt) s1 log →
        s1.free_list (get_free_list 128) = 0) ∧
      (bytes_left s2 < round_up 128 →
        salvage s2 = some (salvaged s2) ∧
        (salvaged s2).free_list (get_free_list 128) = 0 ∧
        (0 < bytes_left s2 → get_free_list (bytes_left s2) < get_free_list 128 ∧
          (salvaged s2).free_list (get_free_list (bytes_left s2)) = s2.start_mem_pool ∧
          ∀ i, i ≠ get_free_list (bytes_left s2) → (salvaged s2).free_list i = s2.free_list i) ∧
        ∀ sd, scavenge (salvaged s2) (round_up 128) = .donor sd →
          ∃ j, get_free_list 128 < j ∧ j < FREE_LIST_SIZE ∧ sd = donate (salvaged s2) j ∧
            sd.free_list j = (salvaged s2).mem ((salvaged s2).free_list j) ∧
            ∀ i, i ≠ j → sd.free_list i = (salvaged s2).free_list i) :=
  have r1 : Reach _ [(4096, 192)] [(4096, 7680)] :=
    @Reach.allocate _ _ _ _ [some 4096] 192 _ [(7680, some 4096)]
      (Reach.init fun _ => 0) (by decide) (by decide)
      ⟨by decide, fun r hr => absurd hr (List.not_mem_nil _), trivial⟩ rfl
  have r2 : Reach _ [(7936, 3776), (4096, 192)] [(4096, 7680)] :=
    @Reach.allocate _ _ _ _ [] 3776 _ [] r1 (by decide) (by decide) trivial rfl
  ⟨_, _, rfl, rfl, by decide, by decide, by decide, ⟨_, rfl⟩,
    refill_discards_nothing r2 128 (by decide) (by decide) (by decide)⟩

end pool_alloc
/-! ## The growth of `heap_size` -/

namespace pool_alloc
open pool_alloc_base

/-- From a state of the invariant, what `allocate_chunk((k + 1) * ALIGN, 20)`
does to `heap_size`. -/
theorem allocate_chunk_effect {s : Pool} {live : List (Nat × Nat)} {regs : List Block}
    (hinv : Inv s live regs) (k : Nat) (hk : k < FREE_LIST_SIZE) (heap : List (Option Nat)) :
    ChunkEffect s ((k + 1) * ALIGN) (allocate_chunk ((k + 1) * ALIGN) heap s 20) := by
  obtain ⟨fl, core, hse, hal, hsr⟩ := hinv
  obtain ⟨hs1, hs2, _⟩ := bucket_size_bounds k hk
  have hbl := bytes_left_eq s hse hsr
  by_cases hc : (k + 1) * ALIGN ≤ s.end_mem_pool - s.start_mem_pool
  · rw [allocate_chunk_carve _ heap s hs1 hs2 hse hsr hc]
    have := (min_div_bounds _ _ hs1 hc).1
    exact ⟨by omega, Or.inl ⟨rfl, Or.inl rfl⟩⟩
  · have hb : bytes_left s < (k + 1) * ALIGN := by omega
    cases heap with
    | nil =>
      rw [allocate_chunk_no_reply _ s hs2 hb]
      trivial
    | cons r rest =>
      cases r with
      | some a =>
        rw [allocate_chunk_grant _ a rest s hs1 hs2 hb core.hs]
        exact ⟨by omega, Or.inr ⟨a, rfl, rfl, rfl⟩⟩
      | none =>
        by_cases hzz : ∀ j, k ≤ j → j < FREE_LIST_SIZE → (salvaged s).free_list j = 0
        · rw [allocate_chunk_exhausted k rest s hk hb core.hs hzz]
          exact Or.inl ⟨salvaged_heap_size s, Or.inr rfl⟩
        · obtain ⟨j, hkj, hj, hp, hlow⟩ := exists_lowest_bucket (salvaged s) k hzz
          rw [allocate_chunk_donor k j rest s hkj hj hb core.hs hp hlow]
          have hle : (k + 1) * ALIGN ≤ (j + 1) * ALIGN := Nat.mul_le_mul_right _ (by omega)
          have := (min_div_bounds _ _ hs1 hle).1
          exact ⟨by omega, Or.inl ⟨salvaged_heap_size s, Or.inr rfl⟩⟩

/-- From a state of the invariant, what `_allocate(n)` does to `heap_size`. -/
theorem allocate_effect {s : Pool} {live : List (Nat × Nat)} {regs : List Block}
    (hinv : Inv s live regs) (n : Nat) (h1 : 1 ≤ n) (h2 : n ≤ MAX_BYTES)
    (heap : List (Option Nat)) : AllocEffect s n (_allocate heap s n) := by
  by_cases hz : s.free_list (get_free_list n) = 0
  · rw [allocate_refill_eq heap s n h1 h2 hz]
    have hk := get_free_list_lt n h1 h2
    have hru := round_up_get_free_list n h1 h2
    have hgk := get_free_list_bucket (get_free_list n) hk
    have hce := allocate_chunk_effect hinv (get_free_list n) hk heap
    unfold AllocEffect
    rw [hru]
    generalize get_free_list n = k at *
    obtain ⟨hs1, hs2, hs3⟩ := bucket_size_bounds k hk
    cases ho : allocate_chunk ((k + 1) * ALIGN) heap s 20 with
    | ret v s1 log =>
      obtain ⟨c, cnt⟩ := v
      rw [ho] at hce
      obtain ⟨hcnt, heff⟩ := hce
      obtain ⟨s2, hr, _, he2, hh2, _⟩ := refill_ret heap s s1 _ c cnt log ho cnt.toNat
        (by omega) (by omega) hs1 (by rw [hgk]; exact hk)
      rw [hr]
      rcases heff with ⟨e1, e2⟩ | ⟨a, e1, e2, e3⟩
      · exact Or.inl ⟨by rw [hh2]; exact e1, e2⟩
      · exact Or.inr ⟨a, e1, by rw [hh2]; exact e2, by rw [he2]; exact e3⟩
    | bad_alloc s1 log =>
      rw [ho] at hce
      have : refill heap s ((k + 1) * ALIGN) = .bad_alloc s1 log := by
        simp only [refill, ho]
      rw [this]
      exact hce
    | fault =>
      rw [ho] at hce
      exact hce.elim
    | no_reply =>
      have : refill heap s ((k + 1) * ALIGN) = .no_reply := by
        simp only [refill, ho]
      rw [this]
      trivial
  · rw [allocate_pop_eq heap s n h1 h2 hz]
    exact Or.inl ⟨rfl, Or.inl rfl⟩

theorem regions_total_cons (r : Block) (l : List Block) :
    regions_total (r :: l) = r.2 + regions_total l := by
  simp [regions_total]

/-- Pairwise disjoint regions that avoid address 0 and end at most at `N`
hold fewer than `N` bytes together. -/
theorem regions_total_lt (N : Nat) : ∀ (l : List Block), l.Pairwise Disj →
    (∀ r ∈ l, r.1 ≠ 0 ∧ r.1 + r.2 ≤ N) →
    ∃ F : Finset Nat, F.card = regions_total l ∧
      (∀ x ∈ F, ∃ r ∈ l, r.1 ≤ x ∧ x < r.1 + r.2) ∧ F ⊆ Finset.Ico 1 N := by
  intro l
  induction l with
  | nil =>
    intro _ _
    exact ⟨∅, rfl, fun x hx => absurd hx (Finset.not_mem_empty x), Finset.empty_subset _⟩
  | cons r l ih =>
    intro hp hb
    obtain ⟨F, hF1, hF2, hF3⟩ := ih (List.Pairwise.of_cons hp)
      (fun r' hr' => hb r' (List.mem_cons_of_mem _ hr'))
    have hr := hb r (List.mem_cons_self _ _)
    have hdis : Disjoint (Finset.Ico r.1 (r.1 + r.2)) F := by
      rw [Finset.disjoint_left]
      intro x hx hxF
      obtain ⟨r', hr', h1, h2⟩ := hF2 x hxF
      have hd := List.rel_of_pairwise_cons hp hr'
      rw [Finset.mem_Ico] at hx
      unfold Disj at hd
      omega
    refine ⟨Finset.Ico r.1 (r.1 + r.2) ∪ F, ?_, ?_, ?_⟩
    · rw [Finset.card_union_of_disjoint hdis, Nat.card_Ico, hF1, regions_total_cons]
      omega
    · intro x hx
      rw [Finset.mem_union] at hx
      rcases hx with hx | hx
      · rw [Finset.mem_Ico] at hx
        exact ⟨r, List.mem_cons_self _ _, hx.1, hx.2⟩
      · obtain ⟨r', hr', h12⟩ := hF2 x hx
        exact ⟨r', List.mem_cons_of_mem _ hr', h12⟩
    · apply Finset.union_subset _ hF3
      intro x hx
      rw [Finset.mem_Ico] at hx ⊢
      omega

theorem regions_total_bound (l : List Block) (hp : l.Pairwise Disj)
    (h0 : ∀ r ∈ l, r.1 ≠ 0) (ha : Addressable l) : regions_total l < SIZE_RANGE := by
  obtain ⟨F, hF1, _, hF3⟩ := regions_total_lt SIZE_RANGE l hp
    (fun r hr => ⟨h0 r hr, ha r hr⟩)
  have := Finset.card_le_card hF3
  rw [Nat.card_Ico, hF1] at this
  have h1 : 0 < SIZE_RANGE := by simp only [SIZE_RANGE]; omega
  omega

theorem mem_regions_after : ∀ (log : List HeapEvent) (regs : List Block) (r : Block),
    r ∈ regs → r ∈ regions_after regs log := by
  intro log
  induction log with
  | nil => intro regs r h; exact h
  | cons e log ih =>
    intro regs r h
    obtain ⟨sz, a⟩ := e
    cases a with
    | none => exact ih regs r h
    | some a => exact ih _ r (List.mem_cons_of_mem _ h)

theorem regions_after_pairwise : ∀ (log : List HeapEvent) (regs : List Block),
    regs.Pairwise Disj → HeapOK regs log → (regions_after regs log).Pairwise Disj := by
  intro log
  induction log with
  | nil => intro regs h _; exact h
  | cons e log ih =>
    intro regs h hok
    obtain ⟨sz, a⟩ := e
    cases a with
    | none => exact ih regs h hok
    | some a =>
      obtain ⟨_, hd, hok'⟩ := hok
      exact ih _ (List.pairwise_cons.2 ⟨hd, h⟩) hok'

/-- The regions of a reachable state are pairwise disjoint. -/
theorem reach_regs_disjoint {s : Pool} {live : List (Nat × Nat)} {regs : List Block}
    (h : Reach s live regs) : regs.Pairwise Disj := by
  induction h with
  | init m => exact List.Pairwise.nil
  | allocate _ _ _ hok _ ih => exact regions_after_pairwise _ _ ih hok
  | allocate_failed _ _ _ hok _ ih => exact regions_after_pairwise _ _ ih hok
  | deallocate _ _ _ ih => exact ih
  | oversized _ _ _ _ ih => exact ih
  | oversized_free _ _ _ ih => exact ih
  | client_write _ _ _ ih => exact ih

/-- A deallocation leaves `heap_size` as it is. -/
theorem deallocate_heap_size (s s1 : Pool) (p n : Nat) (h : _deallocate s p n = some s1) :
    s1.heap_size = s.heap_size := by
  unfold _deallocate at h
  split at h
  · simp only [dealloc, Option.some.injEq] at h
    rw [← h]
  · dsimp only at h
    split at h
    · split at h
      · cases h
      · simp only [Option.some.injEq] at h
        rw [← h]
    · cases h

/-- One pooled request keeps `heap_size` equal to the number of bytes
obtained from the heap, when the regions lie in the address space. -/
theorem heap_step {s s1 : Pool} {live : List (Nat × Nat)} {regs : List Block} {size : Nat}
    {log : List HeapEvent} (hinv : Inv s live regs) (hsum : s.heap_size = regions_total regs)
    (hdis : regs.Pairwise Disj) (heff : HeapEffect s size s1 log) (hok : HeapOK regs log)
    (haddr : Addressable (regions_after regs log)) :
    s1.heap_size = regions_total (regions_after regs log) ∧ s.heap_size ≤ s1.heap_size ∧
    (∀ a, log = [(request_size s size, some a)] →
      s1.heap_size = s.heap_size + request_size s size) := by
  obtain ⟨fl, core, _, _, _⟩ := hinv
  rcases heff with ⟨e1, e2 | e2⟩ | ⟨a, e1, e2, _⟩
  · subst e2
    refine ⟨by rw [e1]; exact hsum, by omega, ?_⟩
    intro a ha
    cases ha
  · subst e2
    refine ⟨by rw [e1]; exact hsum, by omega, ?_⟩
    intro a ha
    cases ha
  · subst e1
    obtain ⟨ha0, hd, _⟩ := hok
    have hb := regions_total_bound ((a, request_size s size) :: regs)
      (List.pairwise_cons.2 ⟨hd, hdis⟩)
      (fun r hr => by
        rcases List.mem_cons.1 hr with h | h
        · rw [h]; exact ha0
        · exact core.regs_ok r h)
      haddr
    rw [regions_total_cons, ← hsum] at hb
    have hmod : (s.heap_size + request_size s size) % SIZE_RANGE =
        s.heap_size + request_size s size := Nat.mod_eq_of_lt (by omega)
    rw [hmod] at e2
    refine ⟨?_, by omega, fun _ _ => e2⟩
    show s1.heap_size = regions_total ((a, request_size s size) :: regs)
    rw [regions_total_cons, ← hsum, e2]
    exact Nat.add_comm _ _

/-- In a reachable state whose regions lie in the address space,
`heap_size` is the number of bytes obtained from the heap. -/
theorem reach_heap_size {s : Pool} {live : List (Nat × Nat)} {regs : List Block}
    (h : Reach s live regs) : Addressable regs → s.heap_size = regions_total regs := by
  induction h with
  | init m => intro _; rfl
  | @allocate s s1 live regs heap n p log hr h1 h2 hok he ih =>
    intro haddr
    have heff := allocate_effect (reach_inv hr) n h1 h2 heap
    rw [he] at heff
    exact (heap_step (reach_inv hr) (ih fun r hr => haddr r (mem_regions_after _ _ _ hr))
      (reach_regs_disjoint hr) heff hok haddr).1
  | @allocate_failed s s1 live regs heap n log hr h1 h2 hok he ih =>
    intro haddr
    have heff := allocate_effect (reach_inv hr) n h1 h2 heap
    rw [he] at heff
    exact (heap_step (reach_inv hr) (ih fun r hr => haddr r (mem_regions_after _ _ _ hr))
      (reach_regs_disjoint hr) heff hok haddr).1
  | deallocate _ _ hd ih =>
    intro haddr
    rw [deallocate_heap_size _ _ _ _ hd]
    exact ih haddr
  | oversized _ hn he hs ih =>
    intro haddr
    rw [← he] at hs
    rw [allocate_oversized_state _ _ _ _ hn hs]
    exact ih haddr
  | oversized_free _ hn hd ih =>
    intro haddr
    rw [deallocate_oversized_state _ _ _ _ hn hd]
    exact ih haddr
  | client_write _ _ _ ih =>
    intro haddr
    exact ih haddr

/-- In a reachable state, a region that the heap grants next to the regions
it granted before, all inside the address space, does not make `heap_size`
wrap around. -/
theorem grant_no_wrap {s : Pool} {live : List (Nat × Nat)} {regs : List Block}
    (hr : Reach s live regs) (a req : Nat) (hok : HeapOK regs [(req, some a)])
    (haddr : Addressable ((a, req) :: regs)) : s.heap_size + req < SIZE_RANGE := by
  obtain ⟨fl, core, _, _, _⟩ := reach_inv hr
  have hsum := reach_heap_size hr (fun r hr => haddr r (List.mem_cons_of_mem _ hr))
  obtain ⟨ha0, hd, _⟩ := hok
  have hb := regions_total_bound ((a, req) :: regs)
    (List.pairwise_cons.2 ⟨hd, reach_regs_disjoint hr⟩)
    (fun r hr => by
      rcases List.mem_cons.1 hr with h | h
      · rw [h]; exact ha0
      · exact core.regs_ok r h)
    haddr
  rw [regions_total_cons, ← hsum] at hb
  have e : ((a, req) : Block).2 = req := rfl
  rw [e] at hb
  omega

/-- C19, as stated, fails in three ways.  The request is computed in
`size_t`: `allocate_chunk(2 ^ 62, 3)` from the initial state asks the heap
for `2 ^ 63` bytes, not for `2 * size * count = 3 * 2 ^ 63`.  The sum
`heap_size + request` is computed in `size_t` too: with
`heap_size = 2 ^ 64 - 16`, `allocate_chunk(64, 20)` asks for
`2560 + 2 ^ 60` bytes and leaves `heap_size = 2 ^ 60 + 2544`, which is
smaller than before.  And with a remainder above `MAX_BYTES` (an arena of
`131072` bytes, blocks of `2 ^ 20` bytes) the salvage indexes `free_list`
outside the array before any request is made. -/
theorem growth_wraps :
    (∃ v s1, allocate_chunk 4611686018427387904 [some 4096] (init fun _ => 0) 3 =
        .ret v s1 [(9223372036854775808, some 4096)] ∧
      2 * (4611686018427387904 * 3) + round_up ((init fun _ => 0).heap_size / 16) ≠
        9223372036854775808) ∧
    (∃ s1, allocate_chunk 64 [some 4096]
        { init (fun _ => 0) with heap_size := 18446744073709551600 } 20 =
        .ret (4096, 20) s1 [(1152921504606849536, some 4096)] ∧
      2 * (64 * 20) + round_up (18446744073709551600 / 16) = 1152921504606849536 ∧
      s1.heap_size = 1152921504606849520 ∧
      s1.heap_size < 18446744073709551600) ∧
    allocate_chunk 1048576 [some 4096]
      { init (fun _ => 0) with start_mem_pool := 4096, end_mem_pool := 135168 } 1 = .fault := by
  refine ⟨⟨_, _, rfl, by decide⟩, ⟨_, rfl, by decide, rfl, by decide⟩, rfl⟩

/-- C19 (adaptive growth, amended).  Whenever `allocate_chunk(size, cnt)`
takes the replenish path (both tests on the span fail) with a remainder of
at most `MAX_BYTES` and the value
`req = 2 * size * cnt + round_up(heap_size / 16)` inside the range of
`size_t`, it asks the heap for exactly `req` bytes, with the `heap_size` of
before the request (`40 * round_up(n)` for the first allocation of a fresh
allocator).  On a grant at `a` the call goes on with
`heap_size + req` modulo `2 ^ 64` as the new `heap_size` and with the arena
`[a, a + req)`, whose span is exactly `req`; for a count of at least one it
returns `a` and the count with no further request, and `heap_size` is
exactly `heap_size + req` when that sum fits in a `size_t`.  On heap
failure `heap_size` is unchanged.  Carving, deallocation and the oversized
path leave `heap_size` as it is in every state.  In a reachable state, for
a heap whose regions are disjoint parts of the address space, the sum does
not wrap, `heap_size` is the number of bytes obtained from the heap,
popping and `refill` leave it as it is, and no call decreases it. -/
theorem adaptive_growth (s : Pool) (size : Nat) (cnt : Int) (req : Nat)
    (htot : bytes_left s < size * to_size_t cnt % SIZE_RANGE) (hbl : bytes_left s < size)
    (hrem : bytes_left s ≤ MAX_BYTES)
    (hreq : (req : Int) = 2 * (size : Int) * cnt + (round_up (s.heap_size / 16) : Nat))
    (hfit : req < SIZE_RANGE) :
    (∀ a rest, allocate_chunk size (some a :: rest) s cnt =
      (allocate_chunk size rest
        { salvaged s with
          start_mem_pool := a,
          heap_size := (s.heap_size + req) % SIZE_RANGE,
          end_mem_pool := a + req } cnt).logged (req, some a)) ∧
    (∀ a, bytes_left
        { salvaged s with
          start_mem_pool := a,
          heap_size := (s.heap_size + req) % SIZE_RANGE,
          end_mem_pool := a + req } = req) ∧
    (1 ≤ cnt → ∀ a rest, ∃ s1,
      allocate_chunk size (some a :: rest) s cnt = .ret (a, cnt) s1 [(req, some a)] ∧
      s1.heap_size = (s.heap_size + req) % SIZE_RANGE ∧
      (s.heap_size + req < SIZE_RANGE → s1.heap_size = s.heap_size + req) ∧
      s1.end_mem_pool = a + req ∧ s1.start_mem_pool = a + size * cnt.toNat) ∧
    (∀ rest,
      (∃ v s1, allocate_chunk size (none :: rest) s cnt = .ret v s1 [(req, none)] ∧
        s1.heap_size = s.heap_size) ∨
      (∃ s1, allocate_chunk size (none :: rest) s cnt = .bad_alloc s1 [(req, none)] ∧
        s1.heap_size = s.heap_size)) ∧
    (∀ (m : Nat → Nat) (n a : Nat) (rest : List (Option Nat)), 1 ≤ n → n ≤ MAX_BYTES →
      ∃ s1, _allocate (some a :: rest) (init m) n = .ret a s1 [(40 * round_up n, some a)]) ∧
    (∀ (size1 : Nat) (cnt1 : Int) (heap : List (Option Nat)), size1 ≤ bytes_left s →
      ∃ v s1, allocate_chunk size1 heap s cnt1 = .ret v s1 [] ∧ s1.heap_size = s.heap_size) ∧
    (∀ p m s1, _deallocate s p m = some s1 → s1.heap_size = s.heap_size) ∧
    (∀ m heap s1, MAX_BYTES < m → (_allocate heap s m).state? = some s1 →
      s1.heap_size = s.heap_size) ∧
    (∀ live regs, Reach s live regs →
      (∀ a, HeapOK regs [(req, some a)] → Addressable ((a, req) :: regs) →
        s.heap_size + req < SIZE_RANGE) ∧
      (Addressable regs → s.heap_size = regions_total regs) ∧
      ∀ n, 1 ≤ n → n ≤ MAX_BYTES →
        (s.free_list (get_free_list n) ≠ 0 → ∀ heap, ∃ p s1,
          _allocate heap s n = .ret p s1 [] ∧ s1.heap_size = s.heap_size) ∧
        (∀ heap v cnt0 sa sb log log2,
          allocate_chunk (round_up n) heap s 20 = .ret (v, cnt0) sa log →
          refill heap s (round_up n) = .ret v sb log2 → sb.heap_size = sa.heap_size) ∧
        (∀ heap s1 log, (_allocate heap s n).state? = some s1 →
          (_allocate heap s n).log? = some log → HeapOK regs log →
          Addressable (regions_after regs log) →
          s.heap_size ≤ s1.heap_size ∧
          s1.heap_size = regions_total (regions_after regs log))) := by
  have hB := bytes_to_get_eq size s.heap_size cnt req hreq hfit
  have hstep := fun a rest => allocate_chunk_grant_step_any size a cnt rest s htot hbl hrem
  rw [hB] at hstep
  have hspan : ∀ a, bytes_left
        { salvaged s with
          start_mem_pool := a,
          heap_size := (s.heap_size + req) % SIZE_RANGE,
          end_mem_pool := a + req } = req := by
    intro a
    rw [bytes_left_eq _ (by simp) (by simpa using hfit)]
    simp
  refine ⟨hstep, hspan, ?_, ?_, ?_, ?_, ?_, ?_, ?_⟩
  · intro hc a rest
    obtain ⟨ht1, ht2⟩ := total_le_request size s.heap_size cnt req (by omega) hc hreq hfit
    rw [hstep, allocate_chunk_fast size rest _ cnt (by rw [hspan, ht1]; exact ht2), ht1]
    refine ⟨_, rfl, rfl, ?_, rfl, rfl⟩
    intro h
    exact Nat.mod_eq_of_lt h
  · intro rest
    obtain ⟨hd, he⟩ := allocate_chunk_refused_step_any size cnt rest s htot hbl hrem
    rw [hB] at hd he
    rcases scavenge_any (salvaged s) size (by omega) with h | ⟨i', h1, h2, _, _, h5⟩
    · exact Or.inr ⟨_, he h, salvaged_heap_size s⟩
    · have hi : i' < SIZE_RANGE := by simp only [MAX_BYTES, SIZE_RANGE] at *; omega
      obtain ⟨v, s1, hl, hh, _⟩ := allocate_chunk_lands size rest _ cnt
        (show size ≤ bytes_left { salvaged s with
          free_list := Function.update (salvaged s).free_list (get_free_list i')
            ((salvaged s).mem ((salvaged s).free_list (get_free_list i'))),
          start_mem_pool := (salvaged s).free_list (get_free_list i'),
          end_mem_pool := (salvaged s).free_list (get_free_list i') + i' } by
          rw [bytes_left_eq _ (by simp) (by simpa using hi)]
          simpa using h1)
      refine Or.inl ⟨v, s1, ?_, ?_⟩
      · rw [hd _ h5, hl]
        rfl
      · rw [hh]
        exact salvaged_heap_size s
  · intro m n a rest h1 h2
    have h := allocate_grant_ret (inv_init m) a rest n h1 h2 rfl
      (by have := round_up_pos n h1 h2; simpa [init] using this)
    rw [request_size_init] at h
    exact h
  · intro size1 cnt1 heap h
    obtain ⟨v, s1, hl, hh, _⟩ := allocate_chunk_lands size1 heap s cnt1 h
    exact ⟨v, s1, hl, hh⟩
  · intro p m s1 hd
    exact deallocate_heap_size s s1 p m hd
  · intro m heap s1 hm hs
    rw [allocate_oversized_state heap s s1 m hm hs]
  · intro live regs hr
    have hinv := reach_inv hr
    refine ⟨fun a hok haddr => grant_no_wrap hr a _ hok haddr, reach_heap_size hr, ?_⟩
    intro n h1 h2
    have hk := get_free_list_lt n h1 h2
    have hru := round_up_get_free_list n h1 h2
    obtain ⟨hs1, hs2, _⟩ := bucket_size_bounds _ hk
    rw [← hru] at hs1 hs2
    refine ⟨?_, ?_, ?_⟩
    · intro hz heap
      exact ⟨_, _, allocate_pop_eq heap s n h1 h2 hz, rfl⟩
    · intro heap v cnt0 sa sb log log2 hch hrf
      have hce := allocate_chunk_effect hinv (get_free_list n) hk heap
      rw [← hru, hch] at hce
      obtain ⟨s2', hr2, _, _, hh2, _⟩ := refill_ret heap s sa _ v cnt0 log hch cnt0.toNat
        (by have := hce.1; omega) (by have := hce.1; omega) hs1
        (by rw [hru, get_free_list_bucket _ hk]; exact hk)
      rw [hr2] at hrf
      obtain ⟨_, hs, _⟩ := Outcome.ret.inj hrf
      rw [← hs]
      exact hh2
    · intro heap s1 log hst hlg hok haddr
      have heff := allocate_effect hinv n h1 h2 heap
      have hsum := reach_heap_size hr (fun r hr => haddr r (mem_regions_after _ _ _ hr))
      cases ho : _allocate heap s n with
      | ret p s1' log' =>
        rw [ho] at heff hst hlg
        simp only [Outcome.state?, Outcome.log?, Option.some.injEq] at hst hlg
        subst hst hlg
        have := heap_step hinv hsum (reach_regs_disjoint hr) heff hok haddr
        exact ⟨this.2.1, this.1⟩
      | bad_alloc s1' log' =>
        rw [ho] at heff hst hlg
        simp only [Outcome.state?, Outcome.log?, Option.some.injEq] at hst hlg
        subst hst hlg
        have := heap_step hinv hsum (reach_regs_disjoint hr) heff hok haddr
        exact ⟨this.2.1, this.1⟩
      | fault =>
        rw [ho] at heff
        exact heff.elim
      | no_reply =>
        rw [ho] at hst
        simp [Outcome.state?] at hst

/-- After `_allocate(192)` (a grant of 7680 bytes at 4096) and
`_allocate(3776)` (which leaves 64 bytes in the arena), a call
`allocate_chunk(128, 20)` takes the replenish path and asks for
`2 * 128 * 20 + round_up(7680 / 16) = 5632` bytes. -/
theorem adaptive_growth_witness :
    ∃ s1 s2, _allocate [some 4096] (init fun _ => 0) 192 = .ret 4096 s1 [(7680, some 4096)] ∧
      _allocate [] s1 3776 = .ret 7936 s2 [] ∧
      Reach s2 [(7936, 3776), (4096, 192)] [(4096, 7680)] ∧
      bytes_left s2 = 64 ∧ s2.heap_size = 7680 ∧ s2.free_list (get_free_list 192) ≠ 0 ∧
      (∀ a rest, allocate_chunk 128 (some a :: rest) s2 20 =
        (allocate_chunk 128 rest
          { salvaged s2 with
            start_mem_pool := a,
            heap_size := (s2.heap_size + 5632) % SIZE_RANGE,
            end_mem_pool := a + 5632 } 20).logged (5632, some a)) ∧
      (∀ a, bytes_left
          { salvaged s2 with
            start_mem_pool := a,
            heap_size := (s2.heap_size + 5632) % SIZE_RANGE,
            end_mem_pool := a + 5632 } = 5632) ∧
      ((1 : Int) ≤ 20 → ∀ a rest, ∃ s1,
        allocate_chunk 128 (some a :: rest) s2 20 = .ret (a, 20) s1 [(5632, some a)] ∧
        s1.heap_size = (s2.heap_size + 5632) % SIZE_RANGE ∧
        (s2.heap_size + 5632 < SIZE_RANGE → s1.heap_size = s2.heap_size + 5632) ∧
        s1.end_mem_pool = a + 5632 ∧ s1.start_mem_pool = a + 128 * (20 : Int).toNat) ∧
      (∀ rest,
        (∃ v s1, allocate_chunk 128 (none :: rest) s2 20 = .ret v s1 [(5632, none)] ∧
          s1.heap_size = s2.heap_size) ∨
        (∃ s1, allocate_chunk 128 (none :: rest) s2 20 = .bad_alloc s1 [(5632, none)] ∧
          s1.heap_size = s2.heap_size)) ∧
      (∀ (m : Nat → Nat) (n a : Nat) (rest : List (Option Nat)), 1 ≤ n → n ≤ MAX_BYTES →
        ∃ s1, _allocate (some a :: rest) (init m) n = .ret a s1 [(40 * round_up n, some a)]) ∧
      (∀ (size1 : Nat) (cnt1 : Int) (heap : List (Option Nat)), size1 ≤ bytes_left s2 →
        ∃ v s1, allocate_chunk size1 heap s2 cnt1 = .ret v s1 [] ∧ s1.heap_size = s2.heap_size) ∧
      (∀ p m s1, _deallocate s2 p m = some s1 → s1.heap_size = s2.heap_size) ∧
      (∀ m heap s1, MAX_BYTES < m → (_allocate heap s2 m).state? = some s1 →
        s1.heap_size = s2.heap_size) ∧
      (∀ live regs, Reach s2 live regs →
        (∀ a, HeapOK regs [(5632, some a)] → Addressable ((a, 5632) :: regs) →
          s2.heap_size + 5632 < SIZE_RANGE) ∧
        (Addressable regs → s2.heap_size = regions_total regs) ∧
        ∀ n, 1 ≤ n → n ≤ MAX_BYTES →
          (s2.free_list (get_free_list n) ≠ 0 → ∀ heap, ∃ p s1,
            _allocate heap s2 n = .ret p s1 [] ∧ s1.heap_size = s2.heap_size) ∧
          (∀ heap v cnt0 sa sb log log2,
            allocate_chunk (round_up n) heap s2 20 = .ret (v, cnt0) sa log →
            refill heap s2 (round_up n) = .ret v sb log2 → sb.heap_size = sa.heap_size) ∧
          (∀ heap s1 log, (_allocate heap s2 n).state? = some s1 →
            (_allocate heap s2 n).log? = some log → HeapOK regs log →
            Addressable (regions_after regs log) →
            s2.heap_size ≤ s1.heap_size ∧
            s1.heap_size = regions_total (regions_after regs log))) :=
  have r1 : Reach _ [(4096, 192)] [(4096, 7680)] :=
    @Reach.allocate _ _ _ _ [some 4096] 192 _ [(7680, some 4096)]
      (Reach.init fun _ => 0) (by decide) (by decide)
      ⟨by decide, fun r hr => absurd hr (List.not_mem_nil _), trivial⟩ rfl
  have r2 : Reach _ [(7936, 3776), (4096, 192)] [(4096, 7680)] :=
    @Reach.allocate _ _ _ _ [] 3776 _ [] r1 (by decide) (by decide) trivial rfl
  ⟨_, _, rfl, rfl, r2, by decide, rfl, by decide,
    adaptive_growth _ 128 20 5632 (by decide) (by decide) (by decide) (by decide) (by decide)⟩

end pool_alloc
